import Mathlib

/-!
# GatorTaxi: a ride scheduler over a min-heap and a left-leaning red-black tree

Shallow embedding of `gatorTaxi.cpp`.

* A C++ `Node` object is split in two.  Its payload (`ride_number`, `ride_cost`,
  `trip_duration`, `index_in_heap_vector`) lives in an arena `Mem`, addressed by the
  allocation number of the object (a `Nat` handle standing for the `Node*`).  Its
  link fields (`left`, `right`, `color`) are the constructor arguments of `Tree`,
  whose nodes carry the handle of the object they stand for.  Both the heap array and
  the tree therefore refer to the same payload, as the pointers of the source do.
* `int` is `Int`.  The two arithmetic results on ride data, `2 * td` and
  `ride_cost + 10` in `update_trip`, are reduced by `wrap32`, the two's-complement
  wrap-around of the compiled program (signed overflow is undefined in the source).
  The index arithmetic of the heap (`x / 2`, `2 * x + 1`, `sz ± 1`) is exact
  whenever its operands are slot numbers of the 2002-slot array, which is the case
  for the `index_in_heap_vector` of every live node (C14).
* `RBTUtils::failure` has no initialiser; its value at start-up is a parameter of
  the initial state.
* Dereferencing a null pointer or indexing `heap_vector` outside its bounds is
  undefined in the source; the model reports it as a `Fault`.
* `while` loops and the recursive deletes, which are not structurally recursive, take
  a fuel argument; running out of fuel is the separate fault `Fault.fuel`.
-/

namespace GatorTaxi

/-! ## Data model -/

/-- Colour tag of a tree link, the `enum { R, B }` of `Node`. -/
inductive Color where
  | R
  | B
deriving DecidableEq, Repr

/-- Payload fields of a `Node` object. -/
structure Node where
  ride_number : Int
  ride_cost : Int
  trip_duration : Int
  index_in_heap_vector : Int
deriving DecidableEq, Repr

/-- Arena of all `Node` objects allocated so far; a `Node*` is an index into it.
The source never frees a node. -/
abbrev Mem := List Node

/-- Ways in which the source leaves defined behaviour (or the model its fuel). -/
inductive Fault where
  | nullDeref
  | outOfBounds
  | fuel
deriving DecidableEq, Repr

/-- Result of a step that may leave defined behaviour. -/
abbrev Res (α : Type) := Except Fault α

/-- The value an `int` holds after an arithmetic result `x` that may have left the
32-bit range: `x` reduced modulo `2^32` into `[-2^31, 2^31)`. -/
def wrap32 (x : Int) : Int := (x + 2147483648) % 4294967296 - 2147483648

/-- Read the object behind a handle. -/
def rd (m : Mem) (p : Nat) : Node := m.getD p ⟨0, 0, 0, 0⟩

/-- The constructor `Node(id, cost, duration)`: allocates a fresh object and returns
its handle.  The source leaves `index_in_heap_vector` unset; the model stores `0`
(the field is written by `HeapUtils::insert` before it is ever read). -/
def alloc (m : Mem) (id cost duration : Int) : Mem × Nat :=
  (m ++ [⟨id, cost, duration, 0⟩], m.length)

/-- `Node::less`: order on (cost, then duration). -/
def Node.less (a other : Node) : Bool :=
  if a.ride_cost = other.ride_cost then
    decide (a.trip_duration < other.trip_duration)
  else
    decide (a.ride_cost < other.ride_cost)

/-- `Node::swap_index` on the objects behind handles `a` and `b`. -/
def swap_index (m : Mem) (a b : Nat) : Mem :=
  let temp := (rd m a).index_in_heap_vector
  let m1 := m.set a { rd m a with index_in_heap_vector := (rd m b).index_in_heap_vector }
  m1.set b { rd m1 b with index_in_heap_vector := temp }

/-! ## HeapUtils -/

/-- The data members of `HeapUtils`: the backing array (entries are `Node*`, `none`
is `nullptr`) and `sz`, the index of the last live slot (`-1` when empty). -/
structure HeapUtils where
  heap_vector : List (Option Nat)
  sz : Int
deriving DecidableEq, Repr

namespace HeapUtils

/-- The constructor: 2002 null slots, `sz = -1`. -/
def init : HeapUtils := ⟨List.replicate 2002 none, -1⟩

/-- Element access `heap_vector[a]`. -/
def get (h : HeapUtils) (a : Int) : Res (Option Nat) :=
  if 0 ≤ a ∧ a < h.heap_vector.length then .ok (h.heap_vector.getD a.toNat none)
  else .error .outOfBounds

/-- Assignment `heap_vector[a] = v`. -/
def put (h : HeapUtils) (a : Int) (v : Option Nat) : Res HeapUtils :=
  if 0 ≤ a ∧ a < h.heap_vector.length then
    .ok { h with heap_vector := h.heap_vector.set a.toNat v }
  else .error .outOfBounds

/-- Dereference of a `Node*`. -/
def deref (p : Option Nat) : Res Nat :=
  match p with
  | some q => .ok q
  | none => .error .nullDeref

/-- `HeapUtils::less(a, b)`. -/
def less (m : Mem) (h : HeapUtils) (a b : Int) : Res Bool := do
  let pa ← h.get a
  let pb ← h.get b
  let qa ← deref pa
  let qb ← deref pb
  pure ((rd m qa).less (rd m qb))

/-- `HeapUtils::swap_nodes(a, b)`: exchange the two slots, then exchange the
`index_in_heap_vector` fields of the two objects now in them. -/
def swap_nodes (m : Mem) (h : HeapUtils) (a b : Int) : Res (Mem × HeapUtils) := do
  let pa ← h.get a
  let pb ← h.get b
  let h1 ← h.put a pb
  let h2 ← h1.put b pa
  let na ← h2.get a
  let nb ← h2.get b
  let qa ← deref na
  let qb ← deref nb
  pure (swap_index m qa qb, h2)

/-- The loop of `HeapUtils::fix_heap_up`. -/
def fix_heap_up_loop : Nat → Mem → HeapUtils → Int → Res (Mem × HeapUtils)
  | 0, _, _, _ => .error .fuel
  | fuel + 1, m, h, x =>
    if 0 < x then do
      let c ← less m h x (x / 2)
      if c then do
        let (m1, h1) ← swap_nodes m h x (x / 2)
        fix_heap_up_loop fuel m1 h1 (x / 2)
      else pure (m, h)
    else pure (m, h)

/-- `HeapUtils::fix_heap_up(x)`. -/
def fix_heap_up (m : Mem) (h : HeapUtils) (x : Int) : Res (Mem × HeapUtils) :=
  fix_heap_up_loop (x.toNat + 1) m h x

/-- The loop of `HeapUtils::fix_heap_down`. -/
def fix_heap_down_loop : Nat → Mem → HeapUtils → Int → Res (Mem × HeapUtils)
  | 0, _, _, _ => .error .fuel
  | fuel + 1, m, h, x =>
    if 2 * x + 1 ≤ h.sz then do
      let y := 2 * x + 1
      let c ← (if y < h.sz then less m h (y + 1) y else pure false)
      let y := if c then y + 1 else y
      let b ← less m h x y
      if b then pure (m, h)
      else do
        let (m1, h1) ← swap_nodes m h x y
        fix_heap_down_loop fuel m1 h1 y
    else pure (m, h)

/-- `HeapUtils::fix_heap_down(x)`. -/
def fix_heap_down (m : Mem) (h : HeapUtils) (x : Int) : Res (Mem × HeapUtils) :=
  fix_heap_down_loop (h.sz.toNat + 2) m h x

/-- `HeapUtils::pop_min`: the returned pointer is `none` for `nullptr`. -/
def pop_min (m : Mem) (h : HeapUtils) : Res (Option Nat × Mem × HeapUtils) :=
  if h.sz = -1 then pure (none, m, h)
  else do
    let ret ← h.get 0
    let (m1, h1) ← swap_nodes m h 0 h.sz
    let h2 ← h1.put h1.sz none
    let h3 := { h2 with sz := h2.sz - 1 }
    let (m2, h4) ← fix_heap_down m1 h3 0
    pure (ret, m2, h4)

/-- `HeapUtils::insert(x)`. -/
def insert (m : Mem) (h : HeapUtils) (x : Nat) : Res (Mem × HeapUtils) := do
  let h1 := { h with sz := h.sz + 1 }
  let h2 ← h1.put h1.sz (some x)
  let m1 := m.set x { rd m x with index_in_heap_vector := h2.sz }
  fix_heap_up m1 h2 h2.sz

/-- `HeapUtils::update_by_index(ex)`. -/
def update_by_index (m : Mem) (h : HeapUtils) (ex : Int) : Res (Mem × HeapUtils) :=
  fix_heap_down m h ex

/-- `HeapUtils::delete_by_index(ex)`: `sz` is decremented before it is used as the
second slot of the swap. -/
def delete_by_index (m : Mem) (h : HeapUtils) (ex : Int) : Res (Mem × HeapUtils) := do
  let h1 := { h with sz := h.sz - 1 }
  let (m1, h2) ← swap_nodes m h1 ex h1.sz
  fix_heap_down m1 h2 ex

end HeapUtils

/-! ## RBTUtils -/

/-- Link structure of the red-black tree: `nil` is `nullptr`, and `node l p c r` is
the `Node` object with handle `p`, whose fields are `left = l`, `color = c` and
`right = r`. -/
inductive Tree where
  | nil : Tree
  | node (left : Tree) (ptr : Nat) (color : Color) (right : Tree) : Tree
deriving DecidableEq, Repr

/-- The data members of `RBTUtils`. -/
structure RBTUtils where
  root : Tree
  failure : Bool
deriving DecidableEq, Repr

namespace RBTUtils

/-- The constructor `RBTUtils() : root(nullptr) {}`: it sets `root` and has no
initialiser for `failure`, which keeps the value `failure` its storage happens to
hold. -/
def init (failure : Bool) : RBTUtils := ⟨.nil, failure⟩

/-- `RBTUtils::is_red`. -/
def is_red : Tree → Bool
  | .nil => false
  | .node _ _ c _ => decide (c = Color.R)

/-- The other colour. -/
def flip : Color → Color
  | .R => .B
  | .B => .R

/-- `RBTUtils::toggle_color`. -/
def toggle_color : Tree → Tree
  | .nil => .nil
  | .node l p c r => .node l p (flip c) r

/-- `RBTUtils::fix_colors`: the guard tests `e->left` twice and never `e->right`. -/
def fix_colors : Tree → Tree
  | .nil => .nil
  | .node .nil p c r => .node .nil p c r
  | .node (.node ll lp lc lr) p c r =>
    .node (toggle_color (.node ll lp lc lr)) p (flip c) (toggle_color r)

/-- `RBTUtils::rotate_right`. -/
def rotate_right : Tree → Tree
  | .nil => .nil
  | .node (.node xl xp .R xr) p c r => .node xl xp c (.node xr p .R r)
  | .node l p c r => .node l p c r

/-- `RBTUtils::rotate_left`. -/
def rotate_left : Tree → Tree
  | .nil => .nil
  | .node l p c (.node xl xp .R xr) => .node (.node l p .R xl) xp c xr
  | .node l p c r => .node l p c r

/-- Test `is_red(x->left->left)` for a non-null `x->left = l`, and the fault when
`l` is null. -/
def is_red_left_of : Tree → Res Bool
  | .nil => .error .nullDeref
  | .node ll _ _ _ => .ok (is_red ll)

/-- `RBTUtils::move_left`. -/
def move_left : Tree → Tree
  | .nil => .nil
  | .node .nil p c r => .node .nil p c r
  | .node l p c .nil => .node l p c .nil
  | .node l p c r =>
    if !((!(decide (c = Color.R)) && is_red l && is_red r) ||
         (decide (c = Color.R) && !is_red l && !is_red r)) then .node l p c r
    else
      match fix_colors (.node l p c r) with
      | .node l1 p1 c1 (.node rl rp rc rr) =>
        if is_red rl then
          fix_colors (rotate_left (.node l1 p1 c1 (rotate_right (.node rl rp rc rr))))
        else .node l1 p1 c1 (.node rl rp rc rr)
      | t => t

/-- `RBTUtils::move_right`. -/
def move_right : Tree → Res Tree
  | .nil => .ok .nil
  | .node l p c r =>
    if !(decide (c = Color.R)) then .ok (.node l p c r)
    else if is_red r then .ok (.node l p c r)
    else do
      let rl ← is_red_left_of r
      if rl then pure (.node l p c r)
      else
        match fix_colors (.node l p c r) with
        | .node l1 p1 c1 r1 => do
          let ll ← is_red_left_of l1
          if ll then pure (fix_colors (rotate_right (.node l1 p1 c1 r1)))
          else pure (.node l1 p1 c1 r1)
        | .nil => .error .nullDeref

/-- `RBTUtils::re_balance`.  The source dereferences `x` unconditionally; every call
passes a non-null node. -/
def re_balance (x : Tree) : Tree :=
  let x := if (match x with
      | .node l _ _ r => is_red r && !is_red l
      | .nil => false) then rotate_left x else x
  let x := if (match x with
      | .node (.node ll _ .R _) _ _ _ => is_red ll
      | _ => false) then rotate_right x else x
  if (match x with
      | .node l _ _ r => is_red l && is_red r
      | .nil => false) then fix_colors x else x

/-- `RBTUtils::insert(Node* x, Node* z)`: returns the new subtree and the value of
`failure` after the call. -/
def insert_node (m : Mem) : Tree → Nat → Bool → Tree × Bool
  | .nil, z, failure => (.node .nil z .R .nil, failure)
  | .node l p c r, z, failure =>
    if (rd m p).ride_number = (rd m z).ride_number then (.node l p c r, true)
    else if (rd m p).ride_number < (rd m z).ride_number then
      let (r1, f1) := insert_node m r z failure
      (re_balance (.node l p c r1), f1)
    else
      let (l1, f1) := insert_node m l z failure
      (re_balance (.node l1 p c r), f1)

/-- Assignment `root->color = Node::B`. -/
def blacken : Tree → Tree
  | .nil => .nil
  | .node l p _ r => .node l p .B r

/-- `RBTUtils::insert(Node* z)`: the new state and the returned flag. -/
def insert (m : Mem) (t : RBTUtils) (z : Nat) : RBTUtils × Bool :=
  let (root, failure) := insert_node m t.root z t.failure
  let root := blacken root
  if failure then (⟨root, false⟩, false) else (⟨root, failure⟩, true)

/-- `RBTUtils::min_node`: the handle of the leftmost node. -/
def min_node : Tree → Res Nat
  | .nil => .error .nullDeref
  | .node .nil p _ _ => .ok p
  | .node (.node ll lp lc lr) _ _ _ => min_node (.node ll lp lc lr)

/-- `RBTUtils::delete_min`: returns the remaining subtree together with the colour
the unlinked node has when it is unlinked. -/
def delete_min : Nat → Tree → Res (Tree × Color)
  | 0, _ => .error .fuel
  | _ + 1, .nil => .error .nullDeref
  | _ + 1, .node .nil _ c _ => .ok (.nil, c)
  | fuel + 1, .node (.node ll lp lc lr) p c r =>
    let z := if !is_red (.node ll lp lc lr) && !is_red ll then
        move_left (.node (.node ll lp lc lr) p c r) else .node (.node ll lp lc lr) p c r
    match z with
    | .node l1 p1 c1 r1 => do
      let (l2, xc) ← delete_min fuel l1
      pure (re_balance (.node l2 p1 c1 r1), xc)
    | .nil => .error .nullDeref

/-- Number of nodes of a tree. -/
def size : Tree → Nat
  | .nil => 0
  | .node l _ _ r => size l + size r + 1

/-- `RBTUtils::delete_by_id(Node* z, int id)`. -/
def delete_by_id_node (m : Mem) : Nat → Tree → Int → Res Tree
  | 0, _, _ => .error .fuel
  | _ + 1, .nil, _ => .error .nullDeref
  | fuel + 1, .node l p c r, id =>
    if id < (rd m p).ride_number then do
      let b ← (if !is_red l then (do let b ← is_red_left_of l; pure (!b)) else pure false)
      let z := if b then move_left (.node l p c r) else .node l p c r
      match z with
      | .node l1 p1 c1 r1 => do
        let l2 ← delete_by_id_node m fuel l1 id
        pure (re_balance (.node l2 p1 c1 r1))
      | .nil => .error .nullDeref
    else
      let z := if is_red l then rotate_right (.node l p c r) else .node l p c r
      match z with
      | .nil => .error .nullDeref
      | .node l1 p1 c1 r1 =>
        if id = (rd m p1).ride_number ∧ r1 = .nil then pure .nil
        else do
          let b ← (if !is_red r1 then (do let b ← is_red_left_of r1; pure (!b))
                   else pure false)
          let z ← (if b then move_right (.node l1 p1 c1 r1) else pure (.node l1 p1 c1 r1))
          match z with
          | .nil => .error .nullDeref
          | .node l2 p2 c2 r2 =>
            if id = (rd m p2).ride_number then do
              let x ← min_node r2
              let (r3, xc) ← delete_min (size r2 + 1) r2
              pure (re_balance (.node l2 x xc r3))
            else do
              let r3 ← delete_by_id_node m fuel r2 id
              pure (re_balance (.node l2 p2 c2 r3))

/-- Assignment `root->color = Node::R`. -/
def redden : Tree → Tree
  | .nil => .nil
  | .node l p _ r => .node l p .R r

/-- `RBTUtils::delete_by_id(int id)`. -/
def delete_by_id (m : Mem) (t : RBTUtils) (id : Int) : Res RBTUtils :=
  match t.root with
  | .nil => .error .nullDeref
  | .node l p c r =>
    let root := if !is_red l && !is_red r then redden (.node l p c r) else .node l p c r
    do
      let root1 ← delete_by_id_node m (size root + 1) root id
      pure { t with root := root1 }

/-- `RBTUtils::get_inorder`, returning the handles visited. -/
def get_inorder : Tree → List Nat
  | .nil => []
  | .node l p _ r => get_inorder l ++ p :: get_inorder r

/-- `RBTUtils::inorder`: the ride numbers in in-order. -/
def inorder (m : Mem) (t : RBTUtils) : List Int :=
  (get_inorder t.root).map (fun p => (rd m p).ride_number)

/-- The loop of `RBTUtils::get_node`, started at `rc`. -/
def get_node_from (m : Mem) : Tree → Int → Option Nat
  | .nil, _ => none
  | .node l p _ r, id =>
    if (rd m p).ride_number < id then get_node_from m r id
    else if (rd m p).ride_number > id then get_node_from m l id
    else some p

/-- `RBTUtils::get_node`. -/
def get_node (m : Mem) (t : RBTUtils) (id : Int) : Option Nat :=
  get_node_from m t.root id

/-- `RBTUtils::get_nodes_in_range`, returning the nodes appended to `res`. -/
def get_nodes_in_range (m : Mem) : Tree → Int → Int → List Nat
  | .nil, _, _ => []
  | .node l p _ r, lo, hi =>
    if (rd m p).ride_number < lo ∨ (rd m p).ride_number > hi then []
    else get_nodes_in_range m l lo hi ++ p :: get_nodes_in_range m r lo hi

/-- `RBTUtils::get_nodes`. -/
def get_nodes (m : Mem) (t : RBTUtils) (lo hi : Int) : List Nat :=
  get_nodes_in_range m t.root lo hi

end RBTUtils

/-! ## HeapRBT -/

/-- The coordinator `HeapRBT`, which derives from `HeapUtils` and `RBTUtils`; `nodes`
is the arena of the `Node` objects it has allocated. -/
structure HeapRBT extends HeapUtils, RBTUtils where
  nodes : Mem
deriving DecidableEq, Repr

namespace HeapRBT

/-- A freshly constructed `HeapRBT`, for the value `failure` that the uninitialised
member `RBTUtils::failure` holds. -/
def init (failure : Bool) : HeapRBT :=
  { toHeapUtils := HeapUtils.init, toRBTUtils := RBTUtils.init failure, nodes := [] }

/-- What `HeapRBT::print_node` writes for the node `p`: its (id, cost, duration). -/
def print_node (m : Mem) (p : Nat) : Int × Int × Int :=
  ((rd m p).ride_number, (rd m p).ride_cost, (rd m p).trip_duration)

/-- `HeapRBT::print(int)`: `none` stands for the line `(0,0,0)` written when the id
is not found. -/
def print (s : HeapRBT) (ride_number : Int) : Option (Int × Int × Int) :=
  match RBTUtils.get_node s.nodes s.toRBTUtils ride_number with
  | none => none
  | some node => some (print_node s.nodes node)

/-- `HeapRBT::print(int, int)`: the tuples written, in order; the empty list stands
for the line `(0, 0, 0)`. -/
def print_range (s : HeapRBT) (ride_number_start ride_number_end : Int) :
    List (Int × Int × Int) :=
  (RBTUtils.get_nodes s.nodes s.toRBTUtils ride_number_start ride_number_end).map
    (print_node s.nodes)

/-- `HeapRBT::insert`: the flag is `inserted`; when it is `false` the source writes
`Duplicate RideNumber` and terminates the process, and the state returned is the one
reached at that point. -/
def insert (s : HeapRBT) (ride_number ride_cost trip_duration : Int) :
    Res (HeapRBT × Bool) :=
  let (m, z) := alloc s.nodes ride_number ride_cost trip_duration
  let (t, inserted) := RBTUtils.insert m s.toRBTUtils z
  if !inserted then pure ({ s with nodes := m, toRBTUtils := t }, false)
  else do
    let (m1, h) ← HeapUtils.insert m s.toHeapUtils z
    pure ({ toHeapUtils := h, toRBTUtils := t, nodes := m1 }, true)

/-- `HeapRBT::get_next_ride`: the new state and the tuple written (`none` stands for
`No active ride requests`). -/
def get_next_ride (s : HeapRBT) : Res (HeapRBT × Option (Int × Int × Int)) := do
  let (ride, m, h) ← HeapUtils.pop_min s.nodes s.toHeapUtils
  match ride with
  | some p =>
    let out := print_node m p
    let t ← RBTUtils.delete_by_id m s.toRBTUtils (rd m p).ride_number
    pure ({ toHeapUtils := h, toRBTUtils := t, nodes := m }, some out)
  | none => pure ({ s with toHeapUtils := h, nodes := m }, none)

/-- `HeapRBT::cancel_ride`. -/
def cancel_ride (s : HeapRBT) (ride_number : Int) : Res HeapRBT :=
  match RBTUtils.get_node s.nodes s.toRBTUtils ride_number with
  | some ride => do
    let (m, h) ← HeapUtils.delete_by_index s.nodes s.toHeapUtils
      (rd s.nodes ride).index_in_heap_vector
    let t ← RBTUtils.delete_by_id m s.toRBTUtils ride_number
    pure { toHeapUtils := h, toRBTUtils := t, nodes := m }
  | none => pure s

/-- `HeapRBT::update_trip`.  `2 * td` and `ride->ride_cost += 10` are `int`
arithmetic. -/
def update_trip (s : HeapRBT) (ride_number new_trip_duration : Int) : Res HeapRBT :=
  match RBTUtils.get_node s.nodes s.toRBTUtils ride_number with
  | none => pure s
  | some ride =>
    let td := (rd s.nodes ride).trip_duration
    if new_trip_duration > wrap32 (2 * td) then do
      let (m, h) ← HeapUtils.delete_by_index s.nodes s.toHeapUtils
        (rd s.nodes ride).index_in_heap_vector
      let t ← RBTUtils.delete_by_id m s.toRBTUtils ride_number
      pure { toHeapUtils := h, toRBTUtils := t, nodes := m }
    else if new_trip_duration > td then do
      let m := s.nodes.set ride { rd s.nodes ride with
        ride_cost := wrap32 ((rd s.nodes ride).ride_cost + 10),
        trip_duration := new_trip_duration }
      let (m1, h) ← HeapUtils.update_by_index m s.toHeapUtils
        (rd m ride).index_in_heap_vector
      pure { s with toHeapUtils := h, nodes := m1 }
    else pure s

end HeapRBT

/-! ## The command loop of `main` -/

/-- One input line of the command file, after tokenising.  The numbers are the
values `stoi` returned, which lie in the `int` range. -/
inductive Command where
  | Insert (ride_number ride_cost trip_duration : Int)
  | Print (ride_number : Int)
  | PrintRange (start finish : Int)
  | GetNextRide
  | CancelRide (ride_number : Int)
  | UpdateTrip (ride_number trip_duration : Int)
deriving DecidableEq, Repr

/-- One line of the output file: a tuple, a comma-joined range of tuples, `(0,0,0)`
for a failed lookup, `(0, 0, 0)` for an empty range, `No active ride requests`, or
`Duplicate RideNumber`. -/
inductive Line where
  | ride (t : Int × Int × Int)
  | rides (ts : List (Int × Int × Int))
  | zero
  | zero_range
  | no_active
  | duplicate
deriving DecidableEq, Repr

deriving instance DecidableEq for Except

/-- The body of the `while (getline(in, line))` loop for one command: the new state,
the line written (if any) and whether the process goes on (`false` after `exit(1)`). -/
def step (s : HeapRBT) : Command → Res (HeapRBT × Option Line × Bool)
  | .Insert a b c => do
    let (s1, inserted) ← HeapRBT.insert s a b c
    if inserted then pure (s1, none, true) else pure (s1, some .duplicate, false)
  | .Print a =>
    match HeapRBT.print s a with
    | some t => pure (s, some (.ride t), true)
    | none => pure (s, some .zero, true)
  | .PrintRange a b =>
    match HeapRBT.print_range s a b with
    | [] => pure (s, some .zero_range, true)
    | ts => pure (s, some (.rides ts), true)
  | .GetNextRide => do
    let (s1, o) ← HeapRBT.get_next_ride s
    match o with
    | some t => pure (s1, some (.ride t), true)
    | none => pure (s1, some .no_active, true)
  | .CancelRide a => do
    let s1 ← HeapRBT.cancel_ride s a
    pure (s1, none, true)
  | .UpdateTrip a b => do
    let s1 ← HeapRBT.update_trip s a b
    pure (s1, none, true)

/-- The lines a command has written, and flushed with `endl`, by the time it leaves
defined behaviour: `get_next_ride` prints the popped ride before it calls
`delete_by_id`; no other command writes before a call that can fault. -/
def lines_before_fault (s : HeapRBT) : Command → List Line
  | .GetNextRide =>
    match HeapUtils.pop_min s.nodes s.toHeapUtils with
    | .ok (some p, m, _) => [.ride (HeapRBT.print_node m p)]
    | _ => []
  | _ => []

/-- The command loop of `main`: the lines written, and the state in which the loop
ends or the fault that stops it. -/
def run : List Command → HeapRBT → List Line × Res HeapRBT
  | [], s => ([], .ok s)
  | c :: cs, s =>
    match step s c with
    | .error e => (lines_before_fault s c, .error e)
    | .ok (s1, o, go) =>
      if go then (o.toList ++ (run cs s1).1, (run cs s1).2) else (o.toList, .ok s1)

/-- Whether a run ended without a fault. -/
def finished : Res HeapRBT → Bool
  | .ok _ => true
  | .error _ => false

/-- The state in which the command loop ends when `failure` reads `false` at
start-up (the initial state if the loop faults).  Started with `failure` set, the
process ends at its first `Insert`, so these are the states with rides in them. -/
def state_after (cs : List Command) : HeapRBT :=
  match (run cs (HeapRBT.init false)).2 with
  | .ok s => s
  | .error _ => HeapRBT.init false

/-! ## Invariants -/

/-- The ride number of the object behind a handle. -/
def key (m : Mem) (p : Nat) : Int := (rd m p).ride_number

namespace RBTUtils

/-- The ride numbers of a tree in in-order. -/
def keys (m : Mem) (t : Tree) : List Int := (get_inorder t).map (key m)

/-- Invariant (a): binary-search-tree order on the ride number, that is, the
in-order sequence of ride numbers is strictly ascending. -/
def bst_order (m : Mem) (t : Tree) : Prop := (keys m t).Pairwise (fun a b => a < b)

instance (m : Mem) (t : Tree) : Decidable (bst_order m t) := by
  unfold bst_order; infer_instance

/-- Invariant (b): no node has a red right child. -/
def no_red_right : Tree → Bool
  | .nil => true
  | .node l _ _ r => !is_red r && no_red_right l && no_red_right r

/-- Invariant (c): no red node has a red left child. -/
def no_red_red : Tree → Bool
  | .nil => true
  | .node l _ c r => !(decide (c = Color.R) && is_red l) && no_red_red l && no_red_red r

/-- Number of black links on every path from the node to an empty link, when all
paths agree. -/
def black_height : Tree → Option Nat
  | .nil => some 0
  | .node l _ c r =>
    match black_height l, black_height r with
    | some a, some b => if a = b then some (if c = Color.B then a + 1 else a) else none
    | _, _ => none

/-- Invariants (a) to (e) of the key index. -/
def invariants (m : Mem) (t : Tree) : Prop :=
  bst_order m t ∧ no_red_right t = true ∧ no_red_red t = true ∧
    (black_height t).isSome = true ∧ is_red t = false

instance (m : Mem) (t : Tree) : Decidable (invariants m t) := by
  unfold invariants; infer_instance

/-- Every node of the tree is an allocated object. -/
def allocated (m : Mem) (t : Tree) : Prop := ∀ p ∈ get_inorder t, p < m.length

instance (m : Mem) (t : Tree) : Decidable (allocated m t) := by
  unfold allocated; infer_instance

/-- Inserting the nodes `zs` one at a time with `RBTUtils::insert`: the final tree
and whether every insert returned `true`. -/
def insert_all (m : Mem) : List Nat → RBTUtils → RBTUtils × Bool
  | [], t => (t, true)
  | z :: zs, t =>
    let (t1, ok) := insert m t z
    let (t2, oks) := insert_all m zs t1
    (t2, ok && oks)

end RBTUtils

namespace HeapUtils

/-- The live slots `0 .. sz` of the backing array. -/
def live (h : HeapUtils) : List (Option Nat) := h.heap_vector.take (h.sz + 1).toNat

/-- Every live slot `i` lies inside the array and holds an allocated node whose
`index_in_heap_vector` is `i`. -/
def linked (m : Mem) (h : HeapUtils) : Prop :=
  -1 ≤ h.sz ∧ h.sz < h.heap_vector.length ∧
    ∀ i < (h.sz + 1).toNat, ∃ p < m.length,
      h.heap_vector.getD i none = some p ∧ (rd m p).index_in_heap_vector = i

instance (m : Mem) (h : HeapUtils) : Decidable (linked m h) := by
  unfold linked; infer_instance

/-- Slot `i` holds a node that is not `less` than the node in its parent slot
`(i - 1) / 2`, the slot of which `i` is a child in `fix_heap_down`. -/
def parent_ok (m : Mem) (h : HeapUtils) (i : Nat) : Bool :=
  match h.heap_vector.getD i none, h.heap_vector.getD ((i - 1) / 2) none with
  | some a, some b => !(rd m a).less (rd m b)
  | _, _ => false

/-- Heap property in the child layout of `fix_heap_down`: no live slot `i > 0` is
`less` than its parent slot. -/
def heap_property (m : Mem) (h : HeapUtils) : Prop :=
  ∀ i < (h.sz + 1).toNat, 0 < i → parent_ok m h i = true

instance (m : Mem) (h : HeapUtils) : Decidable (heap_property m h) := by
  unfold heap_property; infer_instance

end HeapUtils

namespace HeapRBT

/-- The (id, cost, duration) of the rides in the live heap slots, in slot order. -/
def live_rides (s : HeapRBT) : List (Int × Int × Int) :=
  s.toHeapUtils.live.filterMap (fun o => o.map (print_node s.nodes))

/-- Both indexes hold the same records. -/
def same_records (s : HeapRBT) : Prop :=
  (∀ p ∈ RBTUtils.get_inorder s.root, some p ∈ s.toHeapUtils.live) ∧
    ∀ o ∈ s.toHeapUtils.live, ∃ p ∈ RBTUtils.get_inorder s.root, o = some p

instance (s : HeapRBT) : Decidable (same_records s) := by
  unfold same_records; infer_instance

/-- A consistent scheduler state: both indexes hold the same records, every
`index_in_heap_vector` is the slot of its record, the heap property holds and the
tree satisfies its invariants. -/
def consistent (s : HeapRBT) : Prop :=
  same_records s ∧ HeapUtils.linked s.nodes s.toHeapUtils ∧
    HeapUtils.heap_property s.nodes s.toHeapUtils ∧ RBTUtils.invariants s.nodes s.root

instance (s : HeapRBT) : Decidable (consistent s) := by
  unfold consistent; infer_instance

end HeapRBT

/-! ## Auxiliary definitions -/

/-- The arena `m1` holds the same (id, cost, duration) as `m` at every handle. -/
def same_payload (m m1 : Mem) : Prop :=
  m1.length = m.length ∧ ∀ q, HeapRBT.print_node m1 q = HeapRBT.print_node m q

/-- The arena after `update_trip` has raised the cost of `ride` by 10 and stored
the new duration. -/
def extended (m : Mem) (ride : Nat) (new_trip_duration : Int) : Mem :=
  m.set ride { rd m ride with
    ride_cost := wrap32 ((rd m ride).ride_cost + 10), trip_duration := new_trip_duration }

/-- Bookkeeping invariant of the backing array: every live slot holds a node whose
index field is the slot, every entry of the array is an allocated node, and no node
is in two entries. -/
def HeapUtils.tracked (m : Mem) (h : HeapUtils) : Prop :=
  (∀ i < (h.sz + 1).toNat, ∃ p, h.heap_vector[i]? = some (some p) ∧
      (rd m p).index_in_heap_vector = i) ∧
    (∀ (i p : Nat), h.heap_vector[i]? = some (some p) → p < m.length) ∧
    (∀ (i j p : Nat), h.heap_vector[i]? = some (some p) → h.heap_vector[j]? = some (some p) → i = j)

/-- Bookkeeping invariant of a scheduler state. -/
def HeapRBT.heap_inv (s : HeapRBT) : Prop :=
  HeapUtils.tracked s.nodes s.toHeapUtils ∧ -1 ≤ s.sz ∧ s.sz < s.heap_vector.length

/-- The (cost, duration) of the node in slot `i` of the backing array. -/
def HeapUtils.slot_key (m : Mem) (h : HeapUtils) (i : Nat) : Int × Int :=
  match h.heap_vector.getD i none with
  | some a => ((rd m a).ride_cost, (rd m a).trip_duration)
  | none => (0, 0)

/-- The order of `Node::less` on (cost, duration) pairs. -/
def klt (a b : Int × Int) : Prop := a.1 < b.1 ∨ (a.1 = b.1 ∧ a.2 < b.2)

/-- The heap property everywhere except at slot `x`, whose node may be too large for
its children: every other live slot is not `less` than its parent, and the children
of `x` are not `less` than the parent of `x`. -/
def HeapUtils.heap_except (m : Mem) (h : HeapUtils) (x : Nat) : Prop :=
  ∀ i < (h.sz + 1).toNat, 0 < i →
    ((i - 1) / 2 ≠ x → ¬ klt (h.slot_key m i) (h.slot_key m ((i - 1) / 2))) ∧
    ((i - 1) / 2 = x → 0 < x → ¬ klt (h.slot_key m i) (h.slot_key m ((x - 1) / 2)))

/-- A left-leaning red-black subtree whose root-to-empty paths all cross `n` black
nodes: no red right child, no red child under a red node; the root may be red. -/
def RBTUtils.llrb : Tree → Nat → Prop
  | .nil, n => n = 0
  | .node l _ c r, n =>
    match c with
    | .R => llrb l n ∧ llrb r n ∧ is_red l = false ∧ is_red r = false
    | .B => ∃ k, n = k + 1 ∧ llrb l k ∧ llrb r k ∧ is_red r = false

/-- A red node over two valid subtrees whose left child may itself be red: what
`insert` can leave at a red node, to be repaired by the parent. -/
def RBTUtils.almost : Tree → Nat → Prop
  | .nil, _ => False
  | .node l _ c r, n => c = Color.R ∧ llrb l n ∧ llrb r n ∧ is_red r = false

/-- The nodes `delete_min` and `delete_by_id` are applied to on the way down: nodes
balanced at black height `n` that are red or have a red left child. -/
def RBTUtils.deletable : Tree → Nat → Prop
  | .nil, _ => False
  | .node l p c r, n => (c = Color.R ∨ is_red l = true) ∧ llrb (.node l p c r) n

/-- The nodes the recursive `delete_by_id` is applied to when it looks for `id`: the
nodes of `deletable`, and black nodes with a red right child, which `move_right`
leaves behind and which are entered only with `id` not below their ride number. -/
def RBTUtils.deletable_at (m : Mem) (id : Int) : Tree → Prop
  | .nil => False
  | .node l p c r => (∃ n, deletable (.node l p c r) n) ∨
      (c = Color.B ∧ is_red l = false ∧ is_red r = true ∧ key m p ≤ id ∧
        ∃ k, llrb l k ∧ llrb r k)

/-- The loop `for (int x : v) RBTUtils::delete_by_id(x)` of `test_rbt_sorted`. -/
def RBTUtils.delete_all (m : Mem) : List Int → RBTUtils → Res RBTUtils
  | [], t => .ok t
  | x :: xs, t => do
    let t1 ← delete_by_id m t x
    delete_all m xs t1

/-! ## Concrete runs -/

/-- C1: five rides with distinct ids are scheduled on the empty scheduler (`failure`
reads `false`, so every insert succeeds); the first `GetNextRide` writes (2,0,0), and
the second one writes (4,1,0) and then dereferences a null pointer inside
`RBTUtils::delete_by_id`, so the drain never completes. -/
theorem C1_drain_faults :
    (run [.Insert 1 3 0, .Insert 2 0 0, .Insert 3 2 0, .Insert 4 1 0, .Insert 5 4 0,
         .GetNextRide] (HeapRBT.init false)).1 = [.ride (2, 0, 0)] ∧
    run [.Insert 1 3 0, .Insert 2 0 0, .Insert 3 2 0, .Insert 4 1 0, .Insert 5 4 0,
         .GetNextRide, .GetNextRide] (HeapRBT.init false)
      = ([.ride (2, 0, 0), .ride (4, 1, 0)], .error .nullDeref) := by
  decide!

/-- C2: in the consistent state reached by scheduling rides 1, 2, 3, `CancelRide(1)`
removes ride 1 from the tree but leaves it in a live heap slot, and drops ride 3
from the live heap slots although it stays in the tree. -/
theorem C2_cancel_removes_wrong_heap_slot :
    HeapRBT.consistent (state_after [.Insert 1 10 10, .Insert 2 20 20, .Insert 3 30 30]) ∧
    (HeapRBT.cancel_ride (state_after [.Insert 1 10 10, .Insert 2 20 20, .Insert 3 30 30]) 1).map
        (fun s => (HeapRBT.print s 1, HeapRBT.print s 3, HeapRBT.live_rides s))
      = .ok (none, some (3, 30, 30), [(1, 10, 10), (2, 20, 20)]) := by
  decide!

/-- C3: the tree built by inserting ids 5 and 3 satisfies the invariants and
contains ride 3, yet the range query for [1, 4] returns nothing. -/
theorem C3_range_query_misses_record :
    RBTUtils.invariants (state_after [.Insert 5 1 1, .Insert 3 1 1]).nodes
      (state_after [.Insert 5 1 1, .Insert 3 1 1]).root ∧
    HeapRBT.print (state_after [.Insert 5 1 1, .Insert 3 1 1]) 3 = some (3, 1, 1) ∧
    HeapRBT.print_range (state_after [.Insert 5 1 1, .Insert 3 1 1]) 1 4 = [] := by
  decide!

/-- C5 as stated fails: ride 1 has duration -5 and `UpdateTrip(1, -7)` asks for a
duration not above it, yet the ride is removed. -/
theorem C5_negative_duration_removed :
    HeapRBT.print (state_after [.Insert 1 10 (-5), .Insert 2 20 7]) 1 = some (1, 10, -5) ∧
    (HeapRBT.update_trip (state_after [.Insert 1 10 (-5), .Insert 2 20 7]) 1 (-7)).map
        (fun s => HeapRBT.print s 1) = .ok none := by
  decide!

/-- The amended C5 needs its bound on the duration: ride 2 has duration 1500000000,
whose double does not fit an `int`, and `UpdateTrip(2, 5)` asks for a duration not
above it, yet ride 2 is removed; ride 1 stays. -/
theorem C5_large_duration_removed :
    HeapRBT.print (state_after [.Insert 1 10 10, .Insert 2 20 1500000000]) 2
      = some (2, 20, 1500000000) ∧
    (HeapRBT.update_trip (state_after [.Insert 1 10 10, .Insert 2 20 1500000000]) 2 5).map
        (fun s => (HeapRBT.print s 2, HeapRBT.print s 1))
      = .ok (none, some (1, 10, 10)) := by
  decide!

/-- C8: the scenario `Insert(1,50,10)`, `Insert(2,30,20)`, `Insert(3,30,5)` and four
`GetNextRide` commands depends on the value the uninitialised member `failure` holds
at start-up.  When it reads `true`, the first `Insert` writes `Duplicate RideNumber`
for an id that is not in the tree and the process exits: no ride is dispatched.
When it reads `false`, the four `GetNextRide` commands write (3,30,5), (2,30,20),
(1,50,10) and the no-active-ride line, and the run ends without a fault. -/
theorem C8_dispatch_scenario :
    (run [.Insert 1 50 10, .Insert 2 30 20, .Insert 3 30 5,
          .GetNextRide, .GetNextRide, .GetNextRide, .GetNextRide] (HeapRBT.init true)).1
      = [.duplicate] ∧
    RBTUtils.get_node (HeapRBT.init true).nodes (HeapRBT.init true).toRBTUtils 1 = none ∧
    (run [.Insert 1 50 10, .Insert 2 30 20, .Insert 3 30 5,
          .GetNextRide, .GetNextRide, .GetNextRide, .GetNextRide] (HeapRBT.init false)).1
      = [.ride (3, 30, 5), .ride (2, 30, 20), .ride (1, 50, 10), .no_active] ∧
    finished (run [.Insert 1 50 10, .Insert 2 30 20, .Insert 3 30 5,
          .GetNextRide, .GetNextRide, .GetNextRide, .GetNextRide] (HeapRBT.init false)).2
      = true := by
  decide!

/-- C9 as stated fails: after `Insert(5,20,10)`, `UpdateTrip(5,15)` is not a no-op,
the lookup of ride 5 returns (5,30,15).  (This is the run in which `failure` reads
`false` at start-up; when it reads `true` the process exits at the `Insert`, and the
lookup is never made.) -/
theorem C9_extend_15_not_noop :
    (run [.Insert 5 20 10, .UpdateTrip 5 15, .Print 5] (HeapRBT.init false)).1
      = [.ride (5, 30, 15)] ∧
    (run [.Insert 5 20 10, .UpdateTrip 5 15, .Print 5] (HeapRBT.init true)).1
      = [.duplicate] := by
  decide!

/-- C9 amended, for either value `failure` of the uninitialised member at start-up.
When it reads `false`: after `Insert(5,20,10)`, `UpdateTrip(5,15)` makes the record
(5,30,15) and `UpdateTrip(5,30)` then makes it (5,40,30), and the run ends without a
fault.  When it reads `true`: `Insert(5,20,10)` writes `Duplicate RideNumber` and
the process exits there, so nothing else is written. -/
theorem C9_extend_scenario (failure : Bool) :
    (run [.Insert 5 20 10, .UpdateTrip 5 15, .Print 5, .UpdateTrip 5 30, .Print 5]
        (HeapRBT.init failure)).1
      = (if failure then [.duplicate] else [.ride (5, 30, 15), .ride (5, 40, 30)]) ∧
    finished (run [.Insert 5 20 10, .UpdateTrip 5 15, .Print 5, .UpdateTrip 5 30, .Print 5]
        (HeapRBT.init failure)).2 = true := by
  cases failure <;> decide!

/-! ## The key index: lookup and insert -/

open RBTUtils

/-- The product `2 * d` as the program computes it is `2 * d` when that fits an
`int`. -/
theorem wrap32_eq (x : Int) (h0 : -2147483648 ≤ x) (h1 : x ≤ 2147483647) : wrap32 x = x := by
  unfold wrap32
  omega

/-- C5 amended: when the id is present, the current duration `d` has a double that
fits an `int` (`-2^30 ≤ d < 2^30`), and the new duration is neither above `d` nor
above `2 * d` (the latter always so when `d ≥ 0`), `update_trip` leaves the whole
state, both indexes and every record, exactly as it was. -/
theorem C5_extend_not_above_is_noop (s : HeapRBT) (id new_duration : Int) (ride : Nat)
    (hget : RBTUtils.get_node s.nodes s.toRBTUtils id = some ride)
    (hlo : -1073741824 ≤ (rd s.nodes ride).trip_duration)
    (hhi : (rd s.nodes ride).trip_duration ≤ 1073741823)
    (hle : new_duration ≤ (rd s.nodes ride).trip_duration)
    (hle2 : new_duration ≤ 2 * (rd s.nodes ride).trip_duration) :
    HeapRBT.update_trip s id new_duration = .ok s := by
  unfold HeapRBT.update_trip
  rw [hget]
  simp only
  rw [wrap32_eq _ (by omega) (by omega), if_neg (not_lt.mpr hle2), if_neg (not_lt.mpr hle)]
  rfl

/-- Witness of `C5_extend_not_above_is_noop`: ride (5,20,10), new duration 7. -/
theorem C5_extend_not_above_is_noop_witness :
    HeapRBT.update_trip (state_after [.Insert 5 20 10]) 5 7 = .ok (state_after [.Insert 5 20 10]) :=
  C5_extend_not_above_is_noop (state_after [.Insert 5 20 10]) 5 7 0 (by decide!) (by decide!)
    (by decide!) (by decide!) (by decide!)

/-- A node returned by `get_node` is in the tree and carries the requested id. -/
theorem get_node_from_mem (m : Mem) (t : Tree) (id : Int) (p : Nat)
    (h : get_node_from m t id = some p) : p ∈ get_inorder t ∧ key m p = id := by
  induction t with
  | nil => simp [get_node_from] at h
  | node l q c r ihl ihr =>
    simp only [get_node_from] at h
    split_ifs at h with h1 h2
    · have := ihr h; simp [get_inorder, this]
    · have := ihl h; simp [get_inorder, this]
    · simp only [Option.some.injEq] at h
      subst h
      simp only [get_inorder, List.mem_append, List.mem_cons, true_or, or_true, true_and]
      unfold key; omega

/-- In a search tree `get_node` finds every node by its id. -/
theorem get_node_from_found (m : Mem) (t : Tree) (id : Int)
    (hb : bst_order m t) (p : Nat) (hp : p ∈ get_inorder t) (hk : key m p = id) :
    get_node_from m t id = some p := by
  induction t with
  | nil => simp [get_inorder] at hp
  | node l q c r ihl ihr =>
    simp only [bst_order, keys, get_inorder, List.map_append, List.map_cons,
      List.pairwise_append, List.pairwise_cons, List.mem_map, List.mem_cons,
      forall_exists_index, and_imp, forall_apply_eq_imp_iff₂, forall_eq_or_imp] at hb
    obtain ⟨hl, ⟨hqr, hr⟩, hlr⟩ := hb
    simp only [get_inorder, List.mem_append, List.mem_cons] at hp
    simp only [get_node_from]
    rcases hp with hp | rfl | hp
    · have h1 := (hlr p hp).1
      have : ¬ (rd m q).ride_number < id := by unfold key at h1 hk; omega
      have h2 : (rd m q).ride_number > id := by unfold key at h1 hk; omega
      rw [if_neg this, if_pos h2]
      exact ihl hl hp
    · have : ¬ (rd m p).ride_number < id := by unfold key at hk; omega
      have h2 : ¬ (rd m p).ride_number > id := by unfold key at hk; omega
      rw [if_neg this, if_neg h2]
    · have h1 := hqr p hp
      have : (rd m q).ride_number < id := by unfold key at h1 hk; omega
      rw [if_pos this]
      exact ihr hr hp

theorem get_inorder_toggle_color (t : Tree) : get_inorder (toggle_color t) = get_inorder t := by
  cases t <;> simp [toggle_color, get_inorder]

theorem get_inorder_fix_colors (t : Tree) : get_inorder (fix_colors t) = get_inorder t := by
  rcases t with _ | ⟨l, p, c, r⟩
  · rfl
  · rcases l with _ | ⟨ll, lp, lc, lr⟩
    · rfl
    · simp only [fix_colors, get_inorder, get_inorder_toggle_color]

theorem get_inorder_rotate_right (t : Tree) : get_inorder (rotate_right t) = get_inorder t := by
  rcases t with _ | ⟨l, p, c, r⟩
  · rfl
  · rcases l with _ | ⟨ll, lp, lc, lr⟩
    · rfl
    · cases lc <;> simp [rotate_right, get_inorder]

theorem get_inorder_rotate_left (t : Tree) : get_inorder (rotate_left t) = get_inorder t := by
  rcases t with _ | ⟨l, p, c, r⟩
  · rfl
  · rcases r with _ | ⟨rl, rp, rc, rr⟩
    · rfl
    · cases rc <;> simp [rotate_left, get_inorder]

theorem get_inorder_re_balance (t : Tree) : get_inorder (re_balance t) = get_inorder t := by
  unfold re_balance
  simp only
  split_ifs <;>
    simp only [get_inorder_fix_colors, get_inorder_rotate_right, get_inorder_rotate_left]

theorem re_balance_id (l : Tree) (p : Nat) (c : Color) (r : Tree)
    (h1 : no_red_right (.node l p c r) = true) (h2 : no_red_red (.node l p c r) = true) :
    re_balance (.node l p c r) = .node l p c r := by
  simp only [no_red_right, Bool.and_eq_true, Bool.not_eq_true', Bool.not_eq_eq_eq_not, Bool.not_true] at h1
  obtain ⟨⟨hr, _⟩, _⟩ := h1
  have hl : ∀ ll lp lr, l = .node ll lp .R lr → is_red ll = false := by
    intro ll lp lr hl
    subst hl
    simp [no_red_red, is_red] at h2
    exact h2.1.2.1.1
  unfold re_balance
  simp only [hr, Bool.false_and, Bool.and_false, Bool.false_eq_true, if_false]
  rcases l with _ | ⟨ll, lp, lc, lr⟩
  · simp [hr]
  · cases lc
    · simp [hl ll lp lr rfl, hr]
    · simp [hr]

theorem keys_node (m : Mem) (l : Tree) (p : Nat) (c : Color) (r : Tree) :
    keys m (.node l p c r) = keys m l ++ key m p :: keys m r := by
  simp [keys, get_inorder]

theorem bst_order_node (m : Mem) (l : Tree) (p : Nat) (c : Color) (r : Tree) :
    bst_order m (.node l p c r) ↔
      bst_order m l ∧ bst_order m r ∧ (∀ a ∈ keys m l, a < key m p) ∧
        (∀ b ∈ keys m r, key m p < b) := by
  unfold bst_order
  rw [keys_node, List.pairwise_append, List.pairwise_cons]
  constructor
  · rintro ⟨hl, ⟨hpr, hr⟩, hlr⟩
    exact ⟨hl, hr, fun a ha => hlr a ha _ (List.mem_cons_self _ _), hpr⟩
  · rintro ⟨hl, hr, hlp, hpr⟩
    refine ⟨hl, ⟨hpr, hr⟩, ?_⟩
    intro a ha b hb
    rcases List.mem_cons.mp hb with rfl | hb
    · exact hlp a ha
    · exact lt_trans (hlp a ha) (hpr b hb)

theorem keys_re_balance (m : Mem) (t : Tree) : keys m (re_balance t) = keys m t := by
  simp [keys, get_inorder_re_balance]

/-- Inserting a ride number already in the tree leaves a tree that satisfies
invariants (a) to (c) as it is, and raises `failure`. -/
theorem insert_node_duplicate (m : Mem) (z : Nat) (f : Bool) (t : Tree)
    (hb : bst_order m t) (h1 : no_red_right t = true) (h2 : no_red_red t = true)
    (hz : key m z ∈ keys m t) : insert_node m t z f = (t, true) := by
  induction t with
  | nil => simp [keys, get_inorder] at hz
  | node l p c r ihl ihr =>
    rw [bst_order_node] at hb
    obtain ⟨hbl, hbr, hlp, hpr⟩ := hb
    have h1n := h1
    have h2n := h2
    simp only [no_red_right, no_red_red, Bool.and_eq_true] at h1 h2
    rw [keys_node] at hz
    simp only [List.mem_append, List.mem_cons] at hz
    simp only [insert_node]
    by_cases he : (rd m p).ride_number = (rd m z).ride_number
    · rw [if_pos he]
    · rw [if_neg he]
      by_cases hlt : (rd m p).ride_number < (rd m z).ride_number
      · rw [if_pos hlt]
        have hzr : key m z ∈ keys m r := by
          rcases hz with hz | hz | hz
          · have := hlp _ hz; unfold key at this; omega
          · unfold key at hz; omega
          · exact hz
        rw [ihr hbr h1.2 h2.2 hzr]
        simp only
        rw [re_balance_id l p c r h1n h2n]
      · rw [if_neg hlt]
        have hzl : key m z ∈ keys m l := by
          rcases hz with hz | hz | hz
          · exact hz
          · unfold key at hz; omega
          · have := hpr _ hz; unfold key at this; omega
        rw [ihl hbl h1.1.2 h2.1.2 hzl]
        simp only
        rw [re_balance_id l p c r h1n h2n]

theorem rd_append_of_lt (m : Mem) (x : Node) (p : Nat) (hp : p < m.length) :
    rd (m ++ [x]) p = rd m p := by
  unfold rd
  rw [List.getD_eq_getElem?_getD, List.getD_eq_getElem?_getD, List.getElem?_append_left hp]

theorem rd_append_length (m : Mem) (x : Node) : rd (m ++ [x]) m.length = x := by
  unfold rd
  rw [List.getD_eq_getElem?_getD]
  simp

theorem keys_congr (m m1 : Mem) (t : Tree)
    (ht : ∀ p ∈ get_inorder t, key m1 p = key m p) : keys m1 t = keys m t := by
  unfold keys
  exact List.map_congr_left ht

theorem blacken_of_black (t : Tree) (h : is_red t = false) : blacken t = t := by
  rcases t with _ | ⟨l, p, c, r⟩
  · rfl
  · cases c
    · simp [is_red] at h
    · rfl

/-- C6: when the tree satisfies invariants (a) to (e), all its nodes are allocated
objects and it already holds the id, `HeapRBT::insert` reports `inserted = false`
(the command loop writes the duplicate line and stops), the tree is the same tree
(shape, colours, nodes), the heap is untouched and every record of the tree is
unchanged. -/
theorem C6_duplicate_insert (s : HeapRBT) (id cost duration : Int)
    (hinv : RBTUtils.invariants s.nodes s.root) (hal : RBTUtils.allocated s.nodes s.root)
    (hid : id ∈ RBTUtils.keys s.nodes s.root) :
    ∃ s1, HeapRBT.insert s id cost duration = .ok (s1, false) ∧
      step s (.Insert id cost duration) = .ok (s1, some .duplicate, false) ∧
      s1.root = s.root ∧ s1.toHeapUtils = s.toHeapUtils ∧
      ∀ p ∈ RBTUtils.get_inorder s.root, rd s1.nodes p = rd s.nodes p := by
  obtain ⟨hb, h1, h2, _, h5⟩ := hinv
  have hrd : ∀ p ∈ get_inorder s.root,
      rd (s.nodes ++ [⟨id, cost, duration, 0⟩]) p = rd s.nodes p :=
    fun p hp => rd_append_of_lt _ _ _ (hal p hp)
  have hk : ∀ p ∈ get_inorder s.root,
      key (s.nodes ++ [⟨id, cost, duration, 0⟩]) p = key s.nodes p := by
    intro p hp; unfold key; rw [hrd p hp]
  have hkz : key (s.nodes ++ [⟨id, cost, duration, 0⟩]) s.nodes.length = id := by
    unfold key; rw [rd_append_length]
  have hins : insert_node (s.nodes ++ [⟨id, cost, duration, 0⟩]) s.root s.nodes.length s.failure
      = (s.root, true) := by
    apply insert_node_duplicate
    · unfold bst_order; rw [keys_congr _ _ _ hk]; exact hb
    · exact h1
    · exact h2
    · rw [hkz, keys_congr _ _ _ hk]; exact hid
  have hI : HeapRBT.insert s id cost duration
      = .ok ({ s with nodes := s.nodes ++ [⟨id, cost, duration, 0⟩],
                      toRBTUtils := ⟨s.root, false⟩ }, false) := by
    simp only [HeapRBT.insert, alloc, RBTUtils.insert, hins, blacken_of_black _ h5]
    rfl
  refine ⟨_, hI, ?_, rfl, rfl, hrd⟩
  simp only [step, hI]
  rfl



/-- C7: in a tree in search-tree order, `print(id)` returns the (id, cost, duration)
of the node carrying that id when there is one, and the not-found line when there
is none. -/
theorem C7_lookup (s : HeapRBT) (id : Int) (hb : RBTUtils.bst_order s.nodes s.root) :
    (∀ p ∈ RBTUtils.get_inorder s.root, key s.nodes p = id →
        HeapRBT.print s id = some (id, (rd s.nodes p).ride_cost, (rd s.nodes p).trip_duration)) ∧
    ((∀ p ∈ RBTUtils.get_inorder s.root, key s.nodes p ≠ id) → HeapRBT.print s id = none) := by
  constructor
  · intro p hp hk
    have h := get_node_from_found s.nodes s.root id hb p hp hk
    unfold key at hk
    simp only [HeapRBT.print, get_node, h, HeapRBT.print_node, hk]
  · intro hno
    cases h : get_node_from s.nodes s.root id with
    | none => simp only [HeapRBT.print, get_node, h]
    | some p =>
      have := get_node_from_mem s.nodes s.root id p h
      exact absurd this.2 (hno p this.1)

/-- Witness of `C7_lookup`: after inserting rides 5 and 3, id 3 is found and id 4
is not. -/
theorem C7_lookup_witness :
    RBTUtils.bst_order (state_after [.Insert 5 1 1, .Insert 3 2 4]).nodes
        (state_after [.Insert 5 1 1, .Insert 3 2 4]).root ∧
      HeapRBT.print (state_after [.Insert 5 1 1, .Insert 3 2 4]) 3
        = some (3, (rd (state_after [.Insert 5 1 1, .Insert 3 2 4]).nodes 1).ride_cost,
            (rd (state_after [.Insert 5 1 1, .Insert 3 2 4]).nodes 1).trip_duration) ∧
      HeapRBT.print (state_after [.Insert 5 1 1, .Insert 3 2 4]) 4 = none :=
  ⟨by decide!,
   (C7_lookup (state_after [.Insert 5 1 1, .Insert 3 2 4]) 3 (by decide!)).1 1
      (by decide!) (by decide!),
   (C7_lookup (state_after [.Insert 5 1 1, .Insert 3 2 4]) 4 (by decide!)).2 (by decide!)⟩

/-- Witness of `C6_duplicate_insert`: ride 7 is scheduled a second time. -/
theorem C6_duplicate_insert_witness :
    ∃ s1, HeapRBT.insert (state_after [.Insert 7 40 10, .Insert 3 2 4]) 7 1 1 = .ok (s1, false) ∧
      step (state_after [.Insert 7 40 10, .Insert 3 2 4]) (.Insert 7 1 1)
        = .ok (s1, some .duplicate, false) ∧
      s1.root = (state_after [.Insert 7 40 10, .Insert 3 2 4]).root ∧
      s1.toHeapUtils = (state_after [.Insert 7 40 10, .Insert 3 2 4]).toHeapUtils ∧
      ∀ p ∈ RBTUtils.get_inorder (state_after [.Insert 7 40 10, .Insert 3 2 4]).root,
        rd s1.nodes p = rd (state_after [.Insert 7 40 10, .Insert 3 2 4]).nodes p :=
  C6_duplicate_insert (state_after [.Insert 7 40 10, .Insert 3 2 4]) 7 1 1
    (by decide!) (by decide!) (by decide!)

/-- Inserting a ride number that is not in the tree leaves `failure` as it is and
adds the new node to the in-order sequence, which stays ascending. -/
theorem insert_node_fresh (m : Mem) (z : Nat) (f : Bool) (t : Tree)
    (hb : bst_order m t) (hz : key m z ∉ keys m t) :
    (insert_node m t z f).2 = f ∧
      (get_inorder (insert_node m t z f).1).Perm (z :: get_inorder t) ∧
      bst_order m (insert_node m t z f).1 := by
  induction t with
  | nil =>
    simp [insert_node, get_inorder, bst_order, keys]
  | node l p c r ihl ihr =>
    rw [bst_order_node] at hb
    obtain ⟨hbl, hbr, hlp, hpr⟩ := hb
    rw [keys_node] at hz
    simp only [List.mem_append, List.mem_cons, not_or] at hz
    obtain ⟨hzl, hzp, hzr⟩ := hz
    have he : ¬ (rd m p).ride_number = (rd m z).ride_number := by
      intro h; apply hzp; unfold key; omega
    simp only [insert_node, if_neg he]
    by_cases hlt : (rd m p).ride_number < (rd m z).ride_number
    · rw [if_pos hlt]
      obtain ⟨i1, i2, i3⟩ := ihr hbr hzr
      refine ⟨i1, ?_, ?_⟩
      · simp only [get_inorder_re_balance, get_inorder]
        have : (get_inorder l ++ p :: get_inorder (insert_node m r z f).1).Perm
            (get_inorder l ++ p :: z :: get_inorder r) :=
          List.Perm.append_left _ (List.Perm.cons _ i2)
        refine this.trans ?_
        have h2 : (get_inorder l ++ p :: z :: get_inorder r).Perm
            (z :: (get_inorder l ++ p :: get_inorder r)) := by
          rw [← List.singleton_append (l := z :: get_inorder r), ← List.append_assoc]
          exact (List.perm_middle).trans (by simp)
        exact h2
      · unfold bst_order
        rw [keys_re_balance]
        show bst_order m (.node l p c (insert_node m r z f).1)
        rw [bst_order_node]
        refine ⟨hbl, i3, hlp, ?_⟩
        intro b hb
        have : b ∈ (z :: get_inorder r).map (key m) := by
          unfold keys at hb
          exact (List.Perm.map _ i2).mem_iff.mp hb
        simp only [List.map_cons, List.mem_cons] at this
        rcases this with rfl | hb
        · unfold key; exact hlt
        · exact hpr b hb
    · rw [if_neg hlt]
      obtain ⟨i1, i2, i3⟩ := ihl hbl hzl
      refine ⟨i1, ?_, ?_⟩
      · simp only [get_inorder_re_balance, get_inorder]
        exact (List.Perm.append_right _ i2).trans (by simp)
      · unfold bst_order
        rw [keys_re_balance]
        show bst_order m (.node (insert_node m l z f).1 p c r)
        rw [bst_order_node]
        refine ⟨i3, hbr, ?_, hpr⟩
        intro b hb
        have : b ∈ (z :: get_inorder l).map (key m) := by
          unfold keys at hb
          exact (List.Perm.map _ i2).mem_iff.mp hb
        simp only [List.map_cons, List.mem_cons] at this
        rcases this with rfl | hb
        · unfold key; omega
        · exact hlp b hb

theorem get_inorder_blacken (t : Tree) : get_inorder (blacken t) = get_inorder t := by
  cases t <;> rfl

theorem insert_all_spec (m : Mem) (zs : List Nat) (t : RBTUtils)
    (hf : t.failure = false) (hb : bst_order m t.root)
    (hd : (zs.map (key m)).Nodup) (hdis : ∀ z ∈ zs, key m z ∉ keys m t.root) :
    (insert_all m zs t).2 = true ∧ (insert_all m zs t).1.failure = false ∧
      bst_order m (insert_all m zs t).1.root ∧
      (get_inorder (insert_all m zs t).1.root).Perm (zs ++ get_inorder t.root) := by
  induction zs generalizing t with
  | nil => simp [insert_all, hf, hb]
  | cons z zs ih =>
    simp only [List.map_cons, List.nodup_cons] at hd
    obtain ⟨i1, i2, i3⟩ := insert_node_fresh m z t.failure t.root hb
      (hdis z (List.mem_cons_self _ _))
    have hins : RBTUtils.insert m t z = (⟨blacken (insert_node m t.root z t.failure).1, false⟩, true) := by
      unfold RBTUtils.insert
      rw [← Prod.mk.eta (p := insert_node m t.root z t.failure), i1, hf]
      rfl
    have hk1 : keys m (blacken (insert_node m t.root z t.failure).1)
        = keys m (insert_node m t.root z t.failure).1 := by
      unfold keys; rw [get_inorder_blacken]
    have := ih ⟨blacken (insert_node m t.root z t.failure).1, false⟩ rfl
      (by unfold bst_order; rw [hk1]; exact i3) hd.2
      (by
        intro y hy hmem
        rw [hk1] at hmem
        unfold keys at hmem
        have h2 := (List.Perm.map (key m) i2).mem_iff.mp hmem
        simp only [List.map_cons, List.mem_cons] at h2
        rcases h2 with h2 | h2
        · exact hd.1 (h2 ▸ List.mem_map_of_mem _ hy)
        · exact hdis y (List.mem_cons_of_mem _ hy) h2)
    simp only [insert_all, hins]
    refine ⟨by simpa using this.1, this.2.1, this.2.2.1, ?_⟩
    refine this.2.2.2.trans ?_
    simp only [get_inorder_blacken]
    refine (List.Perm.append_left _ i2).trans ?_
    simp only [List.cons_append]
    exact List.perm_middle

/-- The flag `failure` at the start of a run of inserts: only the first insert reads
it, and every insert leaves it cleared. -/
theorem insert_all_spec_flag (m : Mem) (zs : List Nat) (t : RBTUtils)
    (hb : bst_order m t.root)
    (hd : (zs.map (key m)).Nodup) (hdis : ∀ z ∈ zs, key m z ∉ keys m t.root) :
    (insert_all m zs t).2 = (!t.failure || zs.isEmpty) ∧
      (insert_all m zs t).1.failure = (t.failure && zs.isEmpty) ∧
      bst_order m (insert_all m zs t).1.root ∧
      (get_inorder (insert_all m zs t).1.root).Perm (zs ++ get_inorder t.root) := by
  obtain ⟨root, f⟩ := t
  cases zs with
  | nil => simp [insert_all, hb]
  | cons z zs =>
    simp only [List.map_cons, List.nodup_cons] at hd
    simp only at hb hdis
    obtain ⟨i1, i2, i3⟩ := insert_node_fresh m z f root hb (hdis z (List.mem_cons_self _ _))
    have hins : RBTUtils.insert m ⟨root, f⟩ z
        = (⟨blacken (insert_node m root z f).1, false⟩, !f) := by
      unfold RBTUtils.insert
      simp only
      rw [← Prod.mk.eta (p := insert_node m root z f), i1]
      cases f <;> rfl
    have hk1 : keys m (blacken (insert_node m root z f).1)
        = keys m (insert_node m root z f).1 := by
      unfold keys; rw [get_inorder_blacken]
    have := insert_all_spec m zs ⟨blacken (insert_node m root z f).1, false⟩ rfl
      (by unfold bst_order; rw [hk1]; exact i3) hd.2
      (by
        intro y hy hmem
        rw [hk1] at hmem
        unfold keys at hmem
        have h2 := (List.Perm.map (key m) i2).mem_iff.mp hmem
        simp only [List.map_cons, List.mem_cons] at h2
        rcases h2 with h2 | h2
        · exact hd.1 (h2 ▸ List.mem_map_of_mem _ hy)
        · exact hdis y (List.mem_cons_of_mem _ hy) h2)
    simp only [insert_all, hins]
    refine ⟨by simp [this.1], by simp [this.2.1], this.2.2.1, ?_⟩
    refine this.2.2.2.trans ?_
    simp only [get_inorder_blacken]
    refine (List.Perm.append_left _ i2).trans ?_
    simp only [List.cons_append]
    exact List.perm_middle

/-- C10: nodes with pairwise distinct ride numbers are inserted one at a time into the
empty tree.  The first `insert` reads the member `failure`, which the constructor
never initialises: when it reads `true`, that insert returns `false` although the
ride number is new, so the inserts all return `true` only if `failure` reads `false`
at start-up or nothing is inserted.  For either value the in-order traversal of the
result is strictly ascending and holds exactly the inserted ride numbers, as many as
were inserted. -/
theorem C10_insert_all_sorted (m : Mem) (zs : List Nat) (failure : Bool)
    (hd : (zs.map (key m)).Nodup) :
    (RBTUtils.insert_all m zs (RBTUtils.init failure)).2 = (!failure || zs.isEmpty) ∧
      (RBTUtils.inorder m (RBTUtils.insert_all m zs (RBTUtils.init failure)).1).Pairwise
        (fun a b => a < b) ∧
      (RBTUtils.inorder m (RBTUtils.insert_all m zs (RBTUtils.init failure)).1).Perm
        (zs.map (key m)) ∧
      (RBTUtils.inorder m (RBTUtils.insert_all m zs (RBTUtils.init failure)).1).length
        = zs.length := by
  obtain ⟨h1, _, h3, h4⟩ := insert_all_spec_flag m zs (RBTUtils.init failure)
    (by simp [bst_order, keys, RBTUtils.init, get_inorder]) hd
    (by simp [keys, RBTUtils.init, get_inorder])
  have h5 : (RBTUtils.inorder m (RBTUtils.insert_all m zs (RBTUtils.init failure)).1).Perm
      (zs.map (key m)) := by
    have := List.Perm.map (key m) h4
    simpa [RBTUtils.inorder, RBTUtils.init, get_inorder, key] using this
  refine ⟨h1, h3, h5, ?_⟩
  simpa using h5.length_eq

/-- Witness of `C10_insert_all_sorted`: ride numbers 5, 3, 9 with `failure` reading
`true` at start-up; the inserts do not all return `true`. -/
theorem C10_insert_all_sorted_witness :
    (RBTUtils.insert_all [⟨5, 1, 1, 0⟩, ⟨3, 1, 1, 0⟩, ⟨9, 1, 1, 0⟩] [0, 1, 2]
        (RBTUtils.init true)).2 = false ∧
      (RBTUtils.inorder [⟨5, 1, 1, 0⟩, ⟨3, 1, 1, 0⟩, ⟨9, 1, 1, 0⟩]
        (RBTUtils.insert_all [⟨5, 1, 1, 0⟩, ⟨3, 1, 1, 0⟩, ⟨9, 1, 1, 0⟩] [0, 1, 2]
          (RBTUtils.init true)).1).Pairwise (fun a b => a < b) ∧
      (RBTUtils.inorder [⟨5, 1, 1, 0⟩, ⟨3, 1, 1, 0⟩, ⟨9, 1, 1, 0⟩]
        (RBTUtils.insert_all [⟨5, 1, 1, 0⟩, ⟨3, 1, 1, 0⟩, ⟨9, 1, 1, 0⟩] [0, 1, 2]
          (RBTUtils.init true)).1).Perm
          ([0, 1, 2].map (key [⟨5, 1, 1, 0⟩, ⟨3, 1, 1, 0⟩, ⟨9, 1, 1, 0⟩])) ∧
      (RBTUtils.inorder [⟨5, 1, 1, 0⟩, ⟨3, 1, 1, 0⟩, ⟨9, 1, 1, 0⟩]
        (RBTUtils.insert_all [⟨5, 1, 1, 0⟩, ⟨3, 1, 1, 0⟩, ⟨9, 1, 1, 0⟩] [0, 1, 2]
          (RBTUtils.init true)).1).length = [0, 1, 2].length :=
  C10_insert_all_sorted [⟨5, 1, 1, 0⟩, ⟨3, 1, 1, 0⟩, ⟨9, 1, 1, 0⟩] [0, 1, 2] true (by decide)

/-! ## The priority index: sift-down -/

theorem rd_set (m : Mem) (p q : Nat) (v : Node) :
    rd (m.set p v) q = if p = q ∧ p < m.length then v else rd m q := by
  unfold rd
  rw [List.getD_eq_getElem?_getD, List.getD_eq_getElem?_getD, List.getElem?_set]
  by_cases h1 : p = q
  · subst h1
    by_cases h2 : p < m.length
    · simp [h2]
    · simp [h2, List.getElem?_eq_none (Nat.le_of_not_lt h2)]
  · simp [h1]

theorem getD_set (l : List (Option Nat)) (i j : Nat) (v : Option Nat) :
    (l.set i v).getD j none = if i = j ∧ i < l.length then v else l.getD j none := by
  rw [List.getD_eq_getElem?_getD, List.getD_eq_getElem?_getD, List.getElem?_set]
  by_cases h1 : i = j
  · subst h1
    by_cases h2 : i < l.length
    · simp [h2]
    · simp [h2, List.getElem?_eq_none (Nat.le_of_not_lt h2)]
  · simp [h1]

theorem get_ok (h : HeapUtils) (a : Int) (h0 : 0 ≤ a) (h1 : a < h.heap_vector.length) :
    h.get a = .ok (h.heap_vector.getD a.toNat none) := by
  unfold HeapUtils.get
  rw [if_pos ⟨h0, h1⟩]

theorem put_ok (h : HeapUtils) (a : Int) (v : Option Nat) (h0 : 0 ≤ a)
    (h1 : a < h.heap_vector.length) :
    h.put a v = .ok { h with heap_vector := h.heap_vector.set a.toNat v } := by
  unfold HeapUtils.put
  rw [if_pos ⟨h0, h1⟩]

/-- What `swap_nodes` computes on two distinct occupied slots inside the array. -/
theorem swap_nodes_eq (m : Mem) (h : HeapUtils) (a b : Int) (pa pb : Nat)
    (ha0 : 0 ≤ a) (ha1 : a < h.heap_vector.length)
    (hb0 : 0 ≤ b) (hb1 : b < h.heap_vector.length) (hab : a ≠ b)
    (hpa : h.heap_vector.getD a.toNat none = some pa)
    (hpb : h.heap_vector.getD b.toNat none = some pb) :
    HeapUtils.swap_nodes m h a b = .ok (swap_index m pb pa,
      { h with heap_vector := (h.heap_vector.set a.toNat (some pb)).set b.toNat (some pa) }) := by
  have hne : a.toNat ≠ b.toNat := by omega
  have hal : a.toNat < h.heap_vector.length := by omega
  have hbl : b.toNat < h.heap_vector.length := by omega
  unfold HeapUtils.swap_nodes
  rw [get_ok h a ha0 ha1, get_ok h b hb0 hb1, hpa, hpb]
  simp only [bind, Except.bind]
  rw [put_ok h a _ ha0 ha1]
  simp only
  rw [put_ok _ b _ hb0 (by simpa using hb1)]
  simp only
  rw [get_ok _ a ha0 (by simpa using ha1), get_ok _ b hb0 (by simpa using hb1)]
  simp only [getD_set, List.length_set, hne, hne.symm, false_and, if_false, hal, hbl, and_self,
    if_true, HeapUtils.deref]
  rfl

theorem less_ok (m : Mem) (h : HeapUtils) (a b : Int) (pa pb : Nat)
    (ha0 : 0 ≤ a) (ha1 : a < h.heap_vector.length)
    (hb0 : 0 ≤ b) (hb1 : b < h.heap_vector.length)
    (hpa : h.heap_vector.getD a.toNat none = some pa)
    (hpb : h.heap_vector.getD b.toNat none = some pb) :
    HeapUtils.less m h a b = .ok ((rd m pa).less (rd m pb)) := by
  unfold HeapUtils.less
  rw [get_ok h a ha0 ha1, get_ok h b hb0 hb1, hpa, hpb]
  rfl

theorem swap_index_rd (m : Mem) (pa pb q : Nat) (hne : pa ≠ pb)
    (ha : pa < m.length) (hb : pb < m.length) :
    rd (swap_index m pa pb) q =
      if q = pa then { rd m pa with index_in_heap_vector := (rd m pb).index_in_heap_vector }
      else if q = pb then { rd m pb with index_in_heap_vector := (rd m pa).index_in_heap_vector }
      else rd m q := by
  unfold swap_index
  simp only [rd_set, List.length_set]
  by_cases h1 : q = pa
  · subst h1
    simp [hne, hne.symm, ha, hb]
  · by_cases h2 : q = pb
    · subst h2
      simp [hne, hne.symm, ha, hb]
    · have h1s : ¬ pa = q := fun h => h1 h.symm
      have h2s : ¬ pb = q := fun h => h2 h.symm
      simp [h1, h2, h1s, h2s]

theorem swap_index_payload (m : Mem) (pa pb : Nat) (hne : pa ≠ pb)
    (ha : pa < m.length) (hb : pb < m.length) : same_payload m (swap_index m pa pb) := by
  constructor
  · simp [swap_index]
  · intro q
    unfold HeapRBT.print_node
    rw [swap_index_rd m pa pb q hne ha hb]
    split_ifs with h1 h2
    · subst h1; rfl
    · subst h2; rfl
    · rfl

theorem mem_live_iff (h : HeapUtils) (o : Option Nat) :
    o ∈ h.live ↔ ∃ i < (h.sz + 1).toNat, h.heap_vector[i]? = some o := by
  unfold HeapUtils.live
  rw [List.mem_iff_getElem?]
  constructor
  · rintro ⟨i, hi⟩
    rw [List.getElem?_take] at hi
    by_cases hlt : i < (h.sz + 1).toNat
    · rw [if_pos hlt] at hi
      exact ⟨i, hlt, hi⟩
    · rw [if_neg hlt] at hi
      exact absurd hi (by simp)
  · rintro ⟨i, hlt, hi⟩
    exact ⟨i, by rw [List.getElem?_take, if_pos hlt]; exact hi⟩


theorem getD_eq_some_iff (l : List (Option Nat)) (i p : Nat) :
    l.getD i none = some p ↔ l[i]? = some (some p) := by
  rw [List.getD_eq_getElem?_getD]
  cases l[i]? with
  | none => simp
  | some v => simp

/-- In a linked heap a node sits in the live slot named by its index field. -/
theorem linked_slot_unique (m : Mem) (h : HeapUtils) (hl : HeapUtils.linked m h) (i p : Nat)
    (hi : i < (h.sz + 1).toNat) (hp : h.heap_vector.getD i none = some p) :
    p < m.length ∧ (rd m p).index_in_heap_vector = i := by
  obtain ⟨q, hq, hq1, hq2⟩ := hl.2.2 i hi
  rw [hp] at hq1
  cases hq1
  exact ⟨hq, hq2⟩

/-- Exchanging two distinct live slots with `swap_nodes` keeps the heap linked, keeps
every payload, and keeps the set of nodes in live slots. -/
theorem swap_nodes_spec (m : Mem) (h : HeapUtils) (hl : HeapUtils.linked m h) (a b : Int)
    (ha0 : 0 ≤ a) (ha1 : a ≤ h.sz) (hb0 : 0 ≤ b) (hb1 : b ≤ h.sz) (hab : a ≠ b) :
    ∃ m1 h1, HeapUtils.swap_nodes m h a b = .ok (m1, h1) ∧ HeapUtils.linked m1 h1 ∧
      h1.sz = h.sz ∧ same_payload m m1 ∧ ∀ o, o ∈ h1.live ↔ o ∈ h.live := by
  obtain ⟨hsz0, hsz1, hall⟩ := hl
  have hat : a.toNat < (h.sz + 1).toNat := by omega
  have hbt : b.toNat < (h.sz + 1).toNat := by omega
  have hne : a.toNat ≠ b.toNat := by omega
  have hal : a.toNat < h.heap_vector.length := by omega
  have hbl : b.toNat < h.heap_vector.length := by omega
  obtain ⟨pa, hpal, hpa, hia⟩ := hall _ hat
  obtain ⟨pb, hpbl, hpb, hib⟩ := hall _ hbt
  have hpne : pb ≠ pa := by
    intro he
    rw [he, hia] at hib
    omega
  refine ⟨_, _, swap_nodes_eq m h a b pa pb ha0 (by omega) hb0 (by omega) hab hpa hpb, ?_, rfl,
    swap_index_payload m pb pa hpne hpbl hpal, ?_⟩
  · refine ⟨hsz0, by simpa using hsz1, ?_⟩
    intro i hi
    simp only [getD_set, List.length_set]
    have hlen : (swap_index m pb pa).length = m.length := by simp [swap_index]
    by_cases hib2 : b.toNat = i
    · refine ⟨pa, by rw [hlen]; exact hpal, by rw [if_pos ⟨hib2, hbl⟩], ?_⟩
      rw [swap_index_rd m pb pa pa hpne hpbl hpal, if_neg hpne.symm, if_pos rfl]
      show (rd m pb).index_in_heap_vector = i
      rw [hib, hib2]
    · have hnb : ¬ (b.toNat = i ∧ b.toNat < h.heap_vector.length) := fun hh => hib2 hh.1
      by_cases hia2 : a.toNat = i
      · refine ⟨pb, by rw [hlen]; exact hpbl, by rw [if_neg hnb, if_pos ⟨hia2, hal⟩], ?_⟩
        rw [swap_index_rd m pb pa pb hpne hpbl hpal, if_pos rfl]
        show (rd m pa).index_in_heap_vector = i
        rw [hia, hia2]
      · have hna : ¬ (a.toNat = i ∧ a.toNat < h.heap_vector.length) := fun hh => hia2 hh.1
        obtain ⟨p, hpl, hp, hip⟩ := hall i hi
        refine ⟨p, by rw [hlen]; exact hpl, by rw [if_neg hnb, if_neg hna]; exact hp, ?_⟩
        have h1 : p ≠ pb := by
          intro he; rw [he, hib] at hip; omega
        have h2 : p ≠ pa := by
          intro he; rw [he, hia] at hip; omega
        rw [swap_index_rd m pb pa p hpne hpbl hpal, if_neg h1, if_neg h2]
        exact hip
  · intro o
    rw [mem_live_iff, mem_live_iff]
    rw [getD_eq_some_iff] at hpa hpb
    simp only [List.getElem?_set, List.length_set]
    constructor
    · rintro ⟨i, hi, hio⟩
      by_cases hib2 : b.toNat = i
      · rw [if_pos hib2, if_pos hbl] at hio
        exact ⟨a.toNat, hat, by rw [hpa]; exact hio⟩
      · rw [if_neg hib2] at hio
        by_cases hia2 : a.toNat = i
        · rw [if_pos hia2, if_pos hal] at hio
          exact ⟨b.toNat, hbt, by rw [hpb]; exact hio⟩
        · rw [if_neg hia2] at hio
          exact ⟨i, hi, hio⟩
    · rintro ⟨i, hi, hio⟩
      by_cases hib2 : b.toNat = i
      · refine ⟨a.toNat, hat, ?_⟩
        rw [if_neg hne.symm, if_pos rfl, if_pos hal]
        rw [← hib2, hpb] at hio
        exact hio
      · by_cases hia2 : a.toNat = i
        · refine ⟨b.toNat, hbt, ?_⟩
          rw [if_pos rfl, if_pos hbl]
          rw [← hia2, hpa] at hio
          exact hio
        · refine ⟨i, hi, ?_⟩
          rw [if_neg hib2, if_neg hia2]
          exact hio


theorem same_payload_refl (m : Mem) : same_payload m m := ⟨rfl, fun _ => rfl⟩

theorem same_payload_trans (m m1 m2 : Mem) (h1 : same_payload m m1) (h2 : same_payload m1 m2) :
    same_payload m m2 :=
  ⟨h2.1.trans h1.1, fun q => (h2.2 q).trans (h1.2 q)⟩

/-- A live slot of a linked heap holds a node. -/
theorem linked_slot (m : Mem) (h : HeapUtils) (hl : HeapUtils.linked m h) (a : Int)
    (ha0 : 0 ≤ a) (ha1 : a ≤ h.sz) :
    ∃ p, h.heap_vector.getD a.toNat none = some p ∧ a < h.heap_vector.length := by
  obtain ⟨p, _, hp, _⟩ := hl.2.2 a.toNat (by omega)
  exact ⟨p, hp, by have := hl.2.1; omega⟩

/-- With enough fuel the sift-down loop started at a slot `x ≥ 0` of a linked heap
ends without a fault; it keeps the heap linked, the size, every payload and the set
of nodes in live slots. -/
theorem fix_heap_down_loop_spec (fuel : Nat) : ∀ (m : Mem) (h : HeapUtils) (x : Int),
    HeapUtils.linked m h → 0 ≤ x → (h.sz - x).toNat < fuel →
    ∃ m1 h1, HeapUtils.fix_heap_down_loop fuel m h x = .ok (m1, h1) ∧
      HeapUtils.linked m1 h1 ∧ h1.sz = h.sz ∧ same_payload m m1 ∧
      ∀ o, o ∈ h1.live ↔ o ∈ h.live := by
  induction fuel with
  | zero => intro m h x _ _ hf; omega
  | succ fuel ih =>
    intro m h x hl hx hf
    unfold HeapUtils.fix_heap_down_loop
    by_cases hc : 2 * x + 1 ≤ h.sz
    · rw [if_pos hc]
      obtain ⟨px, hpx, hxl⟩ := linked_slot m h hl x hx (by omega)
      obtain ⟨py, hpy, hyl⟩ := linked_slot m h hl (2 * x + 1) (by omega) hc
      have hcq : ∃ c, (if 2 * x + 1 < h.sz then HeapUtils.less m h (2 * x + 1 + 1) (2 * x + 1)
          else (pure false : Res Bool)) = .ok c := by
        by_cases hlt : 2 * x + 1 < h.sz
        · obtain ⟨pz, hpz, hzl⟩ := linked_slot m h hl (2 * x + 1 + 1) (by omega) (by omega)
          rw [if_pos hlt, less_ok m h _ _ pz py (by omega) hzl (by omega) hyl hpz hpy]
          exact ⟨_, rfl⟩
        · rw [if_neg hlt]
          exact ⟨false, rfl⟩
      obtain ⟨c, hceq⟩ := hcq
      have hcle : c = true → 2 * x + 1 < h.sz := by
        intro hct
        by_contra hlt
        rw [if_neg hlt] at hceq
        cases hceq
        cases hct
      dsimp only
      rw [hceq]
      simp only [bind, Except.bind]
      generalize hy : (if c = true then 2 * x + 1 + 1 else 2 * x + 1) = y
      have hy1 : x < y := by
        rw [← hy]; split_ifs <;> omega
      have hy2 : y ≤ h.sz := by
        rw [← hy]
        split_ifs with hct
        · have := hcle hct; omega
        · exact hc
      obtain ⟨pw, hpw, hwl⟩ := linked_slot m h hl y (by omega) hy2
      rw [less_ok m h x y px pw hx hxl (by omega) hwl hpx hpw]
      simp only
      cases (rd m px).less (rd m pw) with
      | true => exact ⟨m, h, rfl, hl, rfl, same_payload_refl m, fun _ => Iff.rfl⟩
      | false =>
        obtain ⟨m1, h1, hsw, hl1, hs1, hp1, hm1⟩ :=
          swap_nodes_spec m h hl x y hx (by omega) (by omega) hy2 (by omega)
        rw [hsw]
        simp only [Bool.false_eq_true, if_false]
        obtain ⟨m2, h2, hlp, hl2, hs2, hp2, hm2⟩ :=
          ih m1 h1 y hl1 (by omega) (by rw [hs1]; omega)
        exact ⟨m2, h2, hlp, hl2, hs2.trans hs1, same_payload_trans _ _ _ hp1 hp2,
          fun o => (hm2 o).trans (hm1 o)⟩
    · rw [if_neg hc]
      exact ⟨m, h, rfl, hl, rfl, same_payload_refl m, fun _ => Iff.rfl⟩

theorem fix_heap_down_spec (m : Mem) (h : HeapUtils) (x : Int)
    (hl : HeapUtils.linked m h) (hx : 0 ≤ x) :
    ∃ m1 h1, HeapUtils.fix_heap_down m h x = .ok (m1, h1) ∧
      HeapUtils.linked m1 h1 ∧ h1.sz = h.sz ∧ same_payload m m1 ∧
      ∀ o, o ∈ h1.live ↔ o ∈ h.live :=
  fix_heap_down_loop_spec _ m h x hl hx (by omega)


theorem same_payload_key (m m1 : Mem) (h : same_payload m m1) (q : Nat) :
    key m1 q = key m q := by
  have := h.2 q
  unfold HeapRBT.print_node at this
  exact congrArg Prod.fst this

theorem get_node_from_congr (m m1 : Mem) (t : Tree) (id : Int)
    (hk : ∀ q, key m1 q = key m q) : get_node_from m1 t id = get_node_from m t id := by
  induction t with
  | nil => rfl
  | node l p c r ihl ihr =>
    have hp := hk p
    unfold key at hp
    simp only [get_node_from, hp, ihl, ihr]

/-- Overwriting cost and duration of one node keeps a heap linked. -/
theorem linked_set_payload (m : Mem) (h : HeapUtils) (hl : HeapUtils.linked m h) (p : Nat)
    (cost duration : Int) :
    HeapUtils.linked
      (m.set p { rd m p with ride_cost := cost, trip_duration := duration }) h := by
  obtain ⟨h0, h1, hall⟩ := hl
  refine ⟨h0, h1, ?_⟩
  intro i hi
  obtain ⟨q, hq, hq1, hq2⟩ := hall i hi
  refine ⟨q, by simpa using hq, hq1, ?_⟩
  rw [rd_set]
  split_ifs with hh
  · rw [← hh.1] at hq2; exact hq2
  · exact hq2

/-- The branch of `update_trip` taken for a duration above the current one and not
above twice the current one. -/
theorem update_trip_within (s : HeapRBT) (id new_duration : Int) (ride : Nat)
    (hget : RBTUtils.get_node s.nodes s.toRBTUtils id = some ride)
    (h1 : (rd s.nodes ride).trip_duration < new_duration)
    (h2 : new_duration ≤ wrap32 (2 * (rd s.nodes ride).trip_duration)) :
    HeapRBT.update_trip s id new_duration =
      (HeapUtils.fix_heap_down (extended s.nodes ride new_duration) s.toHeapUtils
        (rd (extended s.nodes ride new_duration) ride).index_in_heap_vector).map
        (fun r => { s with toHeapUtils := r.2, nodes := r.1 }) := by
  unfold HeapRBT.update_trip
  rw [hget]
  simp only
  rw [if_neg (not_lt.mpr h2), if_pos h1]
  unfold HeapUtils.update_by_index extended
  cases HeapUtils.fix_heap_down _ s.toHeapUtils _ <;> rfl

/-- C4 as stated fails where the 32-bit arithmetic of `update_trip` overflows.  Ride
(1, 2147483647, 10) extended to duration 15, within the double, ends with the cost
2147483647 + 10 wrapped to -2147483639.  Ride (2, 20, 1500000000) extended to
duration 1600000000, within the double, is removed, because `2 * td` wraps to a
negative value; ride 1 stays. -/
theorem C4_extend_overflows :
    HeapRBT.consistent (state_after [.Insert 1 2147483647 10]) ∧
    HeapRBT.print (state_after [.Insert 1 2147483647 10]) 1 = some (1, 2147483647, 10) ∧
    (HeapRBT.update_trip (state_after [.Insert 1 2147483647 10]) 1 15).map
        (fun s => HeapRBT.print s 1) = .ok (some (1, -2147483639, 15)) ∧
    HeapRBT.consistent (state_after [.Insert 1 10 10, .Insert 2 20 1500000000]) ∧
    HeapRBT.print (state_after [.Insert 1 10 10, .Insert 2 20 1500000000]) 2
      = some (2, 20, 1500000000) ∧
    (HeapRBT.update_trip (state_after [.Insert 1 10 10, .Insert 2 20 1500000000]) 2
        1600000000).map (fun s => (HeapRBT.print s 2, HeapRBT.print s 1))
      = .ok (none, some (1, 10, 10)) := by
  decide!

/-- C4 amended: in a consistent state where the lookup of `id` returns (id, c, d),
with `c + 10` and `2 * d` inside the `int` range (`-2^31 ≤ c ≤ 2^31 - 11`,
`d < 2^30`), and for d < new_duration ≤ 2 * d, `update_trip` ends without a fault;
afterwards the lookup of `id` returns (id, c + 10, new_duration), the tree is
untouched, both indexes still hold the same records (the live heap slots hold the
same nodes as before, each in the slot its index field names), and every record with
another id keeps its (id, cost, duration). -/
theorem C4_extend_within_double (s : HeapRBT) (id c d new_duration : Int)
    (hc : HeapRBT.consistent s)
    (hp : HeapRBT.print s id = some (id, c, d))
    (hc0 : -2147483648 ≤ c) (hc1 : c ≤ 2147483637) (hd1 : d ≤ 1073741823)
    (h1 : d < new_duration) (h2 : new_duration ≤ 2 * d) :
    ∃ s1, HeapRBT.update_trip s id new_duration = .ok s1 ∧
      HeapRBT.print s1 id = some (id, c + 10, new_duration) ∧
      s1.toRBTUtils = s.toRBTUtils ∧
      HeapRBT.same_records s1 ∧
      (∀ o, o ∈ s1.toHeapUtils.live ↔ o ∈ s.toHeapUtils.live) ∧
      HeapUtils.linked s1.nodes s1.toHeapUtils ∧
      ∀ p ∈ RBTUtils.get_inorder s.root, key s.nodes p ≠ id →
        HeapRBT.print_node s1.nodes p = HeapRBT.print_node s.nodes p := by
  obtain ⟨hsame, hl, _, _⟩ := hc
  cases hget : RBTUtils.get_node s.nodes s.toRBTUtils id with
  | none => simp [HeapRBT.print, hget] at hp
  | some ride =>
    simp only [HeapRBT.print, hget, HeapRBT.print_node, Option.some.injEq, Prod.mk.injEq] at hp
    obtain ⟨hid, hcost, hdur⟩ := hp
    have hmem := (get_node_from_mem s.nodes s.root id ride hget).1
    obtain ⟨i, hi, hslot⟩ := (mem_live_iff _ _).mp (hsame.1 ride hmem)
    obtain ⟨hrl, hidx⟩ := linked_slot_unique s.nodes s.toHeapUtils hl i ride hi
      ((getD_eq_some_iff _ _ _).mpr hslot)
    have hl1 : HeapUtils.linked (extended s.nodes ride new_duration) s.toHeapUtils :=
      linked_set_payload s.nodes s.toHeapUtils hl ride _ new_duration
    have hrd1 : rd (extended s.nodes ride new_duration) ride = ⟨id, c + 10, new_duration, i⟩ := by
      unfold extended
      rw [rd_set, if_pos ⟨rfl, hrl⟩]
      dsimp only
      rw [hid, hcost, hidx, wrap32_eq _ (by omega) (by omega)]
    have hrd2 : ∀ q, q ≠ ride → rd (extended s.nodes ride new_duration) q = rd s.nodes q := by
      intro q hq
      unfold extended
      rw [rd_set, if_neg (fun hh => hq hh.1.symm)]
    obtain ⟨m1, h1', hfix, hl2, _, hpay, hlive⟩ :=
      fix_heap_down_spec _ s.toHeapUtils (i : Int) hl1 (by omega)
    have hkey : ∀ q, key m1 q = key s.nodes q := by
      intro q
      rw [same_payload_key _ _ hpay q]
      unfold key
      by_cases hq : q = ride
      · rw [hq, hrd1, hid]
      · rw [hrd2 q hq]
    refine ⟨{ s with toHeapUtils := h1', nodes := m1 }, ?_, ?_, rfl, ?_, hlive, hl2, ?_⟩
    · rw [update_trip_within s id new_duration ride hget (by omega)
        (by rw [wrap32_eq _ (by omega) (by omega)]; omega), hrd1]
      show (HeapUtils.fix_heap_down (extended s.nodes ride new_duration) s.toHeapUtils (i : Int)).map
        _ = _
      rw [hfix]
      rfl
    · have hg : RBTUtils.get_node m1 s.toRBTUtils id = some ride := by
        unfold RBTUtils.get_node
        rw [get_node_from_congr _ _ _ _ hkey]
        exact hget
      simp only [HeapRBT.print, hg]
      rw [hpay.2 ride]
      unfold HeapRBT.print_node
      rw [hrd1]
    · constructor
      · intro p hp
        exact (hlive _).mpr (hsame.1 p hp)
      · intro o ho
        exact hsame.2 o ((hlive _).mp ho)
    · intro p _ hk
      show HeapRBT.print_node m1 p = _
      rw [hpay.2 p]
      unfold HeapRBT.print_node
      rw [hrd2 p]
      rintro rfl
      exact hk hid

/-- Witness of `C4_extend_within_double`: rides (1,50,10), (2,30,20), (3,30,5) are
scheduled, and ride 3 is extended from duration 5 to 8. -/
theorem C4_extend_within_double_witness :
    ∃ s1, HeapRBT.update_trip (state_after [.Insert 1 50 10, .Insert 2 30 20, .Insert 3 30 5]) 3 8
        = .ok s1 ∧
      HeapRBT.print s1 3 = some (3, 30 + 10, 8) ∧
      s1.toRBTUtils = (state_after [.Insert 1 50 10, .Insert 2 30 20, .Insert 3 30 5]).toRBTUtils ∧
      HeapRBT.same_records s1 ∧
      (∀ o, o ∈ s1.toHeapUtils.live ↔
        o ∈ (state_after [.Insert 1 50 10, .Insert 2 30 20, .Insert 3 30 5]).toHeapUtils.live) ∧
      HeapUtils.linked s1.nodes s1.toHeapUtils ∧
      ∀ p ∈ RBTUtils.get_inorder (state_after [.Insert 1 50 10, .Insert 2 30 20, .Insert 3 30 5]).root,
        key (state_after [.Insert 1 50 10, .Insert 2 30 20, .Insert 3 30 5]).nodes p ≠ 3 →
        HeapRBT.print_node s1.nodes p
          = HeapRBT.print_node (state_after [.Insert 1 50 10, .Insert 2 30 20, .Insert 3 30 5]).nodes p :=
  C4_extend_within_double (state_after [.Insert 1 50 10, .Insert 2 30 20, .Insert 3 30 5]) 3 30 5 8
    (by decide!) (by decide!) (by decide) (by decide) (by decide) (by decide) (by decide)

/-! ## Concrete runs: delete and heap repair -/

/-- C13: the tree holding ids 1, 2, 3 satisfies invariants (a) to (e); deleting id 2,
which has a right subtree and is replaced by its successor, leaves a red root with
a red left child.  Deleting id 2 from the tree holding ids 1 to 5 leaves a tree
whose root-to-empty paths cross different numbers of black links. -/
theorem C13_delete_breaks_invariants :
    RBTUtils.invariants (state_after [.Insert 1 0 0, .Insert 2 0 0, .Insert 3 0 0]).nodes
      (state_after [.Insert 1 0 0, .Insert 2 0 0, .Insert 3 0 0]).root ∧
    (RBTUtils.delete_by_id (state_after [.Insert 1 0 0, .Insert 2 0 0, .Insert 3 0 0]).nodes
        (state_after [.Insert 1 0 0, .Insert 2 0 0, .Insert 3 0 0]).toRBTUtils 2).map
        (fun t => t.root)
      = .ok (.node (.node .nil 0 .R .nil) 2 .R .nil) ∧
    RBTUtils.invariants
      (state_after [.Insert 1 0 0, .Insert 2 0 0, .Insert 3 0 0, .Insert 4 0 0, .Insert 5 0 0]).nodes
      (state_after [.Insert 1 0 0, .Insert 2 0 0, .Insert 3 0 0, .Insert 4 0 0, .Insert 5 0 0]).root ∧
    (RBTUtils.delete_by_id
        (state_after [.Insert 1 0 0, .Insert 2 0 0, .Insert 3 0 0, .Insert 4 0 0, .Insert 5 0 0]).nodes
        (state_after [.Insert 1 0 0, .Insert 2 0 0, .Insert 3 0 0, .Insert 4 0 0, .Insert 5 0 0]).toRBTUtils
        2).map (fun t => (t.root, RBTUtils.black_height t.root))
      = .ok (.node (.node .nil 0 .B .nil) 2 .R (.node .nil 3 .B (.node .nil 4 .B .nil)), none) := by
  decide!

/-- C15: the heap built by inserting costs 0, 1, 5, 2, 3, 6 satisfies the heap
property; after inserting one more ride of cost 2 it does not: the new ride in
slot 6 is `less` than the ride of cost 3 in its parent slot 2, because
`fix_heap_up` compared it with slot 3. -/
theorem C15_insert_breaks_heap_property :
    HeapUtils.heap_property
      (state_after [.Insert 1 0 0, .Insert 2 1 0, .Insert 3 5 0, .Insert 4 2 0, .Insert 5 3 0,
        .Insert 6 6 0]).nodes
      (state_after [.Insert 1 0 0, .Insert 2 1 0, .Insert 3 5 0, .Insert 4 2 0, .Insert 5 3 0,
        .Insert 6 6 0]).toHeapUtils ∧
    HeapRBT.live_rides (state_after [.Insert 1 0 0, .Insert 2 1 0, .Insert 3 5 0, .Insert 4 2 0,
        .Insert 5 3 0, .Insert 6 6 0, .Insert 7 2 0])
      = [(1, 0, 0), (2, 1, 0), (5, 3, 0), (4, 2, 0), (3, 5, 0), (6, 6, 0), (7, 2, 0)] ∧
    ¬ HeapUtils.heap_property
      (state_after [.Insert 1 0 0, .Insert 2 1 0, .Insert 3 5 0, .Insert 4 2 0, .Insert 5 3 0,
        .Insert 6 6 0, .Insert 7 2 0]).nodes
      (state_after [.Insert 1 0 0, .Insert 2 1 0, .Insert 3 5 0, .Insert 4 2 0, .Insert 5 3 0,
        .Insert 6 6 0, .Insert 7 2 0]).toHeapUtils := by
  decide!

/-- C17: the heap built by inserting costs 0, 1, 2, 3, 4 is consistent; after
`delete_by_index(0)` the live slots hold costs 1, 0, 2, 3, so slot 1 is `less` than
its parent slot 0 and the heap property fails. -/
theorem C17_delete_breaks_heap_property :
    HeapRBT.consistent
      (state_after [.Insert 1 0 0, .Insert 2 1 0, .Insert 3 2 0, .Insert 4 3 0, .Insert 5 4 0]) ∧
    (HeapUtils.delete_by_index
        (state_after [.Insert 1 0 0, .Insert 2 1 0, .Insert 3 2 0, .Insert 4 3 0,
          .Insert 5 4 0]).nodes
        (state_after [.Insert 1 0 0, .Insert 2 1 0, .Insert 3 2 0, .Insert 4 3 0,
          .Insert 5 4 0]).toHeapUtils 0).map
        (fun r => (r.2.live.map (Option.map (fun p => (rd r.1 p).ride_cost)),
          decide (HeapUtils.heap_property r.1 r.2)))
      = .ok ([some 1, some 0, some 2, some 3], false) := by
  decide!

/-- C20: in the consistent state holding the single ride (5,20,10), `cancel_ride(5)`
indexes `heap_vector` outside its bounds (at -1). -/
theorem C20_cancel_single_ride_out_of_bounds :
    HeapRBT.consistent (state_after [.Insert 5 20 10]) ∧
    HeapRBT.cancel_ride (state_after [.Insert 5 20 10]) 5 = .error .outOfBounds ∧
    HeapUtils.swap_nodes (state_after [.Insert 5 20 10]).nodes
        { (state_after [.Insert 5 20 10]).toHeapUtils with sz := -1 } 0 (-1)
      = .error .outOfBounds := by
  decide!

/-! ## The priority index: bookkeeping of `index_in_heap_vector` -/

theorem get_inv (h : HeapUtils) (a : Int) (v : Option Nat) (hg : h.get a = .ok v) :
    0 ≤ a ∧ a < h.heap_vector.length ∧ h.heap_vector[a.toNat]? = some v := by
  unfold HeapUtils.get at hg
  split_ifs at hg with hc
  cases hg
  refine ⟨hc.1, hc.2, ?_⟩
  have : a.toNat < h.heap_vector.length := by omega
  rw [List.getD_eq_getElem?_getD, List.getElem?_eq_getElem this]
  rfl

theorem put_inv (h h1 : HeapUtils) (a : Int) (v : Option Nat) (hp : h.put a v = .ok h1) :
    0 ≤ a ∧ a < h.heap_vector.length ∧
      h1 = { h with heap_vector := h.heap_vector.set a.toNat v } := by
  unfold HeapUtils.put at hp
  split_ifs at hp with hc
  cases hp
  exact ⟨hc.1, hc.2, rfl⟩

theorem deref_inv (o : Option Nat) (q : Nat) (hd : HeapUtils.deref o = .ok q) : o = some q := by
  cases o with
  | none => simp [HeapUtils.deref] at hd
  | some p => simp only [HeapUtils.deref, Except.ok.injEq] at hd; rw [hd]

/-- What a `swap_nodes` call that ends without a fault has done. -/
theorem swap_nodes_inv (m : Mem) (h : HeapUtils) (a b : Int) (r : Mem × HeapUtils)
    (hs : HeapUtils.swap_nodes m h a b = .ok r) :
    ∃ pa pb, 0 ≤ a ∧ a < h.heap_vector.length ∧ 0 ≤ b ∧ b < h.heap_vector.length ∧
      h.heap_vector[a.toNat]? = some (some pa) ∧ h.heap_vector[b.toNat]? = some (some pb) ∧
      r = (swap_index m pb pa,
        { h with heap_vector := (h.heap_vector.set a.toNat (some pb)).set b.toNat (some pa) }) := by
  unfold HeapUtils.swap_nodes at hs
  cases h1 : h.get a with
  | error e => rw [h1] at hs; cases hs
  | ok va =>
    cases h2 : h.get b with
    | error e => rw [h1, h2] at hs; cases hs
    | ok vb =>
      obtain ⟨ha0, ha1, hva⟩ := get_inv h a va h1
      obtain ⟨hb0, hb1, hvb⟩ := get_inv h b vb h2
      have hal : a.toNat < h.heap_vector.length := by omega
      have hbl : b.toNat < h.heap_vector.length := by omega
      rw [h1, h2] at hs
      simp only [bind, Except.bind] at hs
      rw [put_ok h a _ ha0 ha1] at hs
      simp only at hs
      rw [put_ok _ b _ hb0 (by simpa using hb1)] at hs
      simp only at hs
      rw [get_ok _ a ha0 (by simpa using ha1), get_ok _ b hb0 (by simpa using hb1)] at hs
      simp only [getD_set, List.length_set, hal, hbl, and_true, if_true] at hs
      by_cases hab : a.toNat = b.toNat
      · have hvv : va = vb := by
          rw [hab] at hva; rw [hva] at hvb; exact Option.some.inj hvb
        subst hvv
        simp only [hab, if_true] at hs
        cases va with
        | none => simp [HeapUtils.deref] at hs
        | some pa =>
          simp only [HeapUtils.deref] at hs
          cases hs
          refine ⟨pa, pa, ha0, ha1, hb0, hb1, hva, hvb, ?_⟩
          rw [hab]
      · have hba : ¬ b.toNat = a.toNat := fun hh => hab hh.symm
        simp only [hba, if_false] at hs
        cases vb with
        | none => simp [HeapUtils.deref] at hs
        | some pb =>
          cases va with
          | none => simp [HeapUtils.deref] at hs
          | some pa =>
            simp only [HeapUtils.deref] at hs
            cases hs
            exact ⟨pa, pb, ha0, ha1, hb0, hb1, hva, hvb, rfl⟩

theorem swap_index_self (m : Mem) (p : Nat) (q : Nat) : rd (swap_index m p p) q = rd m q := by
  unfold swap_index
  simp only [rd_set, List.length_set]
  by_cases h1 : p = q ∧ p < m.length
  · simp [h1]
  · simp [h1]

theorem swap_index_length (m : Mem) (a b : Nat) : (swap_index m a b).length = m.length := by
  simp [swap_index]

/-- `swap_nodes` keeps the bookkeeping invariant, whatever two slots it exchanges. -/
theorem swap_nodes_tracked (m : Mem) (h : HeapUtils) (a b : Int) (m1 : Mem) (h1 : HeapUtils)
    (hs : HeapUtils.swap_nodes m h a b = .ok (m1, h1)) (ht : HeapUtils.tracked m h) :
    HeapUtils.tracked m1 h1 ∧ h1.sz = h.sz ∧ h1.heap_vector.length = h.heap_vector.length ∧
      m1.length = m.length := by
  obtain ⟨pa, pb, ha0, ha1, hb0, hb1, hpa, hpb, hr⟩ := swap_nodes_inv m h a b _ hs
  obtain ⟨hlive, halloc, hinj⟩ := ht
  cases hr
  have hal : a.toNat < h.heap_vector.length := by omega
  have hbl : b.toNat < h.heap_vector.length := by omega
  have hpal := halloc _ _ hpa
  have hpbl := halloc _ _ hpb
  refine ⟨?_, rfl, by simp, swap_index_length _ _ _⟩
  by_cases hab : a.toNat = b.toNat
  · -- the same slot twice: nothing changes
    have hpp : pb = pa := by
      rw [hab] at hpa; rw [hpa] at hpb; cases hpb; rfl
    subst hpp
    have hvec : ∀ i : Nat, ((h.heap_vector.set a.toNat (some pb)).set b.toNat (some pb))[i]?
        = h.heap_vector[i]? := by
      intro i
      simp only [List.getElem?_set, List.length_set]
      by_cases hbi : b.toNat = i
      · rw [if_pos hbi, if_pos hbl, ← hbi, ← hab, hpa]
      · rw [if_neg hbi, if_neg (by rw [hab]; exact hbi)]
    refine ⟨?_, ?_, ?_⟩
    · intro i hi
      obtain ⟨p, hp, hidx⟩ := hlive i hi
      exact ⟨p, by rw [hvec]; exact hp, by rw [swap_index_self]; exact hidx⟩
    · intro i p hp
      rw [hvec] at hp
      rw [swap_index_length]
      exact halloc i p hp
    · intro i j p hi hj
      rw [hvec] at hi hj
      exact hinj i j p hi hj
  · have hne : pb ≠ pa := by
      intro hh
      rw [hh] at hpb
      exact hab (hinj _ _ _ hpa hpb)
    have hvec : ∀ i : Nat, ((h.heap_vector.set a.toNat (some pb)).set b.toNat (some pa))[i]?
        = if b.toNat = i then some (some pa) else if a.toNat = i then some (some pb)
          else h.heap_vector[i]? := by
      intro i
      simp only [List.getElem?_set, List.length_set, hal, hbl, if_true]
    refine ⟨?_, ?_, ?_⟩
    · intro i hi
      obtain ⟨p, hp, hidx⟩ := hlive i hi
      by_cases hbi : b.toNat = i
      · refine ⟨pa, by rw [hvec, if_pos hbi], ?_⟩
        rw [swap_index_rd m pb pa pa hne hpbl hpal, if_neg hne.symm, if_pos rfl]
        show (rd m pb).index_in_heap_vector = i
        rw [← hbi, hpb] at hp
        cases hp
        exact hidx
      · by_cases hai : a.toNat = i
        · refine ⟨pb, by rw [hvec, if_neg hbi, if_pos hai], ?_⟩
          rw [swap_index_rd m pb pa pb hne hpbl hpal, if_pos rfl]
          show (rd m pa).index_in_heap_vector = i
          rw [← hai, hpa] at hp
          cases hp
          exact hidx
        · refine ⟨p, by rw [hvec, if_neg hbi, if_neg hai]; exact hp, ?_⟩
          have h1 : p ≠ pb := fun hh => hbi (hinj _ _ _ hpb (hh ▸ hp))
          have h2 : p ≠ pa := fun hh => hai (hinj _ _ _ hpa (hh ▸ hp))
          rw [swap_index_rd m pb pa p hne hpbl hpal, if_neg h1, if_neg h2]
          exact hidx
    · intro i p hp
      rw [swap_index_length]
      rw [hvec] at hp
      by_cases hbi : b.toNat = i
      · rw [if_pos hbi] at hp; cases hp; exact hpal
      · rw [if_neg hbi] at hp
        by_cases hai : a.toNat = i
        · rw [if_pos hai] at hp; cases hp; exact hpbl
        · rw [if_neg hai] at hp; exact halloc i p hp
    · have key : ∀ i : Nat, ∃ k : Nat,
          ((h.heap_vector.set a.toNat (some pb)).set b.toNat (some pa))[i]? = h.heap_vector[k]? ∧
          ((b.toNat = i ∧ k = a.toNat) ∨ (b.toNat ≠ i ∧ a.toNat = i ∧ k = b.toNat) ∨
            (b.toNat ≠ i ∧ a.toNat ≠ i ∧ k = i)) := by
        intro i
        by_cases hbi : b.toNat = i
        · exact ⟨a.toNat, by rw [hvec, if_pos hbi, hpa], Or.inl ⟨hbi, rfl⟩⟩
        · by_cases hai : a.toNat = i
          · exact ⟨b.toNat, by rw [hvec, if_neg hbi, if_pos hai, hpb], Or.inr (Or.inl ⟨hbi, hai, rfl⟩)⟩
          · exact ⟨i, by rw [hvec, if_neg hbi, if_neg hai], Or.inr (Or.inr ⟨hbi, hai, rfl⟩)⟩
      intro i j p hi hj
      obtain ⟨ki, hki, ci⟩ := key i
      obtain ⟨kj, hkj, cj⟩ := key j
      rw [hki] at hi
      rw [hkj] at hj
      have := hinj _ _ _ hi hj
      omega

theorem fix_heap_down_loop_tracked (fuel : Nat) : ∀ (m : Mem) (h : HeapUtils) (x : Int)
    (m1 : Mem) (h1 : HeapUtils), HeapUtils.fix_heap_down_loop fuel m h x = .ok (m1, h1) →
    HeapUtils.tracked m h →
    HeapUtils.tracked m1 h1 ∧ h1.sz = h.sz ∧ h1.heap_vector.length = h.heap_vector.length ∧
      m1.length = m.length := by
  induction fuel with
  | zero => intro m h x m1 h1 hr; simp [HeapUtils.fix_heap_down_loop] at hr
  | succ fuel ih =>
    intro m h x m1 h1 hr ht
    unfold HeapUtils.fix_heap_down_loop at hr
    split_ifs at hr with hc
    · dsimp only at hr
      cases hcq : (if 2 * x + 1 < h.sz then HeapUtils.less m h (2 * x + 1 + 1) (2 * x + 1)
          else (pure false : Res Bool)) with
      | error e => rw [hcq] at hr; cases hr
      | ok c =>
        rw [hcq] at hr
        simp only [bind, Except.bind] at hr
        cases hb : HeapUtils.less m h x (if c = true then 2 * x + 1 + 1 else 2 * x + 1) with
        | error e => rw [hb] at hr; cases hr
        | ok b =>
          rw [hb] at hr
          simp only at hr
          cases b with
          | true => simp only [if_true] at hr; cases hr; exact ⟨ht, rfl, rfl, rfl⟩
          | false =>
            simp only [Bool.false_eq_true, if_false] at hr
            cases hsw : HeapUtils.swap_nodes m h x
                (if c = true then 2 * x + 1 + 1 else 2 * x + 1) with
            | error e => rw [hsw] at hr; cases hr
            | ok r =>
              obtain ⟨m2, h2⟩ := r
              rw [hsw] at hr
              simp only at hr
              obtain ⟨t2, s2, l2, n2⟩ := swap_nodes_tracked m h _ _ m2 h2 hsw ht
              obtain ⟨t3, s3, l3, n3⟩ := ih m2 h2 _ m1 h1 hr t2
              exact ⟨t3, s3.trans s2, l3.trans l2, n3.trans n2⟩
    · cases hr; exact ⟨ht, rfl, rfl, rfl⟩

theorem fix_heap_up_loop_tracked (fuel : Nat) : ∀ (m : Mem) (h : HeapUtils) (x : Int)
    (m1 : Mem) (h1 : HeapUtils), HeapUtils.fix_heap_up_loop fuel m h x = .ok (m1, h1) →
    HeapUtils.tracked m h →
    HeapUtils.tracked m1 h1 ∧ h1.sz = h.sz ∧ h1.heap_vector.length = h.heap_vector.length ∧
      m1.length = m.length := by
  induction fuel with
  | zero => intro m h x m1 h1 hr; simp [HeapUtils.fix_heap_up_loop] at hr
  | succ fuel ih =>
    intro m h x m1 h1 hr ht
    unfold HeapUtils.fix_heap_up_loop at hr
    split_ifs at hr with hc
    · cases hb : HeapUtils.less m h x (x / 2) with
      | error e => rw [hb] at hr; cases hr
      | ok b =>
        rw [hb] at hr
        simp only [bind, Except.bind] at hr
        cases b with
        | false => simp only [Bool.false_eq_true, if_false] at hr; cases hr; exact ⟨ht, rfl, rfl, rfl⟩
        | true =>
          simp only [if_true] at hr
          cases hsw : HeapUtils.swap_nodes m h x (x / 2) with
          | error e => rw [hsw] at hr; cases hr
          | ok r =>
            obtain ⟨m2, h2⟩ := r
            rw [hsw] at hr
            simp only at hr
            obtain ⟨t2, s2, l2, n2⟩ := swap_nodes_tracked m h _ _ m2 h2 hsw ht
            obtain ⟨t3, s3, l3, n3⟩ := ih m2 h2 _ m1 h1 hr t2
            exact ⟨t3, s3.trans s2, l3.trans l2, n3.trans n2⟩
    · cases hr; exact ⟨ht, rfl, rfl, rfl⟩

/-- Shrinking or keeping the live range keeps the bookkeeping invariant. -/
theorem tracked_shrink (m : Mem) (h : HeapUtils) (n : Int) (hn : n ≤ h.sz)
    (ht : HeapUtils.tracked m h) : HeapUtils.tracked m { h with sz := n } :=
  ⟨fun i hi => ht.1 i (by simp only at hi; omega), ht.2.1, ht.2.2⟩

theorem insert_tracked (m : Mem) (h : HeapUtils) (x : Nat) (m1 : Mem) (h1 : HeapUtils)
    (hr : HeapUtils.insert m h x = .ok (m1, h1)) (ht : HeapUtils.tracked m h)
    (hsz : -1 ≤ h.sz) (hx : x < m.length) (hfresh : ∀ i : Nat, h.heap_vector[i]? ≠ some (some x)) :
    HeapUtils.tracked m1 h1 ∧ -1 ≤ h1.sz ∧ h1.sz < h1.heap_vector.length ∧
      m1.length = m.length := by
  unfold HeapUtils.insert at hr
  cases hp : HeapUtils.put { h with sz := h.sz + 1 } (h.sz + 1) (some x) with
  | error e =>
    simp only [bind, Except.bind] at hr
    rw [hp] at hr
    cases hr
  | ok h2 =>
    simp only [bind, Except.bind] at hr
    rw [hp] at hr
    simp only at hr
    obtain ⟨hp0, hp1, hh2⟩ := put_inv _ _ _ _ hp
    simp only at hp1 hh2
    subst hh2
    obtain ⟨hlive, halloc, hinj⟩ := ht
    have hkl : (h.sz + 1).toNat < h.heap_vector.length := by omega
    have hvec : ∀ i : Nat, (h.heap_vector.set (h.sz + 1).toNat (some x))[i]?
        = if (h.sz + 1).toNat = i then some (some x) else h.heap_vector[i]? := by
      intro i
      simp only [List.getElem?_set, hkl, if_true]
    have ht2 : HeapUtils.tracked
        (m.set x { rd m x with index_in_heap_vector := h.sz + 1 })
        { heap_vector := h.heap_vector.set (h.sz + 1).toNat (some x), sz := h.sz + 1 } := by
      refine ⟨?_, ?_, ?_⟩
      · intro i hi
        simp only at hi
        by_cases hki : (h.sz + 1).toNat = i
        · refine ⟨x, by simp only; rw [hvec, if_pos hki], ?_⟩
          rw [rd_set, if_pos ⟨rfl, hx⟩]
          simp only
          omega
        · obtain ⟨p, hp, hidx⟩ := hlive i (by omega)
          refine ⟨p, by simp only; rw [hvec, if_neg hki]; exact hp, ?_⟩
          have hpx : ¬ (x = p ∧ x < m.length) := fun hh => hfresh i (hh.1 ▸ hp)
          rw [rd_set, if_neg hpx]
          exact hidx
      · intro i p hp
        simp only at hp
        rw [hvec] at hp
        simp only [List.length_set]
        by_cases hki : (h.sz + 1).toNat = i
        · rw [if_pos hki] at hp; cases hp; exact hx
        · rw [if_neg hki] at hp; exact halloc i p hp
      · intro i j p hi hj
        simp only at hi hj
        rw [hvec] at hi hj
        by_cases hki : (h.sz + 1).toNat = i
        · rw [if_pos hki] at hi
          cases hi
          by_cases hkj : (h.sz + 1).toNat = j
          · omega
          · rw [if_neg hkj] at hj; exact absurd hj (hfresh j)
        · rw [if_neg hki] at hi
          by_cases hkj : (h.sz + 1).toNat = j
          · rw [if_pos hkj] at hj; cases hj; exact absurd hi (hfresh i)
          · rw [if_neg hkj] at hj; exact hinj i j p hi hj
    obtain ⟨t3, s3, l3, n3⟩ := fix_heap_up_loop_tracked _ _ _ _ m1 h1 hr ht2
    simp only [List.length_set] at s3 l3 n3
    refine ⟨t3, by omega, by omega, n3⟩

theorem pop_min_tracked (m : Mem) (h : HeapUtils) (ret : Option Nat) (m1 : Mem) (h1 : HeapUtils)
    (hr : HeapUtils.pop_min m h = .ok (ret, m1, h1)) (ht : HeapUtils.tracked m h)
    (hsz : -1 ≤ h.sz) (hlen : h.sz < h.heap_vector.length) :
    HeapUtils.tracked m1 h1 ∧ -1 ≤ h1.sz ∧ h1.sz < h1.heap_vector.length ∧
      m1.length = m.length := by
  unfold HeapUtils.pop_min at hr
  split_ifs at hr with hc
  · cases hr; exact ⟨ht, hsz, hlen, rfl⟩
  · cases hg : h.get 0 with
    | error e => rw [hg] at hr; cases hr
    | ok v =>
      rw [hg] at hr
      simp only [bind, Except.bind] at hr
      cases hsw : HeapUtils.swap_nodes m h 0 h.sz with
      | error e => rw [hsw] at hr; cases hr
      | ok r =>
        obtain ⟨m2, h2⟩ := r
        rw [hsw] at hr
        simp only at hr
        obtain ⟨t2, s2, l2, n2⟩ := swap_nodes_tracked m h _ _ m2 h2 hsw ht
        cases hp : h2.put h2.sz none with
        | error e => rw [hp] at hr; cases hr
        | ok h3 =>
          rw [hp] at hr
          simp only at hr
          obtain ⟨hp0, hp1, hh3⟩ := put_inv _ _ _ _ hp
          subst hh3
          simp only at hr
          have ht3 : HeapUtils.tracked m2
              { heap_vector := h2.heap_vector.set h2.sz.toNat none, sz := h2.sz - 1 } := by
            obtain ⟨hlive, halloc, hinj⟩ := t2
            have hkl : h2.sz.toNat < h2.heap_vector.length := by omega
            have hvec : ∀ i : Nat, (h2.heap_vector.set h2.sz.toNat none)[i]?
                = if h2.sz.toNat = i then some none else h2.heap_vector[i]? := by
              intro i
              simp only [List.getElem?_set, hkl, if_true]
            refine ⟨?_, ?_, ?_⟩
            · intro i hi
              simp only at hi
              obtain ⟨p, hp, hidx⟩ := hlive i (by omega)
              exact ⟨p, by simp only; rw [hvec, if_neg (by omega)]; exact hp, hidx⟩
            · intro i p hp
              simp only at hp
              rw [hvec] at hp
              by_cases hki : h2.sz.toNat = i
              · rw [if_pos hki] at hp; cases hp
              · rw [if_neg hki] at hp; exact halloc i p hp
            · intro i j p hi hj
              simp only at hi hj
              rw [hvec] at hi hj
              by_cases hki : h2.sz.toNat = i
              · rw [if_pos hki] at hi; cases hi
              · rw [if_neg hki] at hi
                by_cases hkj : h2.sz.toNat = j
                · rw [if_pos hkj] at hj; cases hj
                · rw [if_neg hkj] at hj; exact hinj i j p hi hj
          cases hf : HeapUtils.fix_heap_down m2
              { heap_vector := h2.heap_vector.set h2.sz.toNat none, sz := h2.sz - 1 } 0 with
          | error e => rw [hf] at hr; cases hr
          | ok r2 =>
            obtain ⟨m4, h4⟩ := r2
            rw [hf] at hr
            simp only [pure, Except.pure, Except.ok.injEq, Prod.mk.injEq] at hr
            obtain ⟨_, hm, hh⟩ := hr
            subst hm hh
            obtain ⟨t4, s4, l4, n4⟩ := fix_heap_down_loop_tracked _ _ _ _ m4 h4 hf ht3
            simp only [List.length_set] at s4 l4
            exact ⟨t4, by omega, by omega, n4.trans n2⟩

theorem delete_by_index_tracked (m : Mem) (h : HeapUtils) (ex : Int) (m1 : Mem) (h1 : HeapUtils)
    (hr : HeapUtils.delete_by_index m h ex = .ok (m1, h1)) (ht : HeapUtils.tracked m h)
    (hlen : h.sz < h.heap_vector.length) :
    HeapUtils.tracked m1 h1 ∧ -1 ≤ h1.sz ∧ h1.sz < h1.heap_vector.length ∧
      m1.length = m.length := by
  unfold HeapUtils.delete_by_index at hr
  simp only [bind, Except.bind] at hr
  cases hsw : HeapUtils.swap_nodes m { h with sz := h.sz - 1 } ex (h.sz - 1) with
  | error e => rw [hsw] at hr; cases hr
  | ok r =>
    obtain ⟨m2, h2⟩ := r
    rw [hsw] at hr
    simp only at hr
    obtain ⟨_, _, _, _, hb0, _, _, _, _⟩ := swap_nodes_inv _ _ _ _ _ hsw
    obtain ⟨t2, s2, l2, n2⟩ := swap_nodes_tracked m _ _ _ m2 h2 hsw
      (tracked_shrink m h (h.sz - 1) (by omega) ht)
    obtain ⟨t3, s3, l3, n3⟩ := fix_heap_down_loop_tracked _ _ _ _ m1 h1 hr t2
    simp only at s2 l2
    exact ⟨t3, by omega, by omega, n3.trans n2⟩

theorem tracked_append (m : Mem) (h : HeapUtils) (v : Node) (ht : HeapUtils.tracked m h) :
    HeapUtils.tracked (m ++ [v]) h := by
  obtain ⟨hlive, halloc, hinj⟩ := ht
  refine ⟨?_, ?_, hinj⟩
  · intro i hi
    obtain ⟨p, hp, hidx⟩ := hlive i hi
    exact ⟨p, hp, by rw [rd_append_of_lt m v p (halloc i p hp)]; exact hidx⟩
  · intro i p hp
    have := halloc i p hp
    simp only [List.length_append, List.length_singleton]
    omega

theorem tracked_set_payload (m : Mem) (h : HeapUtils) (ht : HeapUtils.tracked m h) (p : Nat)
    (cost duration : Int) :
    HeapUtils.tracked
      (m.set p { rd m p with ride_cost := cost, trip_duration := duration }) h := by
  obtain ⟨hlive, halloc, hinj⟩ := ht
  refine ⟨?_, ?_, hinj⟩
  · intro i hi
    obtain ⟨q, hq, hidx⟩ := hlive i hi
    refine ⟨q, hq, ?_⟩
    rw [rd_set]
    split_ifs with hh
    · rw [← hh.1] at hidx; exact hidx
    · exact hidx
  · intro i q hq
    simp only [List.length_set]
    exact halloc i q hq

theorem heap_inv_init (failure : Bool) : HeapRBT.heap_inv (HeapRBT.init failure) := by
  have hnone : ∀ (i p : Nat), (List.replicate 2002 (none : Option Nat))[i]? ≠ some (some p) := by
    intro i p hh
    have hmem : some p ∈ List.replicate 2002 (none : Option Nat) :=
      List.mem_iff_getElem?.mpr ⟨i, hh⟩
    have := List.eq_of_mem_replicate hmem
    cases this
  have hsz : (HeapRBT.init failure).sz = -1 := rfl
  refine ⟨⟨?_, ?_, ?_⟩, ?_, ?_⟩
  · intro i hi
    rw [hsz] at hi
    omega
  · intro i p hp
    exact absurd hp (hnone i p)
  · intro i j p hp
    exact absurd hp (hnone i p)
  · rw [hsz]
  · rw [hsz]
    show (-1 : Int) < ((List.replicate 2002 (none : Option Nat)).length : Int)
    rw [List.length_replicate]
    omega

theorem insert_heap_inv (s s1 : HeapRBT) (a b c : Int) (fl : Bool)
    (hr : HeapRBT.insert s a b c = .ok (s1, fl)) (hi : HeapRBT.heap_inv s) :
    HeapRBT.heap_inv s1 := by
  obtain ⟨ht, h0, h1⟩ := hi
  unfold HeapRBT.insert at hr
  simp only [alloc] at hr
  split_ifs at hr with hc
  · simp only [pure, Except.pure, Except.ok.injEq, Prod.mk.injEq] at hr
    obtain ⟨hs, _⟩ := hr
    subst hs
    exact ⟨tracked_append _ _ _ ht, h0, h1⟩
  · cases hins : HeapUtils.insert (s.nodes ++ [⟨a, b, c, 0⟩]) s.toHeapUtils s.nodes.length with
    | error e =>
      simp only [bind, Except.bind] at hr
      rw [hins] at hr
      cases hr
    | ok r =>
      obtain ⟨m1, h2⟩ := r
      simp only [bind, Except.bind] at hr
      rw [hins] at hr
      simp only [pure, Except.pure, Except.ok.injEq, Prod.mk.injEq] at hr
      obtain ⟨hs, _⟩ := hr
      subst hs
      obtain ⟨t, s0, s1', _⟩ := insert_tracked _ _ _ m1 h2 hins (tracked_append _ _ _ ht) h0
        (by simp) (fun i hh => by have := ht.2.1 i _ hh; omega)
      exact ⟨t, s0, s1'⟩

theorem get_next_ride_heap_inv (s s1 : HeapRBT) (o : Option (Int × Int × Int))
    (hr : HeapRBT.get_next_ride s = .ok (s1, o)) (hi : HeapRBT.heap_inv s) :
    HeapRBT.heap_inv s1 := by
  obtain ⟨ht, h0, h1⟩ := hi
  unfold HeapRBT.get_next_ride at hr
  simp only [bind, Except.bind] at hr
  cases hp : HeapUtils.pop_min s.nodes s.toHeapUtils with
  | error e => rw [hp] at hr; cases hr
  | ok r =>
    obtain ⟨ride, m, h⟩ := r
    rw [hp] at hr
    simp only at hr
    obtain ⟨t, s0, s1', _⟩ := pop_min_tracked _ _ _ m h hp ht h0 h1
    cases ride with
    | none =>
      simp only [pure, Except.pure, Except.ok.injEq, Prod.mk.injEq] at hr
      obtain ⟨hs, _⟩ := hr
      subst hs
      exact ⟨t, s0, s1'⟩
    | some p =>
      simp only at hr
      cases hd : RBTUtils.delete_by_id m s.toRBTUtils (rd m p).ride_number with
      | error e => rw [hd] at hr; cases hr
      | ok t1 =>
        rw [hd] at hr
        simp only [pure, Except.pure, Except.ok.injEq, Prod.mk.injEq] at hr
        obtain ⟨hs, _⟩ := hr
        subst hs
        exact ⟨t, s0, s1'⟩

theorem delete_path_heap_inv (s s1 : HeapRBT) (ex id : Int)
    (hr : (do
      let (m, h) ← HeapUtils.delete_by_index s.nodes s.toHeapUtils ex
      let t ← RBTUtils.delete_by_id m s.toRBTUtils id
      pure ({ toHeapUtils := h, toRBTUtils := t, nodes := m } : HeapRBT)) = .ok s1)
    (hi : HeapRBT.heap_inv s) : HeapRBT.heap_inv s1 := by
  obtain ⟨ht, h0, h1⟩ := hi
  simp only [bind, Except.bind] at hr
  cases hp : HeapUtils.delete_by_index s.nodes s.toHeapUtils ex with
  | error e => rw [hp] at hr; cases hr
  | ok r =>
    obtain ⟨m, h⟩ := r
    rw [hp] at hr
    simp only at hr
    obtain ⟨t, s0, s1', _⟩ := delete_by_index_tracked _ _ _ m h hp ht h1
    cases hd : RBTUtils.delete_by_id m s.toRBTUtils id with
    | error e => rw [hd] at hr; cases hr
    | ok t1 =>
      rw [hd] at hr
      simp only [pure, Except.pure, Except.ok.injEq] at hr
      subst hr
      exact ⟨t, s0, s1'⟩

theorem cancel_ride_heap_inv (s s1 : HeapRBT) (id : Int)
    (hr : HeapRBT.cancel_ride s id = .ok s1) (hi : HeapRBT.heap_inv s) :
    HeapRBT.heap_inv s1 := by
  unfold HeapRBT.cancel_ride at hr
  cases hg : RBTUtils.get_node s.nodes s.toRBTUtils id with
  | none => rw [hg] at hr; cases hr; exact hi
  | some ride =>
    rw [hg] at hr
    exact delete_path_heap_inv s s1 _ id hr hi

theorem update_trip_heap_inv (s s1 : HeapRBT) (id nd : Int)
    (hr : HeapRBT.update_trip s id nd = .ok s1) (hi : HeapRBT.heap_inv s) :
    HeapRBT.heap_inv s1 := by
  unfold HeapRBT.update_trip at hr
  cases hg : RBTUtils.get_node s.nodes s.toRBTUtils id with
  | none => rw [hg] at hr; cases hr; exact hi
  | some ride =>
    rw [hg] at hr
    simp only at hr
    split_ifs at hr with hc1 hc2
    · exact delete_path_heap_inv s s1 _ id hr hi
    · obtain ⟨ht, h0, h1⟩ := hi
      simp only [bind, Except.bind, HeapUtils.update_by_index] at hr
      have ht2 := tracked_set_payload s.nodes s.toHeapUtils ht ride
        (wrap32 ((rd s.nodes ride).ride_cost + 10)) nd
      cases hf : HeapUtils.fix_heap_down
          (s.nodes.set ride { rd s.nodes ride with
            ride_cost := wrap32 ((rd s.nodes ride).ride_cost + 10), trip_duration := nd })
          s.toHeapUtils
          (rd (s.nodes.set ride { rd s.nodes ride with
            ride_cost := wrap32 ((rd s.nodes ride).ride_cost + 10), trip_duration := nd })
            ride).index_in_heap_vector with
      | error e => rw [hf] at hr; cases hr
      | ok r =>
        obtain ⟨m, h⟩ := r
        rw [hf] at hr
        simp only [pure, Except.pure, Except.ok.injEq] at hr
        subst hr
        obtain ⟨t, s0, l0, _⟩ := fix_heap_down_loop_tracked _ _ _ _ m h hf ht2
        exact ⟨t, by simp only; omega, by simp only; omega⟩
    · cases hr; exact hi

theorem step_heap_inv (s s1 : HeapRBT) (c : Command) (o : Option Line) (go : Bool)
    (hr : step s c = .ok (s1, o, go)) (hi : HeapRBT.heap_inv s) : HeapRBT.heap_inv s1 := by
  cases c with
  | Insert a b c =>
    simp only [step, bind, Except.bind] at hr
    cases hins : HeapRBT.insert s a b c with
    | error e => rw [hins] at hr; cases hr
    | ok r =>
      obtain ⟨s2, fl⟩ := r
      rw [hins] at hr
      simp only at hr
      have := insert_heap_inv s s2 a b c fl hins hi
      split_ifs at hr <;> · cases hr; exact this
  | Print a =>
    simp only [step] at hr
    split at hr <;> · cases hr; exact hi
  | PrintRange a b =>
    simp only [step] at hr
    split at hr <;> · cases hr; exact hi
  | GetNextRide =>
    simp only [step, bind, Except.bind] at hr
    cases hg : HeapRBT.get_next_ride s with
    | error e => rw [hg] at hr; cases hr
    | ok r =>
      obtain ⟨s2, o2⟩ := r
      rw [hg] at hr
      simp only at hr
      have := get_next_ride_heap_inv s s2 o2 hg hi
      split at hr <;> · cases hr; exact this
  | CancelRide a =>
    simp only [step, bind, Except.bind] at hr
    cases hg : HeapRBT.cancel_ride s a with
    | error e => rw [hg] at hr; cases hr
    | ok s2 =>
      rw [hg] at hr
      cases hr
      exact cancel_ride_heap_inv s _ a hg hi
  | UpdateTrip a b =>
    simp only [step, bind, Except.bind] at hr
    cases hg : HeapRBT.update_trip s a b with
    | error e => rw [hg] at hr; cases hr
    | ok s2 =>
      rw [hg] at hr
      cases hr
      exact update_trip_heap_inv s _ a b hg hi

theorem run_heap_inv (cs : List Command) : ∀ (s s1 : HeapRBT),
    (run cs s).2 = .ok s1 → HeapRBT.heap_inv s → HeapRBT.heap_inv s1 := by
  induction cs with
  | nil => intro s s1 hr hi; simp only [run] at hr; cases hr; exact hi
  | cons c cs ih =>
    intro s s1 hr hi
    simp only [run] at hr
    cases hst : step s c with
    | error e => rw [hst] at hr; cases hr
    | ok r =>
      obtain ⟨s2, o, go⟩ := r
      rw [hst] at hr
      simp only at hr
      have h2 := step_heap_inv s s2 c o go hst hi
      cases go with
      | true => simp only [if_true] at hr; exact ih s2 s1 hr h2
      | false => simp only [Bool.false_eq_true, if_false] at hr; cases hr; exact h2

/-- C14: in every state in which a run of the command loop from the empty scheduler
ends (any sequence of Insert, CancelRide, UpdateTrip, GetNextRide and Print commands
that does not fault, for either value `failure` of the uninitialised member at
start-up), every live slot `i` of the backing array lies inside the array and holds
an allocated node whose `index_in_heap_vector` is `i`.  The faults are null
dereferences and indices outside the array only: by `run_ne_fuel` no run stops on a
fuel bound of the model. -/
theorem C14_heap_position_is_slot (cs : List Command) (failure : Bool) (s : HeapRBT)
    (hr : (run cs (HeapRBT.init failure)).2 = .ok s) :
    HeapUtils.linked s.nodes s.toHeapUtils := by
  obtain ⟨⟨hlive, halloc, _⟩, h0, h1⟩ :=
    run_heap_inv cs (HeapRBT.init failure) s hr (heap_inv_init failure)
  refine ⟨h0, h1, ?_⟩
  intro i hi
  obtain ⟨p, hp, hidx⟩ := hlive i hi
  exact ⟨p, halloc i p hp, (getD_eq_some_iff _ _ _).mpr hp, hidx⟩

/-- A run with `failure` clear at start-up that ends without a fault ends in
`state_after`. -/
theorem run_finished (cs : List Command)
    (hf : finished (run cs (HeapRBT.init false)).2 = true) :
    (run cs (HeapRBT.init false)).2 = .ok (state_after cs) := by
  unfold state_after
  generalize (run cs (HeapRBT.init false)).2 = r at hf
  cases r with
  | error e => simp [finished] at hf
  | ok s => rfl

/-- Witness of `C14_heap_position_is_slot`: a run with inserts, an extension, a
dispatch and a cancellation. -/
theorem C14_heap_position_is_slot_witness :
    finished (run [.Insert 1 10 10, .Insert 2 20 20, .Insert 3 30 30, .UpdateTrip 2 25,
        .GetNextRide, .CancelRide 3] (HeapRBT.init false)).2 = true ∧
    HeapUtils.linked
      (state_after [.Insert 1 10 10, .Insert 2 20 20, .Insert 3 30 30, .UpdateTrip 2 25,
        .GetNextRide, .CancelRide 3]).nodes
      (state_after [.Insert 1 10 10, .Insert 2 20 20, .Insert 3 30 30, .UpdateTrip 2 25,
        .GetNextRide, .CancelRide 3]).toHeapUtils :=
  ⟨by decide!, C14_heap_position_is_slot
    [.Insert 1 10 10, .Insert 2 20 20, .Insert 3 30 30, .UpdateTrip 2 25, .GetNextRide,
      .CancelRide 3] false
    (state_after [.Insert 1 10 10, .Insert 2 20 20, .Insert 3 30 30, .UpdateTrip 2 25,
      .GetNextRide, .CancelRide 3]) (run_finished _ (by decide!))⟩

/-! ## The priority index: heap order under sift-down -/

theorem less_iff_klt (a b : Node) :
    a.less b = true ↔ klt (a.ride_cost, a.trip_duration) (b.ride_cost, b.trip_duration) := by
  unfold Node.less klt
  by_cases hc : a.ride_cost = b.ride_cost
  · simp [hc]
  · simp only [if_neg hc, decide_eq_true_eq]
    constructor
    · intro h; exact Or.inl h
    · rintro (h | ⟨h, _⟩)
      · exact h
      · exact absurd h hc

theorem slot_key_of (m : Mem) (h : HeapUtils) (i a : Nat)
    (ha : h.heap_vector.getD i none = some a) :
    h.slot_key m i = ((rd m a).ride_cost, (rd m a).trip_duration) := by
  unfold HeapUtils.slot_key
  rw [ha]

/-- In a linked heap the heap property says that no live slot has a smaller key than
its parent slot. -/
theorem heap_property_iff (m : Mem) (h : HeapUtils) (hl : HeapUtils.linked m h) :
    HeapUtils.heap_property m h ↔
      ∀ i < (h.sz + 1).toNat, 0 < i → ¬ klt (h.slot_key m i) (h.slot_key m ((i - 1) / 2)) := by
  unfold HeapUtils.heap_property
  constructor
  · intro hp i hi h0
    obtain ⟨a, _, ha, _⟩ := hl.2.2 i hi
    obtain ⟨b, _, hb, _⟩ := hl.2.2 ((i - 1) / 2) (by omega)
    have := hp i hi h0
    unfold HeapUtils.parent_ok at this
    rw [ha, hb] at this
    simp only [Bool.not_eq_true', ] at this
    rw [slot_key_of m h i a ha, slot_key_of m h _ b hb, ← less_iff_klt]
    simp [this]
  · intro hp i hi h0
    obtain ⟨a, _, ha, _⟩ := hl.2.2 i hi
    obtain ⟨b, _, hb, _⟩ := hl.2.2 ((i - 1) / 2) (by omega)
    have := hp i hi h0
    rw [slot_key_of m h i a ha, slot_key_of m h _ b hb, ← less_iff_klt] at this
    unfold HeapUtils.parent_ok
    rw [ha, hb]
    simpa using this

theorem less_slot (m : Mem) (h : HeapUtils) (hl : HeapUtils.linked m h) (a b : Int)
    (ha0 : 0 ≤ a) (ha1 : a ≤ h.sz) (hb0 : 0 ≤ b) (hb1 : b ≤ h.sz) :
    ∃ v, HeapUtils.less m h a b = .ok v ∧
      (v = true ↔ klt (h.slot_key m a.toNat) (h.slot_key m b.toNat)) := by
  obtain ⟨pa, hpa, hal⟩ := linked_slot m h hl a ha0 ha1
  obtain ⟨pb, hpb, hbl⟩ := linked_slot m h hl b hb0 hb1
  refine ⟨_, less_ok m h a b pa pb ha0 hal hb0 hbl hpa hpb, ?_⟩
  rw [slot_key_of m h _ pa hpa, slot_key_of m h _ pb hpb, less_iff_klt]

/-- After `swap_nodes` on two distinct live slots the keys of the two slots are
exchanged and all other slots keep theirs. -/
theorem swap_nodes_keys (m : Mem) (h : HeapUtils) (hl : HeapUtils.linked m h) (a b : Int)
    (ha0 : 0 ≤ a) (ha1 : a ≤ h.sz) (hb0 : 0 ≤ b) (hb1 : b ≤ h.sz) (hab : a ≠ b)
    (m1 : Mem) (h1 : HeapUtils) (hs : HeapUtils.swap_nodes m h a b = .ok (m1, h1)) :
    h1.slot_key m1 a.toNat = h.slot_key m b.toNat ∧
    h1.slot_key m1 b.toNat = h.slot_key m a.toNat ∧
    ∀ i, i ≠ a.toNat → i ≠ b.toNat → h1.slot_key m1 i = h.slot_key m i := by
  obtain ⟨_, hsz1, hall⟩ := hl
  have hat : a.toNat < (h.sz + 1).toNat := by omega
  have hbt : b.toNat < (h.sz + 1).toNat := by omega
  have hne : a.toNat ≠ b.toNat := by omega
  have hal : a.toNat < h.heap_vector.length := by omega
  have hbl : b.toNat < h.heap_vector.length := by omega
  obtain ⟨pa, hpal, hpa, hia⟩ := hall _ hat
  obtain ⟨pb, hpbl, hpb, hib⟩ := hall _ hbt
  have hpne : pb ≠ pa := by
    intro he
    rw [he, hia] at hib
    omega
  have heq := swap_nodes_eq m h a b pa pb ha0 (by omega) hb0 (by omega) hab hpa hpb
  rw [heq] at hs
  cases hs
  have hpay := (swap_index_payload m pb pa hpne hpbl hpal).2
  have hk : ∀ q, ((rd (swap_index m pb pa) q).ride_cost, (rd (swap_index m pb pa) q).trip_duration)
      = ((rd m q).ride_cost, (rd m q).trip_duration) := by
    intro q
    have := hpay q
    unfold HeapRBT.print_node at this
    exact congrArg Prod.snd this
  refine ⟨?_, ?_, ?_⟩
  · rw [slot_key_of _ _ _ pb (by simp only [getD_set, List.length_set]; simp [hne.symm, hal]),
      slot_key_of m h _ pb hpb, hk]
  · rw [slot_key_of _ _ _ pa (by simp only [getD_set, List.length_set]; simp [hbl]),
      slot_key_of m h _ pa hpa, hk]
  · intro i h1 h2
    unfold HeapUtils.slot_key
    simp only [getD_set, List.length_set]
    rw [if_neg (fun hh => h2 hh.1.symm), if_neg (fun hh => h1 hh.1.symm)]
    cases h.heap_vector.getD i none with
    | none => rfl
    | some q => simp only; exact hk q

theorem klt_irrefl (a : Int × Int) : ¬ klt a a := by
  unfold klt; omega

theorem klt_asymm (a b : Int × Int) (h : klt a b) : ¬ klt b a := by
  unfold klt at *; omega

theorem not_klt_trans (a b c : Int × Int) (h1 : ¬ klt a b) (h2 : ¬ klt b c) : ¬ klt a c := by
  unfold klt at *; omega

theorem not_klt_of_klt (x y i : Int × Int) (h1 : klt x y) (h2 : ¬ klt i y) : ¬ klt i x := by
  unfold klt at *; omega

/-- The sift-down loop started at a slot whose node may be too large restores the
heap property (stated on keys) and keeps the heap linked. -/
theorem fix_heap_down_loop_heap (fuel : Nat) : ∀ (m : Mem) (h : HeapUtils) (X : Nat)
    (m1 : Mem) (h1 : HeapUtils), HeapUtils.linked m h →
    HeapUtils.fix_heap_down_loop fuel m h (X : Int) = .ok (m1, h1) →
    HeapUtils.heap_except m h X →
    HeapUtils.linked m1 h1 ∧ h1.sz = h.sz ∧
      ∀ i < (h1.sz + 1).toNat, 0 < i → ¬ klt (h1.slot_key m1 i) (h1.slot_key m1 ((i - 1) / 2)) := by
  induction fuel with
  | zero => intro m h X m1 h1 _ hr; simp [HeapUtils.fix_heap_down_loop] at hr
  | succ fuel ih =>
    intro m h X m1 h1 hl hr hex
    unfold HeapUtils.fix_heap_down_loop at hr
    by_cases hc : 2 * (X : Int) + 1 ≤ h.sz
    · rw [if_pos hc] at hr
      dsimp only at hr
      -- the smaller child
      have hmin : ∃ c : Bool, (if 2 * (X : Int) + 1 < h.sz
            then HeapUtils.less m h (2 * (X : Int) + 1 + 1) (2 * (X : Int) + 1)
            else (pure false : Res Bool)) = .ok c ∧
          (c = true → 2 * (X : Int) + 1 < h.sz ∧
            klt (h.slot_key m (2 * X + 2)) (h.slot_key m (2 * X + 1))) ∧
          (c = false → 2 * (X : Int) + 1 < h.sz →
            ¬ klt (h.slot_key m (2 * X + 2)) (h.slot_key m (2 * X + 1))) := by
        by_cases hlt : 2 * (X : Int) + 1 < h.sz
        · obtain ⟨v, hv, hiff⟩ := less_slot m h hl (2 * (X : Int) + 1 + 1) (2 * (X : Int) + 1)
            (by omega) (by omega) (by omega) (by omega)
          have e1 : (2 * (X : Int) + 1 + 1).toNat = 2 * X + 2 := by omega
          have e2 : (2 * (X : Int) + 1).toNat = 2 * X + 1 := by omega
          rw [e1, e2] at hiff
          refine ⟨v, by rw [if_pos hlt]; exact hv, fun hv1 => ⟨hlt, hiff.mp hv1⟩, ?_⟩
          intro hv0 _ hk
          rw [hiff.mpr hk] at hv0
          cases hv0
        · refine ⟨false, by rw [if_neg hlt]; rfl, ?_, fun _ hh => absurd hh hlt⟩
          intro hh
          cases hh
      obtain ⟨c, hceq, hct, hcf⟩ := hmin
      rw [hceq] at hr
      simp only [bind, Except.bind] at hr
      -- the slot `Y` of the smaller child
      obtain ⟨Y, hY, hYc⟩ : ∃ Y : Nat, (if c = true then 2 * (X : Int) + 1 + 1
          else 2 * (X : Int) + 1) = (Y : Int) ∧ (Y = if c = true then 2 * X + 2 else 2 * X + 1) := by
        cases c with
        | true => exact ⟨2 * X + 2, by simp only [if_true]; omega, by simp⟩
        | false => exact ⟨2 * X + 1, by simp only [Bool.false_eq_true, if_false]; omega, by simp⟩
      rw [hY] at hr
      have hYle : (Y : Int) ≤ h.sz := by
        cases c with
        | true => have := (hct rfl).1; simp only [if_true] at hYc; omega
        | false => simp only [Bool.false_eq_true, if_false] at hYc; omega
      have hYX : Y = 2 * X + 1 ∨ Y = 2 * X + 2 := by
        cases c with
        | true => right; simpa using hYc
        | false => left; simpa using hYc
      have hch1 : ¬ klt (h.slot_key m (2 * X + 1)) (h.slot_key m Y) := by
        cases c with
        | true =>
          simp only [if_true] at hYc
          rw [hYc]
          exact klt_asymm _ _ (hct rfl).2
        | false =>
          simp only [Bool.false_eq_true, if_false] at hYc
          rw [hYc]
          exact klt_irrefl _
      have hch2 : (2 * X + 2 < (h.sz + 1).toNat) →
          ¬ klt (h.slot_key m (2 * X + 2)) (h.slot_key m Y) := by
        intro hlive
        cases c with
        | true =>
          simp only [if_true] at hYc
          rw [hYc]
          exact klt_irrefl _
        | false =>
          simp only [Bool.false_eq_true, if_false] at hYc
          rw [hYc]
          exact hcf rfl (by omega)
      obtain ⟨b, hb, hbiff⟩ := less_slot m h hl (X : Int) (Y : Int) (by omega) (by omega)
        (by omega) hYle
      simp only [Int.toNat_ofNat] at hbiff
      rw [hb] at hr
      simp only at hr
      cases b with
      | true =>
        simp only [if_true] at hr
        cases hr
        have hxy := hbiff.mp rfl
        refine ⟨hl, rfl, ?_⟩
        intro i hi h0
        by_cases hP : (i - 1) / 2 = X
        · rw [hP]
          have hi2 : i = 2 * X + 1 ∨ i = 2 * X + 2 := by omega
          rcases hi2 with rfl | rfl
          · exact not_klt_of_klt _ _ _ hxy hch1
          · exact not_klt_of_klt _ _ _ hxy (hch2 hi)
        · exact (hex i hi h0).1 hP
      | false =>
        simp only [Bool.false_eq_true, if_false] at hr
        have hnxy : ¬ klt (h.slot_key m X) (h.slot_key m Y) := by
          intro hh
          have := hbiff.mpr hh
          cases this
        obtain ⟨m2, h2, hsw, hl2, hs2, _, _⟩ :=
          swap_nodes_spec m h hl (X : Int) (Y : Int) (by omega) (by omega) (by omega) hYle
            (by omega)
        obtain ⟨kx, ky, ko⟩ := swap_nodes_keys m h hl (X : Int) (Y : Int) (by omega) (by omega)
          (by omega) hYle (by omega) m2 h2 hsw
        simp only [Int.toNat_ofNat] at kx ky ko
        rw [hsw] at hr
        simp only at hr
        have hex2 : HeapUtils.heap_except m2 h2 Y := by
          intro i hi h0
          rw [hs2] at hi
          constructor
          · intro hP
            by_cases hiY : i = Y
            · have hPX : (i - 1) / 2 = X := by omega
              rw [hPX, hiY, kx, ky]
              exact hnxy
            · by_cases hiX : i = X
              · have hX0 : 0 < X := by omega
                have hPne : (i - 1) / 2 ≠ X := by omega
                rw [ko _ (by omega) hP, hiX, kx]
                have := (hex Y (by omega) (by omega)).2 (by omega) hX0
                rw [← hiX] at this ⊢
                exact this
              · by_cases hPX : (i - 1) / 2 = X
                · rw [hPX, kx, ko i hiX hiY]
                  have hi2 : i = 2 * X + 1 ∨ i = 2 * X + 2 := by omega
                  rcases hi2 with rfl | rfl
                  · exact hch1
                  · exact hch2 hi
                · rw [ko i hiX hiY, ko _ hPX hP]
                  exact (hex i hi h0).1 hPX
          · intro hP hY0
            have hPX : (Y - 1) / 2 = X := by omega
            rw [hPX, kx, ko i (by omega) (by omega)]
            have := (hex i hi h0).1 (by omega)
            rw [hP] at this
            exact this
        obtain ⟨r1, r2, r3⟩ := ih m2 h2 Y m1 h1 hl2 hr hex2
        exact ⟨r1, r2.trans hs2, r3⟩
    · rw [if_neg hc] at hr
      cases hr
      refine ⟨hl, rfl, ?_⟩
      intro i hi h0
      exact (hex i hi h0).1 (by omega)

/-- In a linked heap a node sits in at most one live slot. -/
theorem linked_inj (m : Mem) (h : HeapUtils) (hl : HeapUtils.linked m h) (i j q : Nat)
    (hi : i < (h.sz + 1).toNat) (hj : j < (h.sz + 1).toNat)
    (hqi : h.heap_vector.getD i none = some q) (hqj : h.heap_vector.getD j none = some q) :
    i = j := by
  have h1 := (linked_slot_unique m h hl i q hi hqi).2
  have h2 := (linked_slot_unique m h hl j q hj hqj).2
  omega

/-- C18: in a linked heap with the heap property, let the node `q` in the live slot
`p` get a (cost, duration) that is not `less` than its previous one; then
`update_by_index(p)` ends without a fault, the heap property holds again, the heap is
linked (every node's `index_in_heap_vector` is its slot), the live slots hold the
same set of nodes and no payload is changed by the repair. -/
theorem C18_update_restores_heap (m : Mem) (h : HeapUtils) (p q : Nat) (cost duration : Int)
    (hl : HeapUtils.linked m h) (hp : HeapUtils.heap_property m h)
    (hlive : p < (h.sz + 1).toNat) (hq : h.heap_vector.getD p none = some q)
    (hinc : ({ rd m q with ride_cost := cost, trip_duration := duration } : Node).less (rd m q)
      = false) :
    ∃ m1 h1,
      HeapUtils.update_by_index
        (m.set q { rd m q with ride_cost := cost, trip_duration := duration }) h p = .ok (m1, h1) ∧
      HeapUtils.heap_property m1 h1 ∧ HeapUtils.linked m1 h1 ∧ h1.sz = h.sz ∧
      (∀ o, o ∈ h1.live ↔ o ∈ h.live) ∧
      same_payload (m.set q { rd m q with ride_cost := cost, trip_duration := duration }) m1 := by
  have hl1 := linked_set_payload m h hl q cost duration
  obtain ⟨m1, h1, hfix, hl2, hs2, hpay, hlv⟩ := fix_heap_down_spec _ h (p : Int) hl1 (by omega)
  have hql := (linked_slot_unique m h hl p q hlive hq).1
  -- keys before and after the overwrite
  have hkp : h.slot_key (m.set q { rd m q with ride_cost := cost, trip_duration := duration }) p
      = (cost, duration) := by
    rw [slot_key_of _ h p q hq, rd_set, if_pos ⟨rfl, hql⟩]
  have hko : ∀ i < (h.sz + 1).toNat, i ≠ p →
      h.slot_key (m.set q { rd m q with ride_cost := cost, trip_duration := duration }) i
        = h.slot_key m i := by
    intro i hi hne
    obtain ⟨a, _, ha, _⟩ := hl.2.2 i hi
    have haq : ¬ (q = a ∧ q < m.length) := by
      rintro ⟨rfl, _⟩
      exact hne (linked_inj m h hl i p q hi hlive ha hq)
    rw [slot_key_of _ h i a ha, slot_key_of m h i a ha, rd_set, if_neg haq]
  have hnew : ¬ klt (cost, duration) (h.slot_key m p) := by
    rw [slot_key_of m h p q hq]
    intro hk
    have := (less_iff_klt { rd m q with ride_cost := cost, trip_duration := duration }
      (rd m q)).mpr hk
    rw [hinc] at this
    cases this
  have hheap := (heap_property_iff m h hl).mp hp
  have hex : HeapUtils.heap_except
      (m.set q { rd m q with ride_cost := cost, trip_duration := duration }) h p := by
    intro i hi h0
    constructor
    · intro hP
      rw [hko _ (by omega) hP]
      by_cases hip : i = p
      · rw [hip, hkp]
        have := hheap p hlive (by omega)
        rw [hip] at hP
        exact not_klt_trans _ _ _ hnew this
      · rw [hko i hi hip]
        exact hheap i hi h0
    · intro hP hp0
      rw [hko i hi (by omega), hko _ (by omega) (by omega)]
      have h1' := hheap i hi h0
      rw [hP] at h1'
      exact not_klt_trans _ _ _ h1' (hheap p hlive hp0)
  obtain ⟨_, _, hres⟩ := fix_heap_down_loop_heap _ _ h p m1 h1 hl1 hfix hex
  exact ⟨m1, h1, hfix, (heap_property_iff m1 h1 hl2).mpr hres, hl2, hs2, hlv, hpay⟩

/-- In a heap no live slot has a smaller key than the root. -/
theorem root_is_min (m : Mem) (h : HeapUtils)
    (hheap : ∀ i < (h.sz + 1).toNat, 0 < i →
      ¬ klt (h.slot_key m i) (h.slot_key m ((i - 1) / 2))) :
    ∀ i, i < (h.sz + 1).toNat → ¬ klt (h.slot_key m i) (h.slot_key m 0) := by
  intro i
  induction i using Nat.strong_induction_on with
  | _ i ih =>
    intro hi
    by_cases h0 : i = 0
    · rw [h0]; exact klt_irrefl _
    · exact not_klt_trans _ _ _ (hheap i hi (by omega)) (ih ((i - 1) / 2) (by omega) (by omega))

theorem swap_index_same (m : Mem) (p : Nat) : swap_index m p p = m := by
  apply List.ext_getElem?
  intro n
  unfold swap_index
  simp only [List.getElem?_set, List.length_set]
  by_cases hn : p = n
  · subst hn
    by_cases hl : p < m.length
    · simp only [if_true, hl]
      unfold rd
      simp only [List.getD_eq_getElem?_getD, List.getElem?_set, if_true, hl]
      simp [List.getElem?_eq_getElem hl]
    · simp only [if_true, hl, if_false]
      rw [List.getElem?_eq_none (by omega)]
  · simp only [if_neg hn]

/-- `swap_nodes` on one occupied slot changes nothing. -/
theorem swap_nodes_same (m : Mem) (h : HeapUtils) (a : Int) (pa : Nat) (ha0 : 0 ≤ a)
    (ha1 : a < h.heap_vector.length) (hpa : h.heap_vector.getD a.toNat none = some pa) :
    HeapUtils.swap_nodes m h a a = .ok (m, h) := by
  have hal : a.toNat < h.heap_vector.length := by omega
  have hset : (h.heap_vector.set a.toNat (some pa)).set a.toNat (some pa) = h.heap_vector := by
    apply List.ext_getElem?
    intro n
    simp only [List.getElem?_set, List.length_set]
    by_cases hn : a.toNat = n
    · rw [if_pos hn, if_pos hal, ← hn]
      rw [List.getD_eq_getElem?_getD, List.getElem?_eq_getElem hal] at hpa
      rw [List.getElem?_eq_getElem hal]
      exact congrArg some hpa.symm
    · rw [if_neg hn, if_neg hn]
  unfold HeapUtils.swap_nodes
  rw [get_ok h a ha0 ha1, hpa]
  simp only [bind, Except.bind]
  rw [put_ok h a _ ha0 ha1]
  simp only
  rw [put_ok _ a _ ha0 (by simpa using ha1)]
  simp only
  rw [get_ok _ a ha0 (by simpa using ha1)]
  simp only [hset, hpa, HeapUtils.deref, swap_index_same]
  rfl

/-- The first step of `pop_min` on a non-empty linked heap: the root node goes to the
last live slot; slots other than the root and the last keep their keys. -/
theorem pop_min_swap (m : Mem) (h : HeapUtils) (hl : HeapUtils.linked m h) (hne : 0 ≤ h.sz)
    (r : Nat) (hr : h.heap_vector.getD 0 none = some r) :
    ∃ m2 h2, HeapUtils.swap_nodes m h 0 h.sz = .ok (m2, h2) ∧ HeapUtils.linked m2 h2 ∧
      h2.sz = h.sz ∧ same_payload m m2 ∧ (∀ o, o ∈ h2.live ↔ o ∈ h.live) ∧
      h2.heap_vector.getD h.sz.toNat none = some r ∧
      ∀ i, i ≠ 0 → i ≠ h.sz.toNat → h2.slot_key m2 i = h.slot_key m i := by
  by_cases h0 : h.sz = 0
  · have hlen := hl.2.1
    have hsame := swap_nodes_same m h 0 r (by omega) (by omega) hr
    refine ⟨m, h, by rw [h0]; exact hsame, hl, rfl, same_payload_refl m, fun _ => Iff.rfl, ?_,
      fun _ _ _ => rfl⟩
    rw [h0]
    exact hr
  · obtain ⟨m2, h2, hsw, hl2, hs2, hp2, hlv2⟩ :=
      swap_nodes_spec m h hl 0 h.sz (by omega) (by omega) hne (by omega) (by omega)
    obtain ⟨_, _, ko⟩ := swap_nodes_keys m h hl 0 h.sz (by omega) (by omega) hne (by omega)
      (by omega) m2 h2 hsw
    refine ⟨m2, h2, hsw, hl2, hs2, hp2, hlv2, ?_, fun i h1 h2' => ko i (by simpa using h1) h2'⟩
    obtain ⟨pb, hpb, _⟩ := linked_slot m h hl h.sz hne (by omega)
    have hlen := hl.2.1
    have heq := swap_nodes_eq m h 0 h.sz r pb (by omega) (by omega) hne (by omega) (by omega)
      hr hpb
    rw [heq] at hsw
    cases hsw
    show ((h.heap_vector.set (0 : Int).toNat (some pb)).set h.sz.toNat (some r)).getD
      h.sz.toNat none = some r
    rw [getD_set, if_pos ⟨rfl, by simp only [List.length_set]; omega⟩]

/-- C16: on an empty heap `pop_min` returns the null pointer and changes nothing.
On a non-empty linked heap with the heap property it returns the node `r` of slot 0,
no node in a live slot is `less` than `r`, the live slots afterwards hold exactly the
previous nodes without `r`, the heap property holds, the heap is linked, payloads are
unchanged and `sz` has dropped by one. -/
theorem C16_extract_min (m : Mem) (h : HeapUtils)
    (hl : HeapUtils.linked m h) (hp : HeapUtils.heap_property m h) :
    (h.sz = -1 → HeapUtils.pop_min m h = .ok (none, m, h)) ∧
    (0 ≤ h.sz → ∃ r m1 h1, h.heap_vector.getD 0 none = some r ∧
      HeapUtils.pop_min m h = .ok (some r, m1, h1) ∧
      (∀ q, some q ∈ h.live → (rd m q).less (rd m r) = false) ∧
      (∀ o, o ∈ h1.live ↔ (o ∈ h.live ∧ o ≠ some r)) ∧
      HeapUtils.heap_property m1 h1 ∧ HeapUtils.linked m1 h1 ∧ same_payload m m1 ∧
      h1.sz = h.sz - 1) := by
  constructor
  · intro h0
    unfold HeapUtils.pop_min
    rw [if_pos h0]
    rfl
  · intro hne
    have hlen := hl.2.1
    have hheap := (heap_property_iff m h hl).mp hp
    obtain ⟨r, hr, _⟩ := linked_slot m h hl 0 (by omega) hne
    simp only [Int.toNat_zero] at hr
    obtain ⟨m2, h2, hsw, hl2, hs2, hp2, hlv2, hlast, ko⟩ := pop_min_swap m h hl hne r hr
    have hlen2 := hl2.2.1
    -- the heap after the last slot is cleared and dropped
    have hl3 : HeapUtils.linked m2
        { heap_vector := h2.heap_vector.set h2.sz.toNat none, sz := h2.sz - 1 } := by
      refine ⟨by simp only; omega, by simp only [List.length_set]; omega, ?_⟩
      intro i hi
      simp only at hi
      obtain ⟨p, hpl, hpi, hidx⟩ := hl2.2.2 i (by omega)
      refine ⟨p, hpl, ?_, hidx⟩
      simp only [getD_set]
      rw [if_neg (by omega)]
      exact hpi
    have hk3 : ∀ i, i ≠ h.sz.toNat →
        HeapUtils.slot_key m2
          ({ heap_vector := h2.heap_vector.set h2.sz.toNat none, sz := h2.sz - 1 } : HeapUtils) i
          = h2.slot_key m2 i := by
      intro i hi
      unfold HeapUtils.slot_key
      simp only [getD_set]
      rw [if_neg (by rw [hs2]; exact fun hh => hi hh.1.symm)]
    have hex : HeapUtils.heap_except m2
        { heap_vector := h2.heap_vector.set h2.sz.toNat none, sz := h2.sz - 1 } 0 := by
      intro i hi h0
      simp only at hi
      constructor
      · intro hP
        rw [hk3 i (by omega), hk3 _ (by omega), ko i (by omega) (by omega),
          ko _ hP (by omega)]
        exact hheap i (by omega) h0
      · intro _ hh
        exact absurd hh (by omega)
    obtain ⟨m1, h1, hfix, hl1, hs1, hp1, hlv1⟩ := fix_heap_down_spec m2
      { heap_vector := h2.heap_vector.set h2.sz.toNat none, sz := h2.sz - 1 } 0 hl3 (by omega)
    obtain ⟨_, _, hres⟩ := fix_heap_down_loop_heap _ _ _ 0 m1 h1 hl3 hfix hex
    refine ⟨r, m1, h1, hr, ?_, ?_, ?_, (heap_property_iff m1 h1 hl1).mpr hres, hl1,
      same_payload_trans _ _ _ hp2 hp1, by rw [hs1]; simp only; omega⟩
    · unfold HeapUtils.pop_min
      rw [if_neg (by omega), get_ok h 0 (by omega) (by omega)]
      simp only [Int.toNat_zero, hr, bind, Except.bind, hsw]
      rw [put_ok h2 h2.sz none (by omega) (by omega)]
      simp only
      rw [hfix]
      rfl
    · intro q hq
      obtain ⟨i, hi, hqi⟩ := (mem_live_iff h (some q)).mp hq
      have hmin := root_is_min m h hheap i hi
      rw [slot_key_of m h i q ((getD_eq_some_iff _ _ _).mpr hqi), slot_key_of m h 0 r hr,
        ← less_iff_klt] at hmin
      simpa using hmin
    · intro o
      rw [hlv1, ← hlv2, mem_live_iff, mem_live_iff]
      simp only [List.getElem?_set]
      have hlast' : h2.heap_vector[h2.sz.toNat]? = some (some r) := by
        rw [hs2]; exact (getD_eq_some_iff _ _ _).mp hlast
      constructor
      · rintro ⟨i, hi, hio⟩
        rw [if_neg (by omega)] at hio
        refine ⟨⟨i, by omega, hio⟩, ?_⟩
        rintro rfl
        have := linked_inj m2 h2 hl2 i h2.sz.toNat r (by omega) (by omega)
          ((getD_eq_some_iff _ _ _).mpr hio) ((getD_eq_some_iff _ _ _).mpr hlast')
        omega
      · rintro ⟨⟨i, hi, hio⟩, hor⟩
        have hine : i ≠ h2.sz.toNat := by
          intro hh
          rw [hh, hlast'] at hio
          exact hor (Option.some.inj hio).symm
        exact ⟨i, by omega, by rw [if_neg (fun hh => hine hh.symm)]; exact hio⟩

/-- Witness of `C16_extract_min`: the heap holding rides (1,50,10), (2,30,20),
(3,30,5). -/
theorem C16_extract_min_witness :
    ((state_after [.Insert 1 50 10, .Insert 2 30 20, .Insert 3 30 5]).sz = -1 →
      HeapUtils.pop_min (state_after [.Insert 1 50 10, .Insert 2 30 20, .Insert 3 30 5]).nodes
        (state_after [.Insert 1 50 10, .Insert 2 30 20, .Insert 3 30 5]).toHeapUtils
      = .ok (none, (state_after [.Insert 1 50 10, .Insert 2 30 20, .Insert 3 30 5]).nodes,
          (state_after [.Insert 1 50 10, .Insert 2 30 20, .Insert 3 30 5]).toHeapUtils)) ∧
    (0 ≤ (state_after [.Insert 1 50 10, .Insert 2 30 20, .Insert 3 30 5]).sz → ∃ r m1 h1,
      (state_after [.Insert 1 50 10, .Insert 2 30 20, .Insert 3 30 5]).heap_vector.getD 0 none
        = some r ∧
      HeapUtils.pop_min (state_after [.Insert 1 50 10, .Insert 2 30 20, .Insert 3 30 5]).nodes
        (state_after [.Insert 1 50 10, .Insert 2 30 20, .Insert 3 30 5]).toHeapUtils
        = .ok (some r, m1, h1) ∧
      (∀ q, some q ∈ (state_after [.Insert 1 50 10, .Insert 2 30 20, .Insert 3 30 5]).toHeapUtils.live →
        (rd (state_after [.Insert 1 50 10, .Insert 2 30 20, .Insert 3 30 5]).nodes q).less
          (rd (state_after [.Insert 1 50 10, .Insert 2 30 20, .Insert 3 30 5]).nodes r) = false) ∧
      (∀ o, o ∈ h1.live ↔
        (o ∈ (state_after [.Insert 1 50 10, .Insert 2 30 20, .Insert 3 30 5]).toHeapUtils.live ∧
          o ≠ some r)) ∧
      HeapUtils.heap_property m1 h1 ∧ HeapUtils.linked m1 h1 ∧
      same_payload (state_after [.Insert 1 50 10, .Insert 2 30 20, .Insert 3 30 5]).nodes m1 ∧
      h1.sz = (state_after [.Insert 1 50 10, .Insert 2 30 20, .Insert 3 30 5]).sz - 1) :=
  C16_extract_min (state_after [.Insert 1 50 10, .Insert 2 30 20, .Insert 3 30 5]).nodes
    (state_after [.Insert 1 50 10, .Insert 2 30 20, .Insert 3 30 5]).toHeapUtils
    (by decide!) (by decide!)

/-- Witness of `C18_update_restores_heap`: in the heap holding rides (1,50,10),
(2,30,20), (3,30,5), the root ride (3,30,5) is raised to cost 40, duration 8. -/
theorem C18_update_restores_heap_witness :
    ∃ m1 h1,
      HeapUtils.update_by_index
        ((state_after [.Insert 1 50 10, .Insert 2 30 20, .Insert 3 30 5]).nodes.set 2
          { rd (state_after [.Insert 1 50 10, .Insert 2 30 20, .Insert 3 30 5]).nodes 2 with
            ride_cost := 40, trip_duration := 8 })
        (state_after [.Insert 1 50 10, .Insert 2 30 20, .Insert 3 30 5]).toHeapUtils (0 : Nat)
        = .ok (m1, h1) ∧
      HeapUtils.heap_property m1 h1 ∧ HeapUtils.linked m1 h1 ∧
      h1.sz = (state_after [.Insert 1 50 10, .Insert 2 30 20, .Insert 3 30 5]).sz ∧
      (∀ o, o ∈ h1.live ↔
        o ∈ (state_after [.Insert 1 50 10, .Insert 2 30 20, .Insert 3 30 5]).toHeapUtils.live) ∧
      same_payload
        ((state_after [.Insert 1 50 10, .Insert 2 30 20, .Insert 3 30 5]).nodes.set 2
          { rd (state_after [.Insert 1 50 10, .Insert 2 30 20, .Insert 3 30 5]).nodes 2 with
            ride_cost := 40, trip_duration := 8 }) m1 :=
  C18_update_restores_heap (state_after [.Insert 1 50 10, .Insert 2 30 20, .Insert 3 30 5]).nodes
    (state_after [.Insert 1 50 10, .Insert 2 30 20, .Insert 3 30 5]).toHeapUtils 0 2 40 8
    (by decide!) (by decide!) (by decide!) (by decide!) (by decide!)

/-! ## The key index: balance invariants under insert -/

theorem llrb_nil (n : Nat) : llrb .nil n ↔ n = 0 := by simp [llrb]

theorem llrb_red (l r : Tree) (p n : Nat) :
    llrb (.node l p .R r) n ↔ llrb l n ∧ llrb r n ∧ is_red l = false ∧ is_red r = false := by
  simp [llrb]

theorem llrb_black (l r : Tree) (p n : Nat) :
    llrb (.node l p .B r) n ↔ ∃ k, n = k + 1 ∧ llrb l k ∧ llrb r k ∧ is_red r = false := by
  simp [llrb]

theorem is_red_node (l r : Tree) (p : Nat) (c : Color) :
    is_red (.node l p c r) = decide (c = Color.R) := rfl

theorem is_red_red (l r : Tree) (p : Nat) : is_red (.node l p .R r) = true := rfl

theorem is_red_black (l r : Tree) (p : Nat) : is_red (.node l p .B r) = false := rfl

theorem is_red_nil : is_red .nil = false := rfl

/-- The recursive predicate agrees with the three checkers of invariants (b), (c)
and (d). -/
theorem llrb_iff (t : Tree) : ∀ n, llrb t n ↔
    (no_red_right t = true ∧ no_red_red t = true ∧ black_height t = some n) := by
  induction t with
  | nil => intro n; simp [llrb, no_red_right, no_red_red, black_height, eq_comm]
  | node l p c r ihl ihr =>
    intro n
    cases c with
    | R =>
      rw [llrb_red, ihl, ihr]
      simp only [no_red_right, no_red_red, black_height, Bool.and_eq_true, Bool.not_eq_true',
        decide_True, Bool.true_and]
      constructor
      · rintro ⟨⟨a1, a2, a3⟩, ⟨b1, b2, b3⟩, c1, c2⟩
        simp [a1, a2, a3, b1, b2, b3, c1, c2]
      · rintro ⟨⟨⟨h1, h2⟩, h3⟩, ⟨⟨h4, h5⟩, h6⟩, h7⟩
        cases hl : black_height l with
        | none => simp [hl] at h7
        | some a =>
          cases hr : black_height r with
          | none => simp [hl, hr] at h7
          | some b =>
            simp only [hl, hr] at h7
            by_cases hab : a = b
            · subst hab
              simp only [if_true, reduceCtorEq, if_false, Option.some.injEq] at h7
              subst h7
              exact ⟨⟨h2, h5, rfl⟩, ⟨h3, h6, rfl⟩, h4, h1⟩
            · simp [hab] at h7
    | B =>
      rw [llrb_black]
      simp only [no_red_right, no_red_red, black_height, Bool.and_eq_true, Bool.not_eq_true',
        reduceCtorEq, decide_False, Bool.false_and, Bool.not_false, true_and]
      constructor
      · rintro ⟨k, rfl, hl, hr, hc⟩
        rw [ihl] at hl
        rw [ihr] at hr
        simp [hl.1, hl.2.1, hl.2.2, hr.1, hr.2.1, hr.2.2, hc]
      · rintro ⟨⟨⟨h1, h2⟩, h3⟩, ⟨h4, h5⟩, h6⟩
        cases hl : black_height l with
        | none => simp [hl] at h6
        | some a =>
          cases hr : black_height r with
          | none => simp [hl, hr] at h6
          | some b =>
            simp only [hl, hr] at h6
            by_cases hab : a = b
            · subst hab
              simp only [if_true, Option.some.injEq] at h6
              exact ⟨a, h6.symm, (ihl a).mpr ⟨h2, h4, hl⟩, (ihr a).mpr ⟨h3, h5, hr⟩, h1⟩
            · simp [hab] at h6

theorem llrb_toggle_red (l r : Tree) (p n : Nat) (h : llrb (.node l p .R r) n) :
    llrb (.node l p .B r) (n + 1) := by
  rw [llrb_red] at h
  rw [llrb_black]
  exact ⟨n, rfl, h.1, h.2.1, h.2.2.2⟩

/-- `re_balance` changes nothing when the right child is not red and the left child
does not start a chain of two red links. -/
theorem re_balance_keep (l r : Tree) (p : Nat) (c : Color) (hr : is_red r = false)
    (hl : is_red l = false ∨ ∃ ll lp lr, l = .node ll lp .R lr ∧ is_red ll = false) :
    re_balance (.node l p c r) = .node l p c r := by
  rcases hl with hl | ⟨ll, lp, lr, rfl, hll⟩
  · rcases l with _ | ⟨ll, lp, lc, lr⟩
    · simp [re_balance, hr, is_red_nil]
    · cases lc
      · simp [is_red_red] at hl
      · simp [re_balance, hr, is_red_black]
  · simp [re_balance, hr, hll, is_red_red]

/-- `re_balance` rotates left when only the right child is red. -/
theorem re_balance_rotate_left (l rl rr : Tree) (p rp : Nat) (c : Color)
    (hl : is_red l = false) (hrr : is_red rr = false) :
    re_balance (.node l p c (.node rl rp .R rr)) = .node (.node l p .R rl) rp c rr := by
  simp [re_balance, rotate_left, hl, hrr, is_red_red]

/-- `re_balance` flips the colours when both children are red. -/
theorem re_balance_flip (ll lr rl rr : Tree) (p lp rp : Nat) (c : Color)
    (hll : is_red ll = false) :
    re_balance (.node (.node ll lp .R lr) p c (.node rl rp .R rr))
      = .node (.node ll lp .B lr) p (RBTUtils.flip c) (.node rl rp .B rr) := by
  simp [re_balance, hll, is_red_red, fix_colors, toggle_color, RBTUtils.flip]

/-- `re_balance` rotates right and flips when the left child and its left child are
red. -/
theorem re_balance_rotate_right (a b lr r : Tree) (p lp ap : Nat) (c : Color)
    (hr : is_red r = false) :
    re_balance (.node (.node (.node a ap .R b) lp .R lr) p c r)
      = .node (.node a ap .B b) lp (RBTUtils.flip c) (.node lr p .B r) := by
  simp [re_balance, rotate_right, hr, is_red_red, fix_colors, toggle_color, RBTUtils.flip]

/-- A tree that is not red is empty or has a black root. -/
theorem not_red_cases (t : Tree) (h : is_red t = false) :
    t = .nil ∨ ∃ l p r, t = .node l p .B r := by
  rcases t with _ | ⟨l, p, c, r⟩
  · exact Or.inl rfl
  · cases c
    · simp [is_red_red] at h
    · exact Or.inr ⟨l, p, r, rfl⟩

theorem red_cases (t : Tree) (h : is_red t = true) : ∃ l p r, t = .node l p .R r := by
  rcases t with _ | ⟨l, p, c, r⟩
  · simp [is_red_nil] at h
  · cases c
    · exact ⟨l, p, r, rfl⟩
    · simp [is_red_black] at h

/-- `re_balance` at a black node one of whose subtrees has just received a node. -/
theorem re_balance_black (l r : Tree) (p k : Nat)
    (h : (llrb l k ∧ llrb r k) ∨ (almost l k ∧ llrb r k ∧ is_red r = false)) :
    llrb (re_balance (.node l p .B r)) (k + 1) := by
  rcases h with ⟨hl, hr⟩ | ⟨hl, hr, hrr⟩
  · cases hrc : is_red r with
    | false =>
      -- a valid left child never starts a chain of two red links
      have hkeep : re_balance (.node l p .B r) = .node l p .B r := by
        apply re_balance_keep _ _ _ _ hrc
        cases hlc : is_red l with
        | false => exact Or.inl rfl
        | true =>
          obtain ⟨ll, lp, lr, rfl⟩ := red_cases l hlc
          rw [llrb_red] at hl
          exact Or.inr ⟨ll, lp, lr, rfl, hl.2.2.1⟩
      rw [hkeep, llrb_black]
      exact ⟨k, rfl, hl, hr, hrc⟩
    | true =>
      obtain ⟨rl, rp, rr, rfl⟩ := red_cases r hrc
      rw [llrb_red] at hr
      cases hlc : is_red l with
      | false =>
        rw [re_balance_rotate_left l rl rr p rp .B hlc hr.2.2.2, llrb_black]
        exact ⟨k, rfl, (llrb_red _ _ _ _).mpr ⟨hl, hr.1, hlc, hr.2.2.1⟩, hr.2.1, hr.2.2.2⟩
      | true =>
        obtain ⟨ll, lp, lr, rfl⟩ := red_cases l hlc
        rw [llrb_red] at hl
        rw [re_balance_flip ll lr rl rr p lp rp .B hl.2.2.1]
        simp only [RBTUtils.flip]
        rw [llrb_red]
        exact ⟨llrb_toggle_red _ _ _ _ ((llrb_red _ _ _ _).mpr hl),
          llrb_toggle_red _ _ _ _ ((llrb_red _ _ _ _).mpr hr), rfl, rfl⟩
  · rcases l with _ | ⟨ll, lp, lc, lr⟩
    · simp [almost] at hl
    · obtain ⟨rfl, hll, hlr, hlrr⟩ := hl
      cases hllc : is_red ll with
      | false =>
        rw [re_balance_keep _ _ _ _ hrr (Or.inr ⟨ll, lp, lr, rfl, hllc⟩), llrb_black]
        exact ⟨k, rfl, (llrb_red _ _ _ _).mpr ⟨hll, hlr, hllc, hlrr⟩, hr, hrr⟩
      | true =>
        obtain ⟨a, ap, b, rfl⟩ := red_cases ll hllc
        rw [re_balance_rotate_right a b lr r p lp ap .B hrr]
        simp only [RBTUtils.flip]
        rw [llrb_red]
        refine ⟨llrb_toggle_red _ _ _ _ hll, ?_, rfl, rfl⟩
        rw [llrb_black]
        exact ⟨k, rfl, hlr, hr, hrr⟩

/-- `re_balance` at a red node one of whose (black-rooted) subtrees has just received
a node. -/
theorem re_balance_red (l r : Tree) (p n : Nat) (hl : llrb l n) (hr : llrb r n)
    (h : is_red l = false ∨ is_red r = false) : almost (re_balance (.node l p .R r)) n := by
  cases hrc : is_red r with
  | false =>
    have hkeep : re_balance (.node l p .R r) = .node l p .R r := by
      apply re_balance_keep _ _ _ _ hrc
      cases hlc : is_red l with
      | false => exact Or.inl rfl
      | true =>
        obtain ⟨ll, lp, lr, rfl⟩ := red_cases l hlc
        rw [llrb_red] at hl
        exact Or.inr ⟨ll, lp, lr, rfl, hl.2.2.1⟩
    rw [hkeep]
    exact ⟨rfl, hl, hr, hrc⟩
  | true =>
    have hlc : is_red l = false := by
      rcases h with h | h
      · exact h
      · rw [hrc] at h; cases h
    obtain ⟨rl, rp, rr, rfl⟩ := red_cases r hrc
    rw [llrb_red] at hr
    rw [re_balance_rotate_left l rl rr p rp .R hlc hr.2.2.2]
    exact ⟨rfl, (llrb_red _ _ _ _).mpr ⟨hl, hr.1, hlc, hr.2.2.1⟩, hr.2.1, hr.2.2.2⟩

theorem insert_node_fst_right (m : Mem) (l r : Tree) (p z : Nat) (c : Color) (f : Bool)
    (h1 : ¬ (rd m p).ride_number = (rd m z).ride_number)
    (h2 : (rd m p).ride_number < (rd m z).ride_number) :
    (insert_node m (.node l p c r) z f).1 = re_balance (.node l p c (insert_node m r z f).1) := by
  simp only [insert_node, if_neg h1, if_pos h2]

theorem insert_node_fst_left (m : Mem) (l r : Tree) (p z : Nat) (c : Color) (f : Bool)
    (h1 : ¬ (rd m p).ride_number = (rd m z).ride_number)
    (h2 : ¬ (rd m p).ride_number < (rd m z).ride_number) :
    (insert_node m (.node l p c r) z f).1 = re_balance (.node (insert_node m l z f).1 p c r) := by
  simp only [insert_node, if_neg h1, if_neg h2]

theorem insert_node_fst_dup (m : Mem) (l r : Tree) (p z : Nat) (c : Color) (f : Bool)
    (h1 : (rd m p).ride_number = (rd m z).ride_number) :
    (insert_node m (.node l p c r) z f).1 = .node l p c r := by
  simp only [insert_node, if_pos h1]

/-- The recursive insert keeps a black-rooted subtree valid at its black height, and
leaves at most one red-red link, at the root, in a red-rooted one. -/
theorem insert_node_llrb (m : Mem) (z : Nat) (f : Bool) (t : Tree) : ∀ n, llrb t n →
    (is_red t = false → llrb (insert_node m t z f).1 n) ∧
    (is_red t = true → almost (insert_node m t z f).1 n) := by
  induction t with
  | nil =>
    intro n hn
    rw [llrb_nil] at hn
    subst hn
    refine ⟨fun _ => ?_, fun h => by simp [is_red_nil] at h⟩
    simp [insert_node, llrb_red, llrb_nil, is_red_nil]
  | node l p c r ihl ihr =>
    intro n hn
    by_cases h1 : (rd m p).ride_number = (rd m z).ride_number
    · rw [insert_node_fst_dup m l r p z c f h1]
      refine ⟨fun _ => hn, fun hred => ?_⟩
      obtain ⟨l', p', r', he⟩ := red_cases _ hred
      cases he
      rw [llrb_red] at hn
      exact ⟨rfl, hn.1, hn.2.1, hn.2.2.2⟩
    · cases c with
      | B =>
        refine ⟨fun _ => ?_, fun h => by simp [is_red_black] at h⟩
        rw [llrb_black] at hn
        obtain ⟨k, rfl, hl, hr, hrr⟩ := hn
        by_cases h2 : (rd m p).ride_number < (rd m z).ride_number
        · rw [insert_node_fst_right m l r p z _ f h1 h2]
          exact re_balance_black _ _ _ _ (Or.inl ⟨hl, ((ihr k hr).1 hrr)⟩)
        · rw [insert_node_fst_left m l r p z _ f h1 h2]
          cases hlc : is_red l with
          | false => exact re_balance_black _ _ _ _ (Or.inl ⟨(ihl k hl).1 hlc, hr⟩)
          | true => exact re_balance_black _ _ _ _ (Or.inr ⟨(ihl k hl).2 hlc, hr, hrr⟩)
      | R =>
        refine ⟨fun h => by simp [is_red_red] at h, fun _ => ?_⟩
        rw [llrb_red] at hn
        obtain ⟨hl, hr, hlr, hrr⟩ := hn
        by_cases h2 : (rd m p).ride_number < (rd m z).ride_number
        · rw [insert_node_fst_right m l r p z _ f h1 h2]
          exact re_balance_red _ _ _ _ hl ((ihr n hr).1 hrr) (Or.inl hlr)
        · rw [insert_node_fst_left m l r p z _ f h1 h2]
          exact re_balance_red _ _ _ _ ((ihl n hl).1 hlr) hr (Or.inr hrr)

theorem llrb_blacken (t : Tree) (n : Nat) (h : llrb t n) :
    is_red (blacken t) = false ∧ ∃ k, llrb (blacken t) k := by
  rcases t with _ | ⟨l, p, c, r⟩
  · exact ⟨rfl, n, h⟩
  · cases c
    · exact ⟨rfl, n + 1, llrb_toggle_red _ _ _ _ h⟩
    · exact ⟨rfl, n, h⟩

/-- The invariants of the key index, with (b), (c), (d) stated through `llrb`. -/
theorem invariants_iff (m : Mem) (t : Tree) :
    invariants m t ↔ bst_order m t ∧ is_red t = false ∧ ∃ n, llrb t n := by
  unfold invariants
  constructor
  · rintro ⟨h1, h2, h3, h4, h5⟩
    obtain ⟨n, hn⟩ := Option.isSome_iff_exists.mp h4
    exact ⟨h1, h5, n, (llrb_iff t n).mpr ⟨h2, h3, hn⟩⟩
  · rintro ⟨h1, h5, n, hn⟩
    obtain ⟨h2, h3, h4⟩ := (llrb_iff t n).mp hn
    exact ⟨h1, h2, h3, by rw [h4]; rfl, h5⟩

/-- C12: when the key index satisfies invariants (a) to (e) (search-tree order on the
ride number, no red right link, no red node with a red left child, the same number
of black links on every path from the root to an empty link, black root) and the
ride number of the new node is not in the tree, `RBTUtils::insert` returns `true`
exactly when the `failure` flag was clear before the call, and the tree after the
call satisfies (a) to (e) again. -/
theorem C12_insert_preserves_invariants (m : Mem) (t : RBTUtils) (z : Nat)
    (hinv : RBTUtils.invariants m t.root) (hz : key m z ∉ RBTUtils.keys m t.root) :
    (RBTUtils.insert m t z).2 = (!t.failure) ∧
      RBTUtils.invariants m (RBTUtils.insert m t z).1.root := by
  rw [invariants_iff] at hinv
  obtain ⟨hb, hred, n, hn⟩ := hinv
  obtain ⟨i1, i2, i3⟩ := insert_node_fresh m z t.failure t.root hb hz
  have hroot : (RBTUtils.insert m t z).1.root = blacken (insert_node m t.root z t.failure).1 := by
    unfold RBTUtils.insert
    simp only
    split_ifs <;> rfl
  have hflag : (RBTUtils.insert m t z).2 = (!t.failure) := by
    unfold RBTUtils.insert
    simp only
    rw [i1]
    cases t.failure <;> rfl
  refine ⟨hflag, ?_⟩
  rw [invariants_iff, hroot]
  obtain ⟨hb1, k, hk⟩ := llrb_blacken _ n ((insert_node_llrb m z t.failure t.root n hn).1 hred)
  refine ⟨?_, hb1, k, hk⟩
  unfold bst_order keys
  rw [get_inorder_blacken]
  exact i3

theorem C12_insert_preserves_invariants_witness :
    RBTUtils.invariants [⟨5, 1, 1, 0⟩, ⟨3, 1, 1, 0⟩, ⟨9, 1, 1, 0⟩, ⟨7, 1, 1, 0⟩]
        (RBTUtils.insert_all [⟨5, 1, 1, 0⟩, ⟨3, 1, 1, 0⟩, ⟨9, 1, 1, 0⟩, ⟨7, 1, 1, 0⟩]
          [0, 1, 2] (RBTUtils.init false)).1.root ∧
      (RBTUtils.insert [⟨5, 1, 1, 0⟩, ⟨3, 1, 1, 0⟩, ⟨9, 1, 1, 0⟩, ⟨7, 1, 1, 0⟩]
        (RBTUtils.insert_all [⟨5, 1, 1, 0⟩, ⟨3, 1, 1, 0⟩, ⟨9, 1, 1, 0⟩, ⟨7, 1, 1, 0⟩]
          [0, 1, 2] (RBTUtils.init false)).1 3).2 =
        (!(RBTUtils.insert_all [⟨5, 1, 1, 0⟩, ⟨3, 1, 1, 0⟩, ⟨9, 1, 1, 0⟩, ⟨7, 1, 1, 0⟩]
          [0, 1, 2] (RBTUtils.init false)).1.failure) ∧
      RBTUtils.invariants [⟨5, 1, 1, 0⟩, ⟨3, 1, 1, 0⟩, ⟨9, 1, 1, 0⟩, ⟨7, 1, 1, 0⟩]
        (RBTUtils.insert [⟨5, 1, 1, 0⟩, ⟨3, 1, 1, 0⟩, ⟨9, 1, 1, 0⟩, ⟨7, 1, 1, 0⟩]
          (RBTUtils.insert_all [⟨5, 1, 1, 0⟩, ⟨3, 1, 1, 0⟩, ⟨9, 1, 1, 0⟩, ⟨7, 1, 1, 0⟩]
            [0, 1, 2] (RBTUtils.init false)).1 3).1.root :=
  ⟨by decide,
    C12_insert_preserves_invariants [⟨5, 1, 1, 0⟩, ⟨3, 1, 1, 0⟩, ⟨9, 1, 1, 0⟩, ⟨7, 1, 1, 0⟩]
      (RBTUtils.insert_all [⟨5, 1, 1, 0⟩, ⟨3, 1, 1, 0⟩, ⟨9, 1, 1, 0⟩, ⟨7, 1, 1, 0⟩]
        [0, 1, 2] (RBTUtils.init false)).1 3 (by decide) (by decide)⟩

/-! ## The key index: delete -/

theorem get_inorder_move_left (t : Tree) : get_inorder (move_left t) = get_inorder t := by
  rcases t with _ | ⟨l, p, c, r⟩
  · rfl
  · rcases l with _ | ⟨ll, lp, lc, lr⟩
    · simp only [move_left]
    · rcases r with _ | ⟨rl, rp, rc, rr⟩
      · simp only [move_left]
      · simp only [move_left]
        split_ifs
        · rfl
        · have hf : fix_colors (.node (.node ll lp lc lr) p c (.node rl rp rc rr)) =
              .node (.node ll lp (RBTUtils.flip lc) lr) p (RBTUtils.flip c)
                (.node rl rp (RBTUtils.flip rc) rr) := rfl
          rw [hf]
          simp only []
          split_ifs
          · rw [get_inorder_fix_colors, get_inorder_rotate_left]
            simp only [get_inorder, get_inorder_rotate_right]
          · rfl

theorem size_toggle_color (t : Tree) : size (toggle_color t) = size t := by
  cases t <;> rfl

theorem size_fix_colors (t : Tree) : size (fix_colors t) = size t := by
  rcases t with _ | ⟨l, p, c, r⟩
  · rfl
  · rcases l with _ | ⟨ll, lp, lc, lr⟩
    · rfl
    · simp only [fix_colors, size, size_toggle_color]

theorem size_rotate_right (t : Tree) : size (rotate_right t) = size t := by
  rcases t with _ | ⟨l, p, c, r⟩
  · rfl
  · rcases l with _ | ⟨ll, lp, lc, lr⟩
    · rfl
    · cases lc
      · simp only [rotate_right, size]; omega
      · rfl

theorem size_rotate_left (t : Tree) : size (rotate_left t) = size t := by
  rcases t with _ | ⟨l, p, c, r⟩
  · rfl
  · rcases r with _ | ⟨rl, rp, rc, rr⟩
    · rfl
    · cases rc
      · simp only [rotate_left, size]; omega
      · rfl

theorem size_eq_length (t : Tree) : size t = (get_inorder t).length := by
  induction t with
  | nil => rfl
  | node l p c r ihl ihr =>
    simp only [size, get_inorder, List.length_append, List.length_cons, ihl, ihr]
    omega

theorem size_move_left (t : Tree) : size (move_left t) = size t := by
  rw [size_eq_length, size_eq_length, get_inorder_move_left]

theorem size_re_balance (t : Tree) : size (re_balance t) = size t := by
  rw [size_eq_length, size_eq_length, get_inorder_re_balance]

theorem get_inorder_move_right (t t1 : Tree) (h : move_right t = .ok t1) :
    get_inorder t1 = get_inorder t := by
  rcases t with _ | ⟨l, p, c, r⟩
  · simp only [move_right] at h; cases h; rfl
  · simp only [move_right] at h
    split_ifs at h with h1 h2
    · cases h; rfl
    · cases h; rfl
    · cases hrl : is_red_left_of r with
      | error e => rw [hrl] at h; cases h
      | ok b =>
        rw [hrl] at h
        simp only [bind, Except.bind] at h
        cases b with
        | true => simp only [if_true] at h; cases h; rfl
        | false =>
          simp only [Bool.false_eq_true, if_false] at h
          have hfc := get_inorder_fix_colors (.node l p c r)
          cases hf : fix_colors (.node l p c r) with
          | nil => rw [hf] at h; cases h
          | node l1 p1 c1 r1 =>
            rw [hf] at h hfc
            simp only at h
            cases hll : is_red_left_of l1 with
            | error e => rw [hll] at h; cases h
            | ok b2 =>
              rw [hll] at h
              simp only at h
              cases b2 with
              | true =>
                simp only [if_true] at h
                cases h
                rw [get_inorder_fix_colors, get_inorder_rotate_right, hfc]
              | false =>
                simp only [Bool.false_eq_true, if_false] at h
                cases h
                exact hfc

theorem size_move_right (t t1 : Tree) (h : move_right t = .ok t1) : size t1 = size t := by
  rw [size_eq_length, size_eq_length, get_inorder_move_right t t1 h]

theorem llrb_not_red_zero (t : Tree) (h : llrb t 0) (hr : is_red t = false) : t = .nil := by
  rcases not_red_cases t hr with rfl | ⟨l, p, r, rfl⟩
  · rfl
  · rw [llrb_black] at h
    obtain ⟨k, hk, _⟩ := h
    omega

theorem llrb_not_red_succ (t : Tree) (k : Nat) (h : llrb t (k + 1)) (hr : is_red t = false) :
    ∃ l p r, t = .node l p .B r ∧ llrb l k ∧ llrb r k ∧ is_red r = false := by
  rcases not_red_cases t hr with rfl | ⟨l, p, r, rfl⟩
  · rw [llrb_nil] at h; omega
  · rw [llrb_black] at h
    obtain ⟨k1, hk, h1, h2, h3⟩ := h
    have : k1 = k := by omega
    subst this
    exact ⟨l, p, r, rfl, h1, h2, h3⟩

/-- A balanced tree never starts with two red left links. -/
theorem llrb_keep_cond (t : Tree) (n : Nat) (h : llrb t n) :
    is_red t = false ∨ ∃ ll lp lr, t = .node ll lp .R lr ∧ is_red ll = false := by
  cases hc : is_red t with
  | false => exact Or.inl rfl
  | true =>
    obtain ⟨ll, lp, lr, rfl⟩ := red_cases t hc
    rw [llrb_red] at h
    exact Or.inr ⟨ll, lp, lr, rfl, h.2.2.1⟩

/-- The step to the left child in `delete_min` and `delete_by_id`: the node the
descent continues from, the shape of its left child, and what `re_balance` makes of
the node once the left child has been replaced by a balanced tree. -/
theorem descend_left (ll lr r : Tree) (lp p : Nat) (lc c : Color) (n : Nat)
    (h : deletable (.node (.node ll lp lc lr) p c r) n) :
    ∃ l1 p1 c1 r1 h1,
      (if (!is_red (.node ll lp lc lr) && !is_red ll) = true
        then move_left (.node (.node ll lp lc lr) p c r)
        else .node (.node ll lp lc lr) p c r) = .node l1 p1 c1 r1 ∧
      deletable l1 h1 ∧ (p1 = p ∨ p ∈ get_inorder l1) ∧
      ∀ l2, llrb l2 h1 → (is_red l1 = false → is_red l2 = false) →
        llrb (re_balance (.node l2 p1 c1 r1)) n ∧
          (c = Color.B → is_red (re_balance (.node l2 p1 c1 r1)) = false) := by
  obtain ⟨hc, hb⟩ := h
  cases c with
  | B =>
    have hl : is_red (.node ll lp lc lr) = true := by
      rcases hc with hc | hc
      · cases hc
      · exact hc
    rw [llrb_black] at hb
    obtain ⟨k, rfl, hlk, hrk, hrr⟩ := hb
    refine ⟨.node ll lp lc lr, p, .B, r, k, ?_, ?_, Or.inl rfl, ?_⟩
    · rw [hl]; rfl
    · obtain ⟨a, ap, b, hab⟩ := red_cases _ hl
      cases hab
      exact ⟨Or.inl rfl, hlk⟩
    · intro l2 h2 _
      rw [re_balance_keep l2 r p .B hrr (llrb_keep_cond l2 k h2)]
      exact ⟨(llrb_black _ _ _ _).mpr ⟨k, rfl, h2, hrk, hrr⟩, fun _ => rfl⟩
  | R =>
    rw [llrb_red] at hb
    obtain ⟨hln, hrn, hlr, hrr⟩ := hb
    have hlc : lc = .B := by
      cases lc
      · simp [is_red_red] at hlr
      · rfl
    subst hlc
    rw [llrb_black] at hln
    obtain ⟨k, rfl, hllk, hlrk, hlrr⟩ := hln
    cases hll : is_red ll with
    | true =>
      refine ⟨.node ll lp .B lr, p, .R, r, k + 1, ?_, ?_, Or.inl rfl, ?_⟩
      · simp [is_red_black]
      · exact ⟨Or.inr hll, (llrb_black _ _ _ _).mpr ⟨k, rfl, hllk, hlrk, hlrr⟩⟩
      · intro l2 h2 h3
        have h3 := h3 rfl
        rw [re_balance_keep l2 r p .R hrr (Or.inl h3)]
        exact ⟨(llrb_red _ _ _ _).mpr ⟨h2, hrn, h3, hrr⟩, fun hh => by cases hh⟩
    | false =>
      obtain ⟨rl, rp, rr, rfl, hrlk, hrrk, hrrr⟩ := llrb_not_red_succ r k hrn hrr
      cases hrl : is_red rl with
      | true =>
        obtain ⟨rll, rlp, rlr, rfl⟩ := red_cases rl hrl
        rw [llrb_red] at hrlk
        obtain ⟨g1, g2, g3, g4⟩ := hrlk
        refine ⟨.node (.node ll lp .R lr) p .B rll, rlp, .R, .node rlr rp .B rr, k + 1,
          ?_, ?_, Or.inr ?_, ?_⟩
        · simp [is_red_black, is_red_red, hll, move_left, fix_colors, toggle_color,
            RBTUtils.flip, rotate_right, rotate_left]
        · exact ⟨Or.inr rfl, (llrb_black _ _ _ _).mpr
            ⟨k, rfl, (llrb_red _ _ _ _).mpr ⟨hllk, hlrk, hll, hlrr⟩, g1, g3⟩⟩
        · simp [get_inorder]
        · intro l2 h2 h3
          have h3 := h3 rfl
          rw [re_balance_keep l2 (.node rlr rp .B rr) rlp .R rfl (Or.inl h3)]
          exact ⟨(llrb_red _ _ _ _).mpr ⟨h2, (llrb_black _ _ _ _).mpr ⟨k, rfl, g2, hrrk, hrrr⟩,
            h3, rfl⟩, fun hh => by cases hh⟩
      | false =>
        refine ⟨.node ll lp .R lr, p, .B, .node rl rp .R rr, k, ?_, ?_, Or.inl rfl, ?_⟩
        · simp [is_red_black, is_red_red, hll, hrl, move_left, fix_colors, toggle_color,
            RBTUtils.flip]
        · exact ⟨Or.inl rfl, (llrb_red _ _ _ _).mpr ⟨hllk, hlrk, hll, hlrr⟩⟩
        · intro l2 h2 _
          refine ⟨?_, fun hh => by cases hh⟩
          cases hl2 : is_red l2 with
          | false =>
            rw [re_balance_rotate_left l2 rl rr p rp .B hl2 hrrr]
            exact (llrb_black _ _ _ _).mpr
              ⟨k, rfl, (llrb_red _ _ _ _).mpr ⟨h2, hrlk, hl2, hrl⟩, hrrk, hrrr⟩
          | true =>
            obtain ⟨a, ap, b, rfl⟩ := red_cases l2 hl2
            have ha : is_red a = false := ((llrb_red _ _ _ _).mp h2).2.2.1
            rw [re_balance_flip a b rl rr p ap rp .B ha]
            simp only [RBTUtils.flip]
            exact (llrb_red _ _ _ _).mpr ⟨llrb_toggle_red _ _ _ _ h2,
              (llrb_black _ _ _ _).mpr ⟨k, rfl, hrlk, hrrk, hrrr⟩, rfl, rfl⟩

theorem get_inorder_lean_left (b : Bool) (t : Tree) :
    get_inorder (if b = true then move_left t else t) = get_inorder t := by
  cases b
  · rfl
  · exact get_inorder_move_left t

theorem deletable_ne_nil (t : Tree) (n : Nat) (h : deletable t n) :
    ∃ l p c r, t = .node l p c r := by
  rcases t with _ | ⟨l, p, c, r⟩
  · exact h.elim
  · exact ⟨l, p, c, r, rfl⟩

theorem min_node_head (t : Tree) : ∀ q rest, get_inorder t = q :: rest → min_node t = .ok q := by
  induction t with
  | nil => intro q rest h; cases h
  | node l p c r ihl _ =>
    intro q rest h
    rcases l with _ | ⟨ll, lp, lc, lr⟩
    · simp only [get_inorder, List.nil_append, List.cons.injEq] at h
      rw [← h.1]
      rfl
    · simp only [min_node]
      cases hl : get_inorder (.node ll lp lc lr) with
      | nil => simp [get_inorder] at hl
      | cons x xs =>
        rw [get_inorder, hl] at h
        simp only [List.cons_append, List.cons.injEq] at h
        rw [← h.1]
        exact ihl x xs hl

theorem delete_min_left (fuel : Nat) (ll lr r l1 r1 : Tree) (lp p p1 : Nat) (lc c c1 : Color)
    (hz : (if (!is_red (.node ll lp lc lr) && !is_red ll) = true
        then move_left (.node (.node ll lp lc lr) p c r)
        else .node (.node ll lp lc lr) p c r) = .node l1 p1 c1 r1) :
    delete_min (fuel + 1) (.node (.node ll lp lc lr) p c r) =
      (do let (l2, xc) ← delete_min fuel l1
          pure (re_balance (.node l2 p1 c1 r1), xc)) := by
  simp only [delete_min]
  rw [hz]

theorem delete_by_id_node_left (m : Mem) (fuel : Nat) (ll lr r l1 r1 : Tree) (lp p p1 : Nat)
    (lc c c1 : Color) (id : Int) (hlt : id < key m p)
    (hz : (if (!is_red (.node ll lp lc lr) && !is_red ll) = true
        then move_left (.node (.node ll lp lc lr) p c r)
        else .node (.node ll lp lc lr) p c r) = .node l1 p1 c1 r1) :
    delete_by_id_node m (fuel + 1) (.node (.node ll lp lc lr) p c r) id =
      (do let l2 ← delete_by_id_node m fuel l1 id
          pure (re_balance (.node l2 p1 c1 r1))) := by
  unfold key at hlt
  simp only [delete_by_id_node]
  rw [if_pos hlt]
  cases hl : is_red (.node ll lp lc lr) with
  | true =>
    rw [hl] at hz
    simp only [Bool.not_true, Bool.false_and, Bool.false_eq_true, if_false] at hz
    simp only [Bool.not_true, Bool.false_eq_true, if_false, bind, Except.bind, pure, Except.pure]
    cases hz
    rfl
  | false =>
    rw [hl] at hz
    simp only [Bool.not_false, Bool.true_and] at hz
    simp only [Bool.not_false, if_true, is_red_left_of, bind, Except.bind, pure, Except.pure]
    rw [hz]

theorem bst_order_congr (m : Mem) (t t1 : Tree) (h : get_inorder t1 = get_inorder t)
    (hb : bst_order m t) : bst_order m t1 := by
  unfold bst_order keys at *
  rw [h]
  exact hb

theorem size_congr (t t1 : Tree) (h : get_inorder t1 = get_inorder t) : size t1 = size t := by
  rw [size_eq_length, size_eq_length, h]

/-- Head of the in-order sequence of a tree with a non-empty left subtree. -/
theorem get_inorder_head (l r : Tree) (p q : Nat) (c : Color) (rest : List Nat)
    (hl : l ≠ .nil) (h : get_inorder (.node l p c r) = q :: rest) :
    ∃ rest1, get_inorder l = q :: rest1 ∧ rest = rest1 ++ p :: get_inorder r := by
  cases hi : get_inorder l with
  | nil =>
    rcases l with _ | ⟨a, b, c, d⟩
    · exact (hl rfl).elim
    · simp [get_inorder] at hi
  | cons x xs =>
    rw [get_inorder, hi] at h
    simp only [List.cons_append, List.cons.injEq] at h
    exact ⟨xs, by rw [h.1], h.2.symm⟩

/-- `delete_by_id` at the smallest ride number of a subtree the descent may reach:
the call returns, the leftmost node is unlinked, and the subtree stays balanced at
the same black height. -/
theorem delete_by_id_node_min (m : Mem) : ∀ (fuel : Nat) (t : Tree) (n q : Nat)
    (rest : List Nat), size t < fuel → deletable t n → bst_order m t →
    get_inorder t = q :: rest →
    ∃ t1, delete_by_id_node m fuel t (key m q) = .ok t1 ∧ get_inorder t1 = rest ∧
      llrb t1 n ∧ (is_red t = false → is_red t1 = false) := by
  intro fuel
  induction fuel with
  | zero => intro t n q rest hs; omega
  | succ fuel ih =>
    intro t n q rest hs hd hb hi
    rcases t with _ | ⟨l, p, c, r⟩
    · exact hd.elim
    · rcases l with _ | ⟨ll, lp, lc, lr⟩
      · obtain ⟨hc, hl⟩ := hd
        have hc : c = .R := by
          rcases hc with hc | hc
          · exact hc
          · simp [is_red_nil] at hc
        subst hc
        rw [llrb_red] at hl
        obtain ⟨h1, h2, _, h4⟩ := hl
        rw [llrb_nil] at h1
        subst h1
        have hr := llrb_not_red_zero r h2 h4
        subst hr
        simp only [get_inorder, List.nil_append, List.cons.injEq] at hi
        obtain ⟨rfl, rfl⟩ := hi
        refine ⟨.nil, ?_, rfl, (llrb_nil 0).mpr rfl, fun hh => by simp [is_red_red] at hh⟩
        simp [delete_by_id_node, key, is_red_nil]
        rfl
      · obtain ⟨l1, p1, c1, r1, h1, hz, hd1, hp1, hk⟩ := descend_left ll lr r lp p lc c n hd
        have hiz := get_inorder_lean_left (!is_red (.node ll lp lc lr) && !is_red ll)
          (.node (.node ll lp lc lr) p c r)
        rw [hz] at hiz
        obtain ⟨rest0, hq0, -⟩ := get_inorder_head _ r p q c rest (by simp) hi
        have hbz := bst_order_congr m _ _ hiz hb
        rw [bst_order_node] at hbz hb
        obtain ⟨a, b, c2, d, rfl⟩ := deletable_ne_nil l1 h1 hd1
        obtain ⟨rest1, hq1, hrest⟩ := get_inorder_head _ r1 p1 q c1 rest (by simp)
          (hiz.trans hi)
        have hlt : key m q < key m p := by
          apply hb.2.2.1
          unfold keys
          rw [hq0]
          exact List.mem_map_of_mem _ (List.mem_cons_self _ _)
        have hsz := size_congr _ _ hiz
        simp only [size] at hsz hs
        obtain ⟨t2, e1, e2, e3, e4⟩ := ih (.node a b c2 d) h1 q rest1
          (by simp only [size]; omega) hd1 hbz.1 hq1
        rw [delete_by_id_node_left m fuel ll lr r _ r1 lp p p1 lc c c1 _ hlt hz, e1]
        obtain ⟨k1, k2⟩ := hk t2 e3 e4
        refine ⟨_, rfl, ?_, k1, ?_⟩
        · rw [get_inorder_re_balance, get_inorder, e2, hrest]
        · intro hh
          apply k2
          cases c
          · simp [is_red_red] at hh
          · rfl

/-- `delete_min` on a subtree the descent may reach: the call returns and unlinks
the leftmost node, the one `min_node` returns. -/
theorem delete_min_spec : ∀ (fuel : Nat) (t : Tree) (n : Nat), size t < fuel →
    deletable t n →
    ∃ t1 q xc, delete_min fuel t = .ok (t1, xc) ∧ min_node t = .ok q ∧
      get_inorder t = q :: get_inorder t1 := by
  intro fuel
  induction fuel with
  | zero => intro t n hs; omega
  | succ fuel ih =>
    intro t n hs hd
    rcases t with _ | ⟨l, p, c, r⟩
    · exact hd.elim
    · rcases l with _ | ⟨ll, lp, lc, lr⟩
      · obtain ⟨hc, hl⟩ := hd
        have hc : c = .R := by
          rcases hc with hc | hc
          · exact hc
          · simp [is_red_nil] at hc
        subst hc
        rw [llrb_red] at hl
        obtain ⟨h1, h2, _, h4⟩ := hl
        rw [llrb_nil] at h1
        subst h1
        have hr := llrb_not_red_zero r h2 h4
        subst hr
        exact ⟨.nil, p, .R, rfl, rfl, rfl⟩
      · obtain ⟨l1, p1, c1, r1, h1, hz, hd1, -, -⟩ := descend_left ll lr r lp p lc c n hd
        have hiz := get_inorder_lean_left (!is_red (.node ll lp lc lr) && !is_red ll)
          (.node (.node ll lp lc lr) p c r)
        rw [hz] at hiz
        have hsz := size_congr _ _ hiz
        simp only [size] at hsz hs
        obtain ⟨t2, q, xc, e1, e2, e3⟩ := ih l1 h1 (by omega) hd1
        rw [delete_min_left fuel ll lr r l1 r1 lp p p1 lc c c1 hz, e1]
        have hi : get_inorder (.node (.node ll lp lc lr) p c r)
            = q :: get_inorder (re_balance (.node t2 p1 c1 r1)) := by
          rw [← hiz, get_inorder_re_balance, get_inorder, get_inorder, e3]
          rfl
        exact ⟨_, q, xc, rfl, min_node_head _ _ _ hi, hi⟩

theorem delete_by_id_node_leaf (m : Mem) (fuel p : Nat) (c : Color) :
    delete_by_id_node m (fuel + 1) (.node .nil p c .nil) (key m p) = .ok .nil := by
  simp [delete_by_id_node, key, is_red_nil]
  rfl

theorem delete_by_id_node_right (m : Mem) (fuel : Nat) (l r l1 rl rr l2 r2 : Tree)
    (p p1 rp p2 : Nat) (c c1 rc c2 : Color) (id : Int) (hge : ¬ id < key m p)
    (hz1 : (if is_red l = true then rotate_right (.node l p c r) else .node l p c r)
      = .node l1 p1 c1 (.node rl rp rc rr))
    (hz2 : (if (!is_red (.node rl rp rc rr) && !is_red rl) = true
        then move_right (.node l1 p1 c1 (.node rl rp rc rr))
        else .ok (.node l1 p1 c1 (.node rl rp rc rr))) = .ok (.node l2 p2 c2 r2)) :
    delete_by_id_node m (fuel + 1) (.node l p c r) id =
      if id = key m p2 then
        (do let x ← min_node r2
            let (r3, xc) ← delete_min (size r2 + 1) r2
            pure (re_balance (.node l2 x xc r3)))
      else
        (do let r3 ← delete_by_id_node m fuel r2 id
            pure (re_balance (.node l2 p2 c2 r3))) := by
  unfold key at hge
  simp only [delete_by_id_node]
  rw [if_neg hge, hz1]
  simp only [reduceCtorEq, and_false, if_false]
  cases hr : is_red (.node rl rp rc rr) with
  | true =>
    rw [hr] at hz2
    simp only [Bool.not_true, Bool.false_and, Bool.false_eq_true, if_false] at hz2
    cases hz2
    simp only [Bool.not_true, Bool.false_eq_true, if_false, bind, Except.bind, pure,
      Except.pure, key]
  | false =>
    rw [hr] at hz2
    simp only [Bool.not_false, Bool.true_and] at hz2
    simp only [Bool.not_false, if_true, is_red_left_of, bind, Except.bind, pure, Except.pure]
    rw [hz2]
    simp only [key]

/-- The step to the right child in `delete_by_id`, taken when `id` is not below the
ride number of the node: either the node is a leaf, or the node the search goes on
from after `rotate_right` and `move_right`, with the shape of its right child. -/
theorem descend_right (m : Mem) (id : Int) (l r : Tree) (p : Nat) (c : Color)
    (hd : deletable_at m id (.node l p c r)) (hge : key m p ≤ id)
    (hb : bst_order m (.node l p c r)) :
    (l = .nil ∧ r = .nil) ∨
    ∃ l1 p1 c1 rl rp rc rr l2 p2 c2 r2,
      (if is_red l = true then rotate_right (.node l p c r) else .node l p c r)
        = .node l1 p1 c1 (.node rl rp rc rr) ∧
      (if (!is_red (.node rl rp rc rr) && !is_red rl) = true
        then move_right (.node l1 p1 c1 (.node rl rp rc rr))
        else .ok (.node l1 p1 c1 (.node rl rp rc rr))) = .ok (.node l2 p2 c2 r2) ∧
      get_inorder (.node l2 p2 c2 r2) = get_inorder (.node l p c r) ∧
      ((p2 = p ∧ ∃ h, deletable r2 h) ∨ (key m p2 < key m p ∧ deletable_at m id r2)) := by
  rcases hd with ⟨n, hc, hn⟩ | ⟨rfl, hl, hr, _, k, hlk, hrk⟩
  · cases c with
    | B =>
      have hl : is_red l = true := by
        rcases hc with hc | hc
        · cases hc
        · exact hc
      obtain ⟨ll, lp, lr, rfl⟩ := red_cases l hl
      rw [llrb_black] at hn
      obtain ⟨k, rfl, hlk, hrk, hrr⟩ := hn
      rw [llrb_red] at hlk
      obtain ⟨g1, g2, g3, g4⟩ := hlk
      rw [bst_order_node] at hb
      refine Or.inr ⟨ll, lp, .B, lr, p, .R, r, ll, lp, .B, .node lr p .R r, ?_, ?_, ?_,
        Or.inr ⟨?_, Or.inl ⟨k, Or.inl rfl, (llrb_red _ _ _ _).mpr ⟨g2, hrk, g4, hrr⟩⟩⟩⟩
      · simp [is_red_red, rotate_right]
      · simp [is_red_red]
      · simp [get_inorder]
      · apply hb.2.2.1
        simp [keys, get_inorder]
    | R =>
      rw [llrb_red] at hn
      obtain ⟨hln, hrn, hlr, hrr⟩ := hn
      cases n with
      | zero =>
        exact Or.inl ⟨llrb_not_red_zero l hln hlr, llrb_not_red_zero r hrn hrr⟩
      | succ k =>
        obtain ⟨rl, rp, rr, rfl, hrlk, hrrk, hrrr⟩ := llrb_not_red_succ r k hrn hrr
        obtain ⟨ll, lp, lr, rfl, hllk, hlrk, hlrr⟩ := llrb_not_red_succ l k hln hlr
        rw [bst_order_node] at hb
        cases hrl : is_red rl with
        | true =>
          refine Or.inr ⟨.node ll lp .B lr, p, .R, rl, rp, .B, rr, .node ll lp .B lr, p, .R,
            .node rl rp .B rr, ?_, ?_, rfl,
            Or.inl ⟨rfl, k + 1, Or.inr hrl,
              (llrb_black _ _ _ _).mpr ⟨k, rfl, hrlk, hrrk, hrrr⟩⟩⟩
          · simp [is_red_black]
          · simp [is_red_black, hrl]
        | false =>
          cases hll : is_red ll with
          | true =>
            obtain ⟨a, ap, b, rfl⟩ := red_cases ll hll
            refine Or.inr ⟨.node (.node a ap .R b) lp .B lr, p, .R, rl, rp, .B, rr,
              .node a ap .B b, lp, .R,
              .node lr p .B (.node rl rp .R rr), ?_, ?_, ?_,
              Or.inr ⟨?_, Or.inr ⟨rfl, hlrr, rfl, hge, k, hlrk,
                (llrb_red _ _ _ _).mpr ⟨hrlk, hrrk, hrl, hrrr⟩⟩⟩⟩
            · simp [is_red_black]
            · simp [is_red_black, hrl, move_right, is_red_left_of, fix_colors, toggle_color,
                RBTUtils.flip, is_red_red, rotate_right, bind, Except.bind, pure, Except.pure]
            · simp [get_inorder]
            · apply hb.2.2.1
              simp [keys, get_inorder]
          | false =>
            refine Or.inr ⟨.node ll lp .B lr, p, .R, rl, rp, .B, rr, .node ll lp .R lr, p, .B,
              .node rl rp .R rr, ?_, ?_, ?_,
              Or.inl ⟨rfl, k, Or.inl rfl, (llrb_red _ _ _ _).mpr ⟨hrlk, hrrk, hrl, hrrr⟩⟩⟩
            · simp [is_red_black]
            · simp [is_red_black, hrl, hll, move_right, is_red_left_of, fix_colors,
                toggle_color, RBTUtils.flip, bind, Except.bind, pure, Except.pure]
            · simp [get_inorder]
  · obtain ⟨rl, rp, rr, rfl⟩ := red_cases r hr
    refine Or.inr ⟨l, p, .B, rl, rp, .R, rr, l, p, .B, .node rl rp .R rr, ?_, ?_, rfl,
      Or.inl ⟨rfl, k, Or.inl rfl, hrk⟩⟩
    · simp [hl]
    · simp [is_red_red]

theorem mem_left_of_lt (m : Mem) (l r : Tree) (p : Nat) (c : Color) (id : Int)
    (hb : bst_order m (.node l p c r)) (hm : id ∈ keys m (.node l p c r))
    (hlt : id < key m p) : id ∈ keys m l := by
  rw [bst_order_node] at hb
  rw [keys_node] at hm
  simp only [List.mem_append, List.mem_cons] at hm
  rcases hm with hm | hm | hm
  · exact hm
  · omega
  · have := hb.2.2.2 id hm
    omega

theorem mem_right_of_gt (m : Mem) (l r : Tree) (p : Nat) (c : Color) (id : Int)
    (hb : bst_order m (.node l p c r)) (hm : id ∈ keys m (.node l p c r))
    (hlt : key m p < id) : id ∈ keys m r := by
  rw [bst_order_node] at hb
  rw [keys_node] at hm
  simp only [List.mem_append, List.mem_cons] at hm
  rcases hm with hm | hm | hm
  · have := hb.2.2.1 id hm
    omega
  · omega
  · exact hm

/-- The recursive `delete_by_id` on a subtree the search may reach, for a ride
number that is in the subtree: the call returns, and the in-order sequence of nodes
of the result is the one before with the node of that ride number taken out. -/
theorem delete_by_id_node_spec (m : Mem) : ∀ (fuel : Nat) (t : Tree) (id : Int),
    size t < fuel → deletable_at m id t → bst_order m t → id ∈ keys m t →
    ∃ t1 pre q post, delete_by_id_node m fuel t id = .ok t1 ∧
      get_inorder t = pre ++ q :: post ∧ key m q = id ∧ get_inorder t1 = pre ++ post := by
  intro fuel
  induction fuel with
  | zero => intro t id hs; omega
  | succ fuel ih =>
    intro t id hs hd hb hm
    rcases t with _ | ⟨l, p, c, r⟩
    · exact hd.elim
    · by_cases hlt : id < key m p
      · have hml := mem_left_of_lt m l r p c id hb hm hlt
        rcases l with _ | ⟨ll, lp, lc, lr⟩
        · simp [keys, get_inorder] at hml
        · have hdn : ∃ n, deletable (.node (.node ll lp lc lr) p c r) n := by
            rcases hd with hd | ⟨_, _, _, hge, _⟩
            · exact hd
            · omega
          obtain ⟨n, hdn⟩ := hdn
          obtain ⟨l1, p1, c1, r1, h1, hz, hd1, hp1, -⟩ := descend_left ll lr r lp p lc c n hdn
          have hiz := get_inorder_lean_left (!is_red (.node ll lp lc lr) && !is_red ll)
            (.node (.node ll lp lc lr) p c r)
          rw [hz] at hiz
          have hbz := bst_order_congr m _ _ hiz hb
          have hmz : id ∈ keys m (.node l1 p1 c1 r1) := by
            unfold keys at hm ⊢
            rw [hiz]
            exact hm
          have hlt1 : id < key m p1 := by
            rcases hp1 with rfl | hp1
            · exact hlt
            · have := ((bst_order_node m l1 p1 c1 r1).mp hbz).2.2.1 (key m p)
                (List.mem_map_of_mem _ hp1)
              omega
          have hml1 := mem_left_of_lt m l1 r1 p1 c1 id hbz hmz hlt1
          obtain ⟨a, b, c2, d, rfl⟩ := deletable_ne_nil l1 h1 hd1
          have hsz := size_congr _ _ hiz
          simp only [size] at hsz hs
          obtain ⟨t2, pre, q, post, e1, e2, e3, e4⟩ := ih (.node a b c2 d) id
            (by simp only [size]; omega) (Or.inl ⟨h1, hd1⟩)
            ((bst_order_node m _ p1 c1 r1).mp hbz).1 hml1
          rw [delete_by_id_node_left m fuel ll lr r _ r1 lp p p1 lc c c1 id hlt hz, e1]
          refine ⟨_, pre, q, post ++ p1 :: get_inorder r1, rfl, ?_, e3, ?_⟩
          · rw [← hiz, get_inorder, e2]
            simp
          · rw [get_inorder_re_balance, get_inorder, e4]
            simp
      · have hge : key m p ≤ id := by omega
        rcases descend_right m id l r p c hd hge hb with ⟨rfl, rfl⟩ |
          ⟨l1, p1, c1, rl, rp, rc, rr, l2, p2, c2, r2, hz1, hz2, hiz, hcase⟩
        · have hid : id = key m p := by
            simpa [keys, get_inorder] using hm
          subst hid
          exact ⟨.nil, [], p, [], delete_by_id_node_leaf m fuel p c, rfl, rfl, rfl⟩
        · rw [delete_by_id_node_right m fuel l r l1 rl rr l2 r2 p p1 rp p2 c c1 rc c2 id hlt
            hz1 hz2]
          have hbz := bst_order_congr m _ _ hiz hb
          have hmz : id ∈ keys m (.node l2 p2 c2 r2) := by
            unfold keys at hm ⊢
            rw [hiz]
            exact hm
          by_cases hid : id = key m p2
          · rw [if_pos hid]
            have hdr : ∃ h, deletable r2 h := by
              rcases hcase with ⟨_, hdr⟩ | ⟨hk, _⟩
              · exact hdr
              · omega
            obtain ⟨h, hdr⟩ := hdr
            obtain ⟨t2, q, xc, e1, e2, e3⟩ := delete_min_spec (size r2 + 1) r2 h
              (Nat.lt_succ_self _) hdr
            rw [e2, e1]
            refine ⟨_, get_inorder l2, p2, get_inorder r2, rfl, ?_, hid.symm, ?_⟩
            · rw [← hiz, get_inorder]
            · show get_inorder (re_balance (.node l2 q xc t2)) = _
              rw [get_inorder_re_balance, get_inorder, e3]
          · rw [if_neg hid]
            have hdr : deletable_at m id r2 := by
              rcases hcase with ⟨_, h, hdr⟩ | ⟨_, hdr⟩
              · obtain ⟨a, b, c3, d, rfl⟩ := deletable_ne_nil r2 h hdr
                exact Or.inl ⟨h, hdr⟩
              · exact hdr
            have hgt : key m p2 < id := by
              rcases hcase with ⟨rfl, _⟩ | ⟨hk, _⟩
              · omega
              · omega
            have hmr := mem_right_of_gt m l2 r2 p2 c2 id hbz hmz hgt
            have hsz := size_congr _ _ hiz
            simp only [size] at hsz hs
            obtain ⟨t2, pre, q, post, e1, e2, e3, e4⟩ := ih r2 id (by omega) hdr
              ((bst_order_node m l2 p2 c2 r2).mp hbz).2.1 hmr
            rw [e1]
            refine ⟨_, get_inorder l2 ++ p2 :: pre, q, post, rfl, ?_, e3, ?_⟩
            · rw [← hiz, get_inorder, e2]
              simp
            · show get_inorder (re_balance (.node l2 p2 c2 t2)) = _
              rw [get_inorder_re_balance, get_inorder, e4]
              simp

theorem get_inorder_redden (t : Tree) : get_inorder (redden t) = get_inorder t := by
  cases t <;> rfl

/-- The node the public `delete_by_id` hands to the recursive one. -/
theorem root_deletable (l r : Tree) (p n : Nat) (c : Color) (h : llrb (.node l p c r) n) :
    ∃ k, deletable (if (!is_red l && !is_red r) = true then redden (.node l p c r)
      else .node l p c r) k := by
  cases c with
  | R =>
    have h1 := (llrb_red _ _ _ _).mp h
    refine ⟨n, ?_⟩
    rw [h1.2.2.1, h1.2.2.2]
    exact ⟨Or.inl rfl, h⟩
  | B =>
    obtain ⟨k, rfl, hl, hr, hrr⟩ := (llrb_black _ _ _ _).mp h
    rw [hrr]
    cases hlr : is_red l with
    | true => exact ⟨k + 1, Or.inr hlr, h⟩
    | false => exact ⟨k, Or.inl rfl, (llrb_red _ _ _ _).mpr ⟨hl, hr, hlr, hrr⟩⟩

theorem delete_by_id_eq (m : Mem) (l r : Tree) (p : Nat) (c : Color) (f : Bool) (id : Int)
    (rt : Tree)
    (hrt : (if (!is_red l && !is_red r) = true then redden (.node l p c r)
      else .node l p c r) = rt) :
    delete_by_id m ⟨.node l p c r, f⟩ id =
      (do let root1 ← delete_by_id_node m (size rt + 1) rt id
          pure ⟨root1, f⟩) := by
  subst hrt
  rfl

theorem bst_order_remove (m : Mem) (t t1 : Tree) (pre post : List Nat) (q : Nat)
    (h : get_inorder t = pre ++ q :: post) (h1 : get_inorder t1 = pre ++ post)
    (hb : bst_order m t) : bst_order m t1 := by
  unfold bst_order keys at *
  rw [h] at hb
  rw [h1]
  refine List.Pairwise.sublist ?_ hb
  exact List.Sublist.map _ (List.Sublist.append_left (List.sublist_cons_self q post) pre)

/-- C11: when the key index satisfies invariants (a) to (e) and `id` is the ride number
of one of its nodes, `RBTUtils::delete_by_id(id)` returns, and the in-order sequence
of nodes of the tree after the call is the sequence before the call with exactly the
node of ride number `id` taken out; the remaining nodes are the same objects in the
same order, read from the same unchanged arena `m` (the call relinks nodes and
writes no ride number, cost, duration or heap index), and their ride numbers are
still strictly ascending. -/
theorem C11_delete_removes_only_target (m : Mem) (t : RBTUtils) (id : Int)
    (hinv : RBTUtils.invariants m t.root) (hmem : id ∈ RBTUtils.keys m t.root) :
    ∃ t1 pre q post, RBTUtils.delete_by_id m t id = .ok t1 ∧
      get_inorder t.root = pre ++ q :: post ∧ key m q = id ∧
      get_inorder t1.root = pre ++ post ∧
      (get_inorder t1.root).map (rd m) = (pre ++ post).map (rd m) ∧
      RBTUtils.bst_order m t1.root := by
  obtain ⟨root, f⟩ := t
  simp only at hinv hmem ⊢
  rw [invariants_iff] at hinv
  obtain ⟨hb, _, n, hn⟩ := hinv
  rcases root with _ | ⟨l, p, c, r⟩
  · simp [keys, get_inorder] at hmem
  · obtain ⟨k, hk⟩ := root_deletable l r p n c hn
    generalize hrt : (if (!is_red l && !is_red r) = true then redden (.node l p c r)
      else .node l p c r) = rt at hk
    have hi : get_inorder rt = get_inorder (.node l p c r) := by
      rw [← hrt]
      split_ifs
      · exact get_inorder_redden _
      · rfl
    obtain ⟨a, b, c3, d, rfl⟩ := deletable_ne_nil rt k hk
    obtain ⟨t1, pre, q, post, e1, e2, e3, e4⟩ := delete_by_id_node_spec m
      (size (.node a b c3 d) + 1) (.node a b c3 d) id (Nat.lt_succ_self _) (Or.inl ⟨k, hk⟩)
      (bst_order_congr m _ _ hi hb) (by unfold keys at hmem ⊢; rw [hi]; exact hmem)
    rw [delete_by_id_eq m l r p c f id _ hrt, e1]
    refine ⟨⟨t1, f⟩, pre, q, post, rfl, by rw [← hi, e2], e3, e4, by rw [e4], ?_⟩
    exact bst_order_remove m _ t1 pre post q (hi ▸ e2) e4 hb

/-- Witness of `C11_delete_removes_only_target`: ride 5 is deleted from the tree of
the rides 5, 3, 9, 7, where it has a right subtree and is replaced by its successor
7. -/
theorem C11_delete_removes_only_target_witness :
    ∃ t1 pre q post,
      RBTUtils.delete_by_id [⟨5, 1, 1, 0⟩, ⟨3, 1, 1, 0⟩, ⟨9, 1, 1, 0⟩, ⟨7, 1, 1, 0⟩]
        (RBTUtils.insert_all [⟨5, 1, 1, 0⟩, ⟨3, 1, 1, 0⟩, ⟨9, 1, 1, 0⟩, ⟨7, 1, 1, 0⟩]
          [0, 1, 2, 3] (RBTUtils.init false)).1 5 = .ok t1 ∧
      get_inorder (RBTUtils.insert_all [⟨5, 1, 1, 0⟩, ⟨3, 1, 1, 0⟩, ⟨9, 1, 1, 0⟩, ⟨7, 1, 1, 0⟩]
          [0, 1, 2, 3] (RBTUtils.init false)).1.root = pre ++ q :: post ∧
      key [⟨5, 1, 1, 0⟩, ⟨3, 1, 1, 0⟩, ⟨9, 1, 1, 0⟩, ⟨7, 1, 1, 0⟩] q = 5 ∧
      get_inorder t1.root = pre ++ post ∧
      (get_inorder t1.root).map (rd [⟨5, 1, 1, 0⟩, ⟨3, 1, 1, 0⟩, ⟨9, 1, 1, 0⟩, ⟨7, 1, 1, 0⟩])
        = (pre ++ post).map (rd [⟨5, 1, 1, 0⟩, ⟨3, 1, 1, 0⟩, ⟨9, 1, 1, 0⟩, ⟨7, 1, 1, 0⟩]) ∧
      RBTUtils.bst_order [⟨5, 1, 1, 0⟩, ⟨3, 1, 1, 0⟩, ⟨9, 1, 1, 0⟩, ⟨7, 1, 1, 0⟩] t1.root :=
  C11_delete_removes_only_target [⟨5, 1, 1, 0⟩, ⟨3, 1, 1, 0⟩, ⟨9, 1, 1, 0⟩, ⟨7, 1, 1, 0⟩]
    (RBTUtils.insert_all [⟨5, 1, 1, 0⟩, ⟨3, 1, 1, 0⟩, ⟨9, 1, 1, 0⟩, ⟨7, 1, 1, 0⟩]
      [0, 1, 2, 3] (RBTUtils.init false)).1 5 (by decide) (by decide)

/-- `RBTUtils::delete_by_id` at the smallest ride number of a balanced tree, the root
of either colour: the call returns, the first node of the in-order sequence is gone,
and the tree is balanced again. -/
theorem delete_by_id_min (m : Mem) (t : RBTUtils) (q : Nat) (rest : List Nat)
    (hb : bst_order m t.root) (hl : ∃ n, llrb t.root n)
    (hi : get_inorder t.root = q :: rest) :
    ∃ t1, delete_by_id m t (key m q) = .ok t1 ∧ get_inorder t1.root = rest ∧
      bst_order m t1.root ∧ (∃ n, llrb t1.root n) ∧ t1.failure = t.failure := by
  obtain ⟨root, f⟩ := t
  simp only at hb hl hi ⊢
  obtain ⟨n, hn⟩ := hl
  rcases root with _ | ⟨l, p, c, r⟩
  · cases hi
  · obtain ⟨k, hk⟩ := root_deletable l r p n c hn
    generalize hrt : (if (!is_red l && !is_red r) = true then redden (.node l p c r)
      else .node l p c r) = rt at hk
    have hirt : get_inorder rt = get_inorder (.node l p c r) := by
      rw [← hrt]
      split_ifs
      · exact get_inorder_redden _
      · rfl
    obtain ⟨t1, e1, e2, e3, -⟩ := delete_by_id_node_min m (size rt + 1) rt k q rest
      (Nat.lt_succ_self _) hk (bst_order_congr m _ _ hirt hb) (hirt.trans hi)
    rw [delete_by_id_eq m l r p c f (key m q) _ hrt, e1]
    refine ⟨⟨t1, f⟩, rfl, e2, ?_, ⟨k, e3⟩, rfl⟩
    exact bst_order_remove m _ t1 [] rest q hi e2 hb

/-- Deleting a prefix of the in-order ride numbers, smallest first. -/
theorem delete_all_prefix (m : Mem) : ∀ (pre : List Nat) (t : RBTUtils) (post : List Nat),
    bst_order m t.root → (∃ n, llrb t.root n) → get_inorder t.root = pre ++ post →
    ∃ t1, delete_all m (pre.map (key m)) t = .ok t1 ∧ get_inorder t1.root = post ∧
      bst_order m t1.root ∧ (∃ n, llrb t1.root n) ∧ t1.failure = t.failure := by
  intro pre
  induction pre with
  | nil =>
    intro t post hb hl hi
    exact ⟨t, rfl, hi, hb, hl, rfl⟩
  | cons x xs ih =>
    intro t post hb hl hi
    obtain ⟨t1, e1, e2, e3, e4, e5⟩ := delete_by_id_min m t x (xs ++ post) hb hl hi
    obtain ⟨t2, g1, g2, g3, g4, g5⟩ := ih t1 post e3 e4 e2
    refine ⟨t2, ?_, g2, g3, g4, g5.trans e5⟩
    simp only [List.map_cons, delete_all, e1, bind, Except.bind]
    exact g1

theorem insert_all_llrb (m : Mem) : ∀ (zs : List Nat) (t : RBTUtils),
    (∃ n, llrb t.root n) → is_red t.root = false →
    (∃ n, llrb (insert_all m zs t).1.root n) := by
  intro zs
  induction zs with
  | nil => intro t hl _; exact hl
  | cons z zs ih =>
    intro t hl hr
    obtain ⟨n, hn⟩ := hl
    have hroot : (RBTUtils.insert m t z).1.root = blacken (insert_node m t.root z t.failure).1 := by
      unfold RBTUtils.insert
      simp only
      split_ifs <;> rfl
    obtain ⟨hb1, hk⟩ := llrb_blacken _ n ((insert_node_llrb m z t.failure t.root n hn).1 hr)
    have := ih (RBTUtils.insert m t z).1 (by rw [hroot]; exact hk) (by rw [hroot]; exact hb1)
    simpa [insert_all] using this

/-- C19: insert nodes with pairwise distinct ride numbers one at a time into the empty
key index (for either value `failure` of the uninitialised member at start-up), then
call `RBTUtils::delete_by_id` on the ride numbers in ascending order, as
`test_rbt_sorted` does.  Before each call the ride numbers already deleted are gone
and the others are all there; the call returns (no empty link is dereferenced) and
removes exactly the smallest ride number.  After the last call the root is the empty
link, and inserting the same nodes again returns `true` at every insert.  So does
inserting any other nodes with pairwise distinct ride numbers, except when nothing
was inserted before and `failure` was set at start-up: the flag is then still
unread. -/
theorem C19_delete_all_ascending (m : Mem) (zs : List Nat) (failure : Bool)
    (hd : (zs.map (key m)).Nodup) :
    (∀ pre x post,
      RBTUtils.inorder m (RBTUtils.insert_all m zs (RBTUtils.init failure)).1
        = pre ++ x :: post →
      ∃ t1 t2,
        RBTUtils.delete_all m pre (RBTUtils.insert_all m zs (RBTUtils.init failure)).1
          = .ok t1 ∧
        RBTUtils.inorder m t1 = x :: post ∧
        RBTUtils.delete_by_id m t1 x = .ok t2 ∧ RBTUtils.inorder m t2 = post) ∧
    ∃ t3,
      RBTUtils.delete_all m
        (RBTUtils.inorder m (RBTUtils.insert_all m zs (RBTUtils.init failure)).1)
        (RBTUtils.insert_all m zs (RBTUtils.init failure)).1 = .ok t3 ∧
      t3.root = .nil ∧
      (RBTUtils.insert_all m zs t3).2 = true ∧
      ∀ zs2, (zs2.map (key m)).Nodup →
        (RBTUtils.insert_all m zs2 t3).2 = (!(failure && zs.isEmpty) || zs2.isEmpty) := by
  obtain ⟨-, hf, hb, -⟩ := insert_all_spec_flag m zs (RBTUtils.init failure)
    (by simp [RBTUtils.init, bst_order, keys, get_inorder]) hd
    (by simp [RBTUtils.init, keys, get_inorder])
  have hl := insert_all_llrb m zs (RBTUtils.init failure) ⟨0, (llrb_nil 0).mpr rfl⟩ rfl
  have hf0 : (RBTUtils.init failure).failure = failure := rfl
  rw [hf0] at hf
  generalize (RBTUtils.insert_all m zs (RBTUtils.init failure)).1 = T at hf hb hl
  constructor
  · intro pre x post hi
    unfold RBTUtils.inorder at hi
    obtain ⟨hpre, hrest, e0, rfl, e2⟩ := List.map_eq_append_iff.mp hi
    obtain ⟨q, hpost, rfl, rfl, rfl⟩ := List.map_eq_cons_iff.mp e2
    obtain ⟨t1, g1, g2, g3, g4, -⟩ := delete_all_prefix m hpre T (q :: hpost) hb hl e0
    obtain ⟨t2, k1, k2, -⟩ := delete_by_id_min m t1 q hpost g3 g4 g2
    exact ⟨t1, t2, g1, by simp [RBTUtils.inorder, g2], k1, by simp [RBTUtils.inorder, k2]⟩
  · obtain ⟨t3, g1, g2, g3, -, g5⟩ := delete_all_prefix m (get_inorder T.root) T [] hb hl
      (by simp)
    have hroot : t3.root = .nil := by
      rcases h : t3.root with _ | ⟨a, b, c, d⟩
      · rfl
      · rw [h] at g2
        simp [get_inorder] at g2
    have hflag : ∀ zs2, (zs2.map (key m)).Nodup →
        (RBTUtils.insert_all m zs2 t3).2 = (!(failure && zs.isEmpty) || zs2.isEmpty) := by
      intro zs2 hd2
      rw [(insert_all_spec_flag m zs2 t3 g3 hd2 (by simp [hroot, keys, get_inorder])).1,
        g5, hf]
    refine ⟨t3, g1, hroot, ?_, hflag⟩
    rw [hflag zs hd]
    cases failure <;> cases zs.isEmpty <;> rfl

/-- Witness of `C19_delete_all_ascending`: the rides 5, 3, 9, 7 inserted in this
order, with `failure` reading `true` at start-up. -/
theorem C19_delete_all_ascending_witness :
    (∀ pre x post,
      RBTUtils.inorder [⟨5, 1, 1, 0⟩, ⟨3, 1, 1, 0⟩, ⟨9, 1, 1, 0⟩, ⟨7, 1, 1, 0⟩]
        (RBTUtils.insert_all [⟨5, 1, 1, 0⟩, ⟨3, 1, 1, 0⟩, ⟨9, 1, 1, 0⟩, ⟨7, 1, 1, 0⟩]
          [0, 1, 2, 3] (RBTUtils.init true)).1 = pre ++ x :: post →
      ∃ t1 t2,
        RBTUtils.delete_all [⟨5, 1, 1, 0⟩, ⟨3, 1, 1, 0⟩, ⟨9, 1, 1, 0⟩, ⟨7, 1, 1, 0⟩] pre
          (RBTUtils.insert_all [⟨5, 1, 1, 0⟩, ⟨3, 1, 1, 0⟩, ⟨9, 1, 1, 0⟩, ⟨7, 1, 1, 0⟩]
            [0, 1, 2, 3] (RBTUtils.init true)).1 = .ok t1 ∧
        RBTUtils.inorder [⟨5, 1, 1, 0⟩, ⟨3, 1, 1, 0⟩, ⟨9, 1, 1, 0⟩, ⟨7, 1, 1, 0⟩] t1
          = x :: post ∧
        RBTUtils.delete_by_id [⟨5, 1, 1, 0⟩, ⟨3, 1, 1, 0⟩, ⟨9, 1, 1, 0⟩, ⟨7, 1, 1, 0⟩] t1 x
          = .ok t2 ∧
        RBTUtils.inorder [⟨5, 1, 1, 0⟩, ⟨3, 1, 1, 0⟩, ⟨9, 1, 1, 0⟩, ⟨7, 1, 1, 0⟩] t2 = post) ∧
    ∃ t3,
      RBTUtils.delete_all [⟨5, 1, 1, 0⟩, ⟨3, 1, 1, 0⟩, ⟨9, 1, 1, 0⟩, ⟨7, 1, 1, 0⟩]
        (RBTUtils.inorder [⟨5, 1, 1, 0⟩, ⟨3, 1, 1, 0⟩, ⟨9, 1, 1, 0⟩, ⟨7, 1, 1, 0⟩]
          (RBTUtils.insert_all [⟨5, 1, 1, 0⟩, ⟨3, 1, 1, 0⟩, ⟨9, 1, 1, 0⟩, ⟨7, 1, 1, 0⟩]
            [0, 1, 2, 3] (RBTUtils.init true)).1)
        (RBTUtils.insert_all [⟨5, 1, 1, 0⟩, ⟨3, 1, 1, 0⟩, ⟨9, 1, 1, 0⟩, ⟨7, 1, 1, 0⟩]
          [0, 1, 2, 3] (RBTUtils.init true)).1 = .ok t3 ∧
      t3.root = .nil ∧
      (RBTUtils.insert_all [⟨5, 1, 1, 0⟩, ⟨3, 1, 1, 0⟩, ⟨9, 1, 1, 0⟩, ⟨7, 1, 1, 0⟩] [0, 1, 2, 3] t3).2 = true ∧
      ∀ zs2, (zs2.map (key [⟨5, 1, 1, 0⟩, ⟨3, 1, 1, 0⟩, ⟨9, 1, 1, 0⟩, ⟨7, 1, 1, 0⟩])).Nodup →
        (RBTUtils.insert_all [⟨5, 1, 1, 0⟩, ⟨3, 1, 1, 0⟩, ⟨9, 1, 1, 0⟩, ⟨7, 1, 1, 0⟩] zs2 t3).2
          = true :=
  C19_delete_all_ascending [⟨5, 1, 1, 0⟩, ⟨3, 1, 1, 0⟩, ⟨9, 1, 1, 0⟩, ⟨7, 1, 1, 0⟩]
    [0, 1, 2, 3] true (by decide)

/-! ## The loops of the model never run out of fuel -/

theorem bind_ne_fuel {α β : Type} (x : Res α) (f : α → Res β) (hx : x ≠ .error .fuel)
    (hf : ∀ a, x = .ok a → f a ≠ .error .fuel) : (x >>= f) ≠ .error .fuel := by
  cases x with
  | error e =>
    intro h
    apply hx
    simpa [bind, Except.bind] using h
  | ok a => exact hf a rfl

theorem get_ne_fuel (h : HeapUtils) (a : Int) : h.get a ≠ .error .fuel := by
  unfold HeapUtils.get
  split_ifs <;> simp

theorem put_ne_fuel (h : HeapUtils) (a : Int) (v : Option Nat) : h.put a v ≠ .error .fuel := by
  unfold HeapUtils.put
  split_ifs <;> simp

theorem deref_ne_fuel (o : Option Nat) : HeapUtils.deref o ≠ .error .fuel := by
  cases o <;> simp [HeapUtils.deref]

theorem less_ne_fuel (m : Mem) (h : HeapUtils) (a b : Int) :
    HeapUtils.less m h a b ≠ .error .fuel := by
  unfold HeapUtils.less
  refine bind_ne_fuel _ _ (get_ne_fuel _ _) fun pa _ => ?_
  refine bind_ne_fuel _ _ (get_ne_fuel _ _) fun pb _ => ?_
  refine bind_ne_fuel _ _ (deref_ne_fuel _) fun qa _ => ?_
  refine bind_ne_fuel _ _ (deref_ne_fuel _) fun qb _ => ?_
  simp [pure, Except.pure]

theorem less_inv (m : Mem) (h : HeapUtils) (a b : Int) (c : Bool)
    (hl : HeapUtils.less m h a b = .ok c) : 0 ≤ a ∧ 0 ≤ b := by
  unfold HeapUtils.less at hl
  cases h1 : h.get a with
  | error e => rw [h1] at hl; cases hl
  | ok pa =>
    cases h2 : h.get b with
    | error e => rw [h1, h2] at hl; cases hl
    | ok pb => exact ⟨(get_inv h a pa h1).1, (get_inv h b pb h2).1⟩

theorem swap_nodes_ne_fuel (m : Mem) (h : HeapUtils) (a b : Int) :
    HeapUtils.swap_nodes m h a b ≠ .error .fuel := by
  unfold HeapUtils.swap_nodes
  refine bind_ne_fuel _ _ (get_ne_fuel _ _) fun pa _ => ?_
  refine bind_ne_fuel _ _ (get_ne_fuel _ _) fun pb _ => ?_
  refine bind_ne_fuel _ _ (put_ne_fuel _ _ _) fun h1 _ => ?_
  refine bind_ne_fuel _ _ (put_ne_fuel _ _ _) fun h2 _ => ?_
  refine bind_ne_fuel _ _ (get_ne_fuel _ _) fun na _ => ?_
  refine bind_ne_fuel _ _ (get_ne_fuel _ _) fun nb _ => ?_
  refine bind_ne_fuel _ _ (deref_ne_fuel _) fun qa _ => ?_
  refine bind_ne_fuel _ _ (deref_ne_fuel _) fun qb _ => ?_
  simp [pure, Except.pure]

/-- The fuel `x + 1` of `fix_heap_up` is enough: the index halves in every round. -/
theorem fix_heap_up_loop_ne_fuel : ∀ (fuel : Nat) (m : Mem) (h : HeapUtils) (x : Int),
    x.toNat < fuel → HeapUtils.fix_heap_up_loop fuel m h x ≠ .error .fuel := by
  intro fuel
  induction fuel with
  | zero => intro m h x hx; omega
  | succ fuel ih =>
    intro m h x hx
    unfold HeapUtils.fix_heap_up_loop
    split_ifs with h0
    · refine bind_ne_fuel _ _ (less_ne_fuel _ _ _ _) fun c _ => ?_
      cases c with
      | true =>
        simp only [if_true]
        refine bind_ne_fuel _ _ (swap_nodes_ne_fuel _ _ _ _) fun r _ => ?_
        exact ih r.1 r.2 (x / 2) (by omega)
      | false => simp [pure, Except.pure]
    · simp [pure, Except.pure]

/-- The fuel `sz + 2` of `fix_heap_down` is enough: the index grows in every round
and stays at most `sz`. -/
theorem fix_heap_down_loop_ne_fuel : ∀ (fuel : Nat) (m : Mem) (h : HeapUtils) (x : Int),
    0 < fuel → (0 ≤ x → (h.sz - x).toNat < fuel) →
    HeapUtils.fix_heap_down_loop fuel m h x ≠ .error .fuel := by
  intro fuel
  induction fuel with
  | zero => intro m h x hx; omega
  | succ fuel ih =>
    intro m h x _ hx
    unfold HeapUtils.fix_heap_down_loop
    split_ifs with h0
    · simp only
      refine bind_ne_fuel _ _ ?_ fun c _ => ?_
      · split_ifs
        · exact less_ne_fuel _ _ _ _
        · simp [pure, Except.pure]
      refine bind_ne_fuel _ _ (less_ne_fuel _ _ _ _) fun b hb => ?_
      obtain ⟨hx0, hy0⟩ := less_inv _ _ _ _ _ hb
      cases b with
      | true => simp [pure, Except.pure]
      | false =>
        simp only [Bool.false_eq_true, if_false]
        refine bind_ne_fuel _ _ (swap_nodes_ne_fuel _ _ _ _) fun r hr => ?_
        obtain ⟨pa, pb, -, -, -, -, -, -, rfl⟩ := swap_nodes_inv _ _ _ _ _ hr
        have hx1 := hx hx0
        apply ih
        · omega
        · intro _
          show (h.sz - _).toNat < fuel
          split_ifs <;> omega
    · simp [pure, Except.pure]

theorem fix_heap_up_ne_fuel (m : Mem) (h : HeapUtils) (x : Int) :
    HeapUtils.fix_heap_up m h x ≠ .error .fuel :=
  fix_heap_up_loop_ne_fuel _ m h x (Nat.lt_succ_self _)

theorem fix_heap_down_ne_fuel (m : Mem) (h : HeapUtils) (x : Int) :
    HeapUtils.fix_heap_down m h x ≠ .error .fuel :=
  fix_heap_down_loop_ne_fuel _ m h x (by omega) (by intro _; omega)

theorem pop_min_ne_fuel (m : Mem) (h : HeapUtils) : HeapUtils.pop_min m h ≠ .error .fuel := by
  unfold HeapUtils.pop_min
  split_ifs
  · simp [pure, Except.pure]
  · refine bind_ne_fuel _ _ (get_ne_fuel _ _) fun ret _ => ?_
    refine bind_ne_fuel _ _ (swap_nodes_ne_fuel _ _ _ _) fun r _ => ?_
    refine bind_ne_fuel _ _ (put_ne_fuel _ _ _) fun h2 _ => ?_
    refine bind_ne_fuel _ _ (fix_heap_down_ne_fuel _ _ _) fun r2 _ => ?_
    simp [pure, Except.pure]

theorem heap_insert_ne_fuel (m : Mem) (h : HeapUtils) (x : Nat) :
    HeapUtils.insert m h x ≠ .error .fuel := by
  unfold HeapUtils.insert
  refine bind_ne_fuel _ _ (put_ne_fuel _ _ _) fun h2 _ => ?_
  exact fix_heap_up_ne_fuel _ _ _

theorem delete_by_index_ne_fuel (m : Mem) (h : HeapUtils) (ex : Int) :
    HeapUtils.delete_by_index m h ex ≠ .error .fuel := by
  unfold HeapUtils.delete_by_index
  refine bind_ne_fuel _ _ (swap_nodes_ne_fuel _ _ _ _) fun r _ => ?_
  exact fix_heap_down_ne_fuel _ _ _

/-- The fuel of `delete_min` is enough: the recursion goes to a subtree. -/
theorem delete_min_ne_fuel : ∀ (fuel : Nat) (t : Tree), size t < fuel →
    delete_min fuel t ≠ .error .fuel := by
  intro fuel
  induction fuel with
  | zero => intro t hs; omega
  | succ fuel ih =>
    intro t hs
    rcases t with _ | ⟨l, p, c, r⟩
    · simp [delete_min]
    · rcases l with _ | ⟨ll, lp, lc, lr⟩
      · simp [delete_min]
      · simp only [delete_min]
        have hiz := get_inorder_lean_left (!is_red (.node ll lp lc lr) && !is_red ll)
          (.node (.node ll lp lc lr) p c r)
        have hsz := size_congr _ _ hiz
        generalize (if (!is_red (.node ll lp lc lr) && !is_red ll) = true
          then move_left (.node (.node ll lp lc lr) p c r)
          else .node (.node ll lp lc lr) p c r) = z at hsz
        rcases z with _ | ⟨l1, p1, c1, r1⟩
        · simp
        · simp only
          simp only [size] at hsz hs
          refine bind_ne_fuel _ _ (ih l1 (by omega)) fun a _ => ?_
          simp [pure, Except.pure]

theorem is_red_left_of_ne_fuel (t : Tree) : is_red_left_of t ≠ .error .fuel := by
  cases t <;> simp [is_red_left_of]

theorem move_right_ne_fuel (t : Tree) : move_right t ≠ .error .fuel := by
  rcases t with _ | ⟨l, p, c, r⟩
  · simp [move_right]
  · simp only [move_right]
    split_ifs
    · simp
    · simp
    · refine bind_ne_fuel _ _ (is_red_left_of_ne_fuel _) fun rl _ => ?_
      split_ifs
      · simp [pure, Except.pure]
      · rcases fix_colors (.node l p c r) with _ | ⟨l1, p1, c1, r1⟩
        · simp
        · simp only
          refine bind_ne_fuel _ _ (is_red_left_of_ne_fuel _) fun ll _ => ?_
          split_ifs <;> simp [pure, Except.pure]

theorem min_node_ne_fuel (t : Tree) : min_node t ≠ .error .fuel := by
  induction t with
  | nil => simp [min_node]
  | node l p c r ihl _ =>
    rcases l with _ | ⟨ll, lp, lc, lr⟩
    · simp [min_node]
    · simpa [min_node] using ihl

theorem not_red_left_ne_fuel (c : Bool) (t : Tree) :
    (if c = true then (do let b ← is_red_left_of t; pure (!b)) else pure false : Res Bool)
      ≠ .error .fuel := by
  cases c with
  | true =>
    simp only [if_true]
    refine bind_ne_fuel _ _ (is_red_left_of_ne_fuel _) fun b _ => ?_
    simp [pure, Except.pure]
  | false => simp [pure, Except.pure]

/-- The fuel of the recursive `delete_by_id` is enough. -/
theorem delete_by_id_node_ne_fuel (m : Mem) : ∀ (fuel : Nat) (t : Tree) (id : Int),
    size t < fuel → delete_by_id_node m fuel t id ≠ .error .fuel := by
  intro fuel
  induction fuel with
  | zero => intro t id hs; omega
  | succ fuel ih =>
    intro t id hs
    rcases t with _ | ⟨l, p, c, r⟩
    · simp [delete_by_id_node]
    · simp only [delete_by_id_node]
      by_cases hlt : id < (rd m p).ride_number
      · rw [if_pos hlt]
        refine bind_ne_fuel _ _ (not_red_left_ne_fuel _ _) fun b _ => ?_
        have hsz := size_congr _ _ (get_inorder_lean_left b (.node l p c r))
        generalize (if b = true then move_left (.node l p c r) else .node l p c r) = z
          at hsz
        rcases z with _ | ⟨l1, p1, c1, r1⟩
        · simp
        · simp only
          simp only [size] at hsz hs
          refine bind_ne_fuel _ _ (ih l1 id (by omega)) fun a _ => ?_
          simp [pure, Except.pure]
      · rw [if_neg hlt]
        have hsz : size (if is_red l = true then rotate_right (.node l p c r)
            else .node l p c r) = size (.node l p c r) := by
          by_cases hl : is_red l = true
          · rw [if_pos hl]; exact size_rotate_right _
          · rw [if_neg hl]
        generalize (if is_red l = true then rotate_right (.node l p c r)
            else .node l p c r) = z at hsz
        rcases z with _ | ⟨l1, p1, c1, r1⟩
        · simp
        · simp only
          by_cases hleaf : id = (rd m p1).ride_number ∧ r1 = .nil
          · rw [if_pos hleaf]
            simp [pure, Except.pure]
          · rw [if_neg hleaf]
            refine bind_ne_fuel _ _ (not_red_left_ne_fuel _ _) fun b _ => ?_
            refine bind_ne_fuel _ _ ?_ fun z2 hz2 => ?_
            · cases b with
              | true => simpa using move_right_ne_fuel _
              | false => simp [pure, Except.pure]
            · have hsz2 : size z2 = size (.node l1 p1 c1 r1) := by
                cases b with
                | true => exact size_move_right _ _ (by simpa using hz2)
                | false =>
                  simp only [Bool.false_eq_true, if_false, pure, Except.pure] at hz2
                  cases hz2
                  rfl
              rcases z2 with _ | ⟨l2, p2, c2, r2⟩
              · simp
              · simp only
                simp only [size] at hsz hsz2 hs
                by_cases hid : id = (rd m p2).ride_number
                · rw [if_pos hid]
                  refine bind_ne_fuel _ _ (min_node_ne_fuel _) fun x _ => ?_
                  refine bind_ne_fuel _ _ (delete_min_ne_fuel _ _ (Nat.lt_succ_self _))
                    fun a _ => ?_
                  simp [pure, Except.pure]
                · rw [if_neg hid]
                  refine bind_ne_fuel _ _ (ih r2 id (by omega)) fun a _ => ?_
                  simp [pure, Except.pure]

theorem delete_by_id_ne_fuel (m : Mem) (t : RBTUtils) (id : Int) :
    delete_by_id m t id ≠ .error .fuel := by
  unfold delete_by_id
  rcases t.root with _ | ⟨l, p, c, r⟩
  · simp
  · simp only
    refine bind_ne_fuel _ _ (delete_by_id_node_ne_fuel m _ _ id (Nat.lt_succ_self _))
      fun a _ => ?_
    simp [pure, Except.pure]

theorem step_ne_fuel (s : HeapRBT) (c : Command) : step s c ≠ .error .fuel := by
  cases c with
  | Insert a b c =>
    simp only [step]
    refine bind_ne_fuel _ _ ?_ fun r _ => ?_
    · unfold HeapRBT.insert
      simp only
      split_ifs
      · simp [pure, Except.pure]
      · refine bind_ne_fuel _ _ (heap_insert_ne_fuel _ _ _) fun r _ => ?_
        simp [pure, Except.pure]
    · split_ifs <;> simp [pure, Except.pure]
  | Print a =>
    simp only [step]
    cases HeapRBT.print s a <;> simp [pure, Except.pure]
  | PrintRange a b =>
    simp only [step]
    cases HeapRBT.print_range s a b <;> simp [pure, Except.pure]
  | GetNextRide =>
    simp only [step]
    refine bind_ne_fuel _ _ ?_ fun r _ => ?_
    · unfold HeapRBT.get_next_ride
      refine bind_ne_fuel _ _ (pop_min_ne_fuel _ _) fun r _ => ?_
      obtain ⟨ride, m, h⟩ := r
      cases ride with
      | none => simp [pure, Except.pure]
      | some q =>
        simp only
        refine bind_ne_fuel _ _ (delete_by_id_ne_fuel _ _ _) fun t _ => ?_
        simp [pure, Except.pure]
    · obtain ⟨s1, o⟩ := r
      cases o <;> simp [pure, Except.pure]
  | CancelRide a =>
    simp only [step]
    refine bind_ne_fuel _ _ ?_ fun r _ => ?_
    · unfold HeapRBT.cancel_ride
      cases RBTUtils.get_node s.nodes s.toRBTUtils a with
      | none => simp [pure, Except.pure]
      | some ride =>
        simp only
        refine bind_ne_fuel _ _ (delete_by_index_ne_fuel _ _ _) fun r _ => ?_
        refine bind_ne_fuel _ _ (delete_by_id_ne_fuel _ _ _) fun t _ => ?_
        simp [pure, Except.pure]
    · simp [pure, Except.pure]
  | UpdateTrip a b =>
    simp only [step]
    refine bind_ne_fuel _ _ ?_ fun r _ => ?_
    · unfold HeapRBT.update_trip
      cases RBTUtils.get_node s.nodes s.toRBTUtils a with
      | none => simp [pure, Except.pure]
      | some ride =>
        simp only
        split_ifs
        · refine bind_ne_fuel _ _ (delete_by_index_ne_fuel _ _ _) fun r _ => ?_
          refine bind_ne_fuel _ _ (delete_by_id_ne_fuel _ _ _) fun t _ => ?_
          simp [pure, Except.pure]
        · refine bind_ne_fuel _ _ (fix_heap_down_ne_fuel _ _ _) fun r _ => ?_
          simp [pure, Except.pure]
        · simp [pure, Except.pure]
    · simp [pure, Except.pure]

/-- No run of the command loop stops for lack of fuel: every fault the model reports
is a null dereference or an index outside the heap array, never a bound of the
loops and recursions of the model. -/
theorem run_ne_fuel : ∀ (cs : List Command) (s : HeapRBT), (run cs s).2 ≠ .error .fuel := by
  intro cs
  induction cs with
  | nil => intro s; simp [run]
  | cons c cs ih =>
    intro s
    simp only [run]
    cases hst : step s c with
    | error e =>
      simp only
      intro h
      cases h
      exact step_ne_fuel s c hst
    | ok r =>
      obtain ⟨s1, o, go⟩ := r
      simp only
      cases go with
      | true => simpa using ih s1
      | false => simp

end GatorTaxi
